import Mathlib

/-!
Verification development for the smgrep retrieval pipeline.

The Rust sources are shallowly embedded: text is modelled as `List Char`
(one entry per code unit; the development restricts attention to
single-byte text without carriage returns, on which Rust's byte indices
and the model's list indices agree), `f32` / `f64` arithmetic is modelled
exactly over `ℚ`, fallible calls return `Except` / `Option`, and the
stateful sync engine is modelled by explicit state passing together with
an effect trace.
-/

/-! ### Text primitives (Rust `str` operations used by the chunker) -/

/-- Model of Rust string slices: a list of code units. -/
abbrev Str := List Char

/-- Rust `str::trim_start` (the model's inputs are ASCII, where Rust's
Unicode `White_Space` set and `Char.isWhitespace` agree). -/
def trimStartC (s : Str) : Str := s.dropWhile Char.isWhitespace

/-- Rust `str::trim_end`. -/
def trimEndC (s : Str) : Str := (s.reverse.dropWhile Char.isWhitespace).reverse

/-- Rust `str::trim`. -/
def trimC (s : Str) : Str := trimEndC (trimStartC s)

/-- Number of newline characters in a string. -/
def countNl (s : Str) : Nat := s.countP (fun c => c = '\n')

/-- Split at every `'\n'`; always returns one more piece than there are
newlines. -/
def splitNl : Str → List Str
  | [] => [[]]
  | c :: cs =>
    if c = '\n' then [] :: splitNl cs
    else
      match splitNl cs with
      | [] => [[c]]
      | l :: ls => (c :: l) :: ls

/-- Rust `str::lines` (on text without carriage returns): split at `'\n'`,
dropping one final empty piece produced by a trailing newline. -/
def linesOf (s : Str) : List Str :=
  if s = [] then []
  else
    let p := splitNl s
    if p.getLast? = some [] then p.dropLast else p

/-- Rust slice `s[a..b]`. -/
def sliceC (s : Str) (a b : Nat) : Str := (s.drop a).take (b - a)

/-- Rust `str::contains` for a literal needle. -/
def containsSeq (needle hay : Str) : Bool :=
  (List.range (hay.length + 1)).any (fun i => decide ((hay.drop i).take needle.length = needle))

/-- Positions of the newline characters of `s`, in order
(`memchr_iter(b'\n', bytes)` in `chunker/mod.rs`). -/
def nlPositions : Str → List Nat
  | [] => []
  | c :: cs => (if c = '\n' then [0] else []) ++ (nlPositions cs).map (fun p => p + 1)

/-! ### Chunk data model (`src/types.rs`) -/

/-- `ChunkType` from `src/types.rs`. -/
inductive ChunkType
  | Function
  | Class
  | Interface
  | Method
  | TypeAlias
  | Block
  | Other
deriving DecidableEq, Repr

/-- `Chunk` from `src/types.rs`. -/
structure Chunk where
  content : Str
  start_line : Nat
  end_line : Nat
  chunk_type : Option ChunkType
  context : List Str
  chunk_index : Option Int
  is_anchor : Option Bool
deriving DecidableEq, Repr

/-- `Chunk::new` from `src/types.rs`. -/
def Chunk.new (content : Str) (startLine endLine : Nat) (t : ChunkType)
    (ctx : List Str) : Chunk :=
  ⟨content, startLine, endLine, some t, ctx, none, some false⟩

/-! ### Chunker (`src/chunker/mod.rs`) -/

/-- `MAX_LINES` from `src/chunker/mod.rs`. -/
def MAX_LINES : Nat := 75

/-- `MAX_CHARS` from `src/chunker/mod.rs`. -/
def MAX_CHARS : Nat := 2000

/-- `OVERLAP_LINES` from `src/chunker/mod.rs`. -/
def OVERLAP_LINES : Nat := 10

/-- The line stride `(MAX_LINES - OVERLAP_LINES).max(1)` used by
`simple_chunk` and `split_if_too_big`. -/
def lineStride : Nat := max (MAX_LINES - OVERLAP_LINES) 1

/-- The loop body of `Chunker::line_range_to_byte_range`: walk the newline
positions, counting lines; on reaching `end_line` stop with that newline as
the end byte, on passing `start_line` set the start byte just after it. -/
def lineRangeGo (startLine endLine : Nat) : List Nat → Nat → Nat → Nat → Nat × Nat
  | [], _, sb, eb => (sb, eb)
  | idx :: rest, cur, sb, eb =>
    let cur' := cur + 1
    if cur' = endLine then (sb, idx)
    else if cur' = startLine then lineRangeGo startLine endLine rest cur' (idx + 1) eb
    else lineRangeGo startLine endLine rest cur' sb eb

/-- `Chunker::line_range_to_byte_range` from `src/chunker/mod.rs`. -/
def lineRangeToByteRange (content : Str) (startLine endLine : Nat) : Nat × Nat :=
  lineRangeGo startLine endLine (nlPositions content) 0 0 content.length

/-- Rust `str::floor_char_boundary(MAX_CHARS)`: in the single-byte-text
model every position is a boundary, so this is `min` with the length. -/
def floorCharBoundary (s : Str) (n : Nat) : Nat := min n s.length

/-- The loop of `Chunker::split_by_chars_impl`, with explicit fuel (the
Rust loop consumes at least one code unit of `iter` per iteration, so
`content.length + 1` units of fuel are enough to reproduce it). -/
def splitByCharsGo (ct : ChunkType) (ctx : List Str) : Nat → Str → Nat → List Chunk
  | 0, _, _ => []
  | fuel + 1, iter0, ln =>
    let iter := trimStartC iter0
    if iter = [] then []
    else
      let lim := floorCharBoundary iter MAX_CHARS
      let pre := iter.take lim
      let post := iter.drop lim
      let trimmed := trimEndC pre
      if trimmed = [] then splitByCharsGo ct ctx fuel post ln
      else
        let lns := (linesOf trimmed).length
        Chunk.new trimmed ln (ln + lns) ct ctx :: splitByCharsGo ct ctx fuel post (ln + lns)

/-- `Chunker::split_by_chars_impl` from `src/chunker/mod.rs`.  Under exact
arithmetic the 8-lane SIMD structure of the original plays no role here;
the function is a plain loop over the text. -/
def split_by_chars_impl (content : Str) (startLine : Nat) (ct : ChunkType)
    (ctx : List Str) : List Chunk :=
  splitByCharsGo ct ctx (content.length + 1) content startLine

/-- `Chunker::split_content_by_chars` from `src/chunker/mod.rs`. -/
def split_content_by_chars (input : Str) (startLine : Nat) (ctx : List Str) : List Chunk :=
  split_by_chars_impl input startLine ChunkType.Block ctx

/-- `Chunker::split_by_chars` from `src/chunker/mod.rs`. -/
def split_by_chars (c : Chunk) : List Chunk :=
  split_by_chars_impl c.content c.start_line (c.chunk_type.getD ChunkType.Other) c.context

/-- `Chunker::extract_header_line` from `src/chunker/mod.rs`. -/
def extract_header_line (text : Str) : Option Str :=
  ((linesOf text).map trimC).find? (fun s => !s.isEmpty)

/-- The line-window loop inside `Chunker::split_if_too_big` (the branch
taken when the line count exceeds `MAX_LINES`), with fuel as in
`splitByCharsGo` (`i` grows by `lineStride ≥ 1` per iteration). -/
def splitBigGo (c : Chunk) (lns : List Str) (header : Option Str) : Nat → Nat → List Chunk
  | 0, _ => []
  | fuel + 1, i =>
    if i < lns.length then
      let e := min (i + MAX_LINES) lns.length
      let subLines := (lns.drop i).take (e - i)
      if subLines.length < 3 ∧ 0 < i then splitBigGo c lns header fuel (i + lineStride)
      else
        let sb := (lineRangeToByteRange c.content i e).1
        let eb := (lineRangeToByteRange c.content i e).2
        let content0 := sliceC c.content sb eb
        let content1 :=
          match header with
          | some h =>
            if 0 < i ∧ c.chunk_type ≠ some ChunkType.Block then h ++ '\n' :: content0
            else content0
          | none => content0
        Chunk.new content1 (c.start_line + i) (c.start_line + e)
            (c.chunk_type.getD ChunkType.Other) c.context ::
          splitBigGo c lns header fuel (i + lineStride)
    else []

/-- `Chunker::split_if_too_big` from `src/chunker/mod.rs`. -/
def split_if_too_big (c : Chunk) : List Chunk :=
  let charCount := c.content.length
  let lns := linesOf c.content
  let lineCount := lns.length
  if lineCount ≤ MAX_LINES ∧ charCount ≤ MAX_CHARS then [c]
  else if MAX_CHARS < charCount ∧ lineCount ≤ MAX_LINES then split_by_chars c
  else
    let header := extract_header_line c.content
    let subChunks := splitBigGo c lns header (lns.length + 1) 0
    subChunks.flatMap (fun sc => if MAX_CHARS < sc.content.length then split_by_chars sc else [sc])

/-- The `format!("File: {}", path.display())` context label. -/
def fileLabel (path : Str) : Str := "File: ".data ++ path

/-- The window loop of `Chunker::simple_chunk`; the `sub_lines.is_empty()`
break of the original is unreachable because the loop guard `i < lines.len()`
already makes the window non-empty. -/
def simpleChunkGo (content : Str) (lns : List Str) (ctx : List Str) : Nat → Nat → List Chunk
  | 0, _ => []
  | fuel + 1, i =>
    if i < lns.length then
      let e := min (i + MAX_LINES) lns.length
      let sb := (lineRangeToByteRange content i e).1
      let eb := (lineRangeToByteRange content i e).2
      let subContent := sliceC content sb eb
      (if subContent.length ≤ MAX_CHARS then [Chunk.new subContent i e ChunkType.Block ctx]
       else split_content_by_chars subContent i ctx) ++
        simpleChunkGo content lns ctx fuel (i + lineStride)
    else []

/-- `Chunker::simple_chunk` from `src/chunker/mod.rs`. -/
def simple_chunk (content : Str) (path : Str) : List Chunk :=
  simpleChunkGo content (linesOf content) [fileLabel path] ((linesOf content).length + 1) 0

/-- The size-enforcement pass of `Chunker::chunk` (lines 496-499 of
`src/chunker/mod.rs`): flat-map `split_if_too_big` over the raw chunks. -/
def chunkSizePass (raw : List Chunk) : List Chunk := raw.flatMap split_if_too_big

/-- The comparator of the sort at the end of `chunk_with_tree_sitter`:
`a.start_line.cmp(&b.start_line).then(a.end_line.cmp(&b.end_line))` is not
`Greater`. -/
def chunkKeyLe (a b : Chunk) : Prop :=
  a.start_line < b.start_line ∨ (a.start_line = b.start_line ∧ a.end_line ≤ b.end_line)

instance : DecidableRel chunkKeyLe := fun a b =>
  inferInstanceAs (Decidable (_ ∨ _))

/-- The stable sort `combined.sort_by(key (start_line, end_line))` at the
end of `chunk_with_tree_sitter` (insertion sort is a stable sorting
algorithm, as Rust's `sort_by` is). -/
def sortChunksByKey (l : List Chunk) : List Chunk := List.insertionSort chunkKeyLe l

/-- `Chunker::chunk` on the grammar path, as a function of the combined
definition/gap chunk list assembled by `chunk_with_tree_sitter` just before
its final sort (the tree-sitter parse itself is an external grammar engine;
every `Chunk` list is a possible parse outcome). -/
def chunkViaTreeSitter (combined : List Chunk) : List Chunk :=
  chunkSizePass (sortChunksByKey combined)

/-- `Chunker::chunk` on the fallback path (grammar unavailable or parse
failed): `simple_chunk` followed by the size-enforcement pass. -/
def chunkViaFallback (content : Str) (path : Str) : List Chunk :=
  chunkSizePass (simple_chunk content path)

/-- A chunk whose line span is consistent with its content, as the chunks
assembled by `chunk_with_tree_sitter` and `simple_chunk` are: it spans at
most as many lines as its content has. -/
def chunkConsistent (c : Chunk) : Prop :=
  c.end_line - c.start_line ≤ (linesOf c.content).length

/-- Executable check that a chunk list is sorted by `(start_line, end_line)`. -/
def chunksSortedByKeyB : List Chunk → Bool
  | [] => true
  | [_] => true
  | a :: b :: rest => decide (chunkKeyLe a b) && chunksSortedByKeyB (b :: rest)

/-! ### ColBERT MaxSim scoring (`src/search/colbert.rs`) -/

/-- Rust `b as i8` for a byte value (`% 256` normalizes the model input to
an actual byte). -/
def asI8 (b : Nat) : Int :=
  if b % 256 < 128 then (b % 256 : Int) else (b % 256 : Int) - 256

/-- Dot product of two rows.  `dot_product_simd` accumulates the same
products in 8-lane groups plus a scalar tail; over exact arithmetic that
reassociation computes exactly this sum. -/
def dotProduct (a b : List ℚ) : ℚ := (List.zipWith (fun x y => x * y) a b).sum

/-- Dequantization of one document row: `(byte as i8 as f32) * scale`. -/
def dequantRow (scale : ℚ) (row : List Nat) : List ℚ :=
  row.map (fun b => (asI8 b : ℚ) * scale)

/-- The padding test of `max_sim_quantized`: a document row is padding when
every byte is zero as an `i8` (both the SIMD lanes and the scalar tail of
the original test the raw quantized values, before the scale multiply). -/
def isPaddingRow (row : List Nat) : Bool := row.all (fun b => decide (asI8 b = 0))

/-- `num_tokens = valid_len / dim` rows of `dim` bytes each (the
`(quantized.len() / dim) * dim` truncation drops a trailing partial row). -/
def toRowsGo (dim : Nat) : Nat → List Nat → List (List Nat)
  | 0, _ => []
  | n + 1, bytes => bytes.take dim :: toRowsGo dim n (bytes.drop dim)

/-- The document rows of a quantized buffer. -/
def toRows (bytes : List Nat) (dim : Nat) : List (List Nat) :=
  toRowsGo dim (bytes.length / dim) bytes

/-- `ndarray::Array2::is_empty`: no rows, or rows of width zero (the model
matrices are rectangular lists of rows). -/
def matIsEmpty {α : Type} (m : List (List α)) : Bool :=
  m.isEmpty || (m.headD []).isEmpty

/-- Maximum of a list with a default for the empty list; on a non-empty
list this is the running `max` that the Rust loops compute starting from
`f32::NEG_INFINITY`. -/
def listMaxD (l : List ℚ) (d : ℚ) : ℚ :=
  match l with
  | [] => d
  | x :: xs => xs.foldl max x

/-- `max_sim` from `src/search/colbert.rs`: for each query row, the maximum
dot product against any document row, summed over query rows; `0` if either
matrix is empty.  (The `0` default of `listMaxD` is unreachable because the
emptiness guard has already excluded an empty `doc`.) -/
def max_sim (query doc : List (List ℚ)) : ℚ :=
  if matIsEmpty query || matIsEmpty doc then 0
  else (query.map (fun q => listMaxD (doc.map (fun d => dotProduct q d)) 0)).sum

/-- `dequantize_colbert` from `src/search/colbert.rs`: dequantize each row,
keep the rows with some non-zero dequantized value (the padding test here
runs on the scaled values `val != 0.0`, unlike the one in
`max_sim_quantized`).  Both the `(0,0)` and the `(0,dim)` empty results are
the empty list of rows. -/
def dequantize_colbert (quantized : List Nat) (scale : ℚ) (dim : Nat) : List (List ℚ) :=
  if quantized.isEmpty || dim = 0 then []
  else
    ((toRows quantized dim).map (dequantRow scale)).filter
      (fun r => !(r.all (fun v => decide (v = 0))))

/-- One step of the streaming maximum of `max_sim_quantized`: skip padding
rows; otherwise fold the dot product into the running maximum (`none`
models the untouched `f32::NEG_INFINITY` / `found_token = false` state). -/
def streamRow (scale : ℚ) (q : List ℚ) (acc : Option ℚ) (r : List Nat) : Option ℚ :=
  if isPaddingRow r then acc
  else
    let dot := dotProduct q (dequantRow scale r)
    match acc with
    | none => some dot
    | some m => some (max m dot)

/-- `max_sim_quantized` from `src/search/colbert.rs`: stream over the
document rows once per query row, skipping all-zero rows, and add the
row maximum to the total only when some non-padding row was found. -/
def max_sim_quantized (query : List (List ℚ)) (docQuantized : List Nat)
    (docScale : ℚ) (dim : Nat) : ℚ :=
  if matIsEmpty query || docQuantized.isEmpty || dim = 0 then 0
  else
    (query.map (fun q =>
      (((toRows docQuantized dim).foldl (streamRow docScale q) none).getD 0))).sum

/-! ### Ranking (`src/search/ranking.rs`) -/

/-- `SearchResult` from `src/types.rs`, with the `f32` score modelled in
`ℚ` and the path kept as its code units. -/
structure SearchResult where
  path : Str
  content : Str
  score : ℚ
  start_line : Nat
  num_lines : Nat
  chunk_type : Option ChunkType
  is_anchor : Option Bool
deriving DecidableEq, Repr

/-- Lexicographic strict order on paths (Rust `PathBuf` ordering restricted
to the plain relative strings used here compares the underlying bytes). -/
def pathLt : Str → Str → Bool
  | [], [] => false
  | [], _ :: _ => true
  | _ :: _, [] => false
  | a :: as_, b :: bs =>
    if a < b then true
    else if b < a then false
    else pathLt as_ bs

/-- The comparator of the first sort in `apply_per_file_limit`:
`a.path.cmp(&b.path).then(score desc)` is not `Greater`.  On the total
order `ℚ` the `partial_cmp ... unwrap_or(Equal)` of the original is the
ordinary comparison. -/
def perFileLe (a b : SearchResult) : Prop :=
  if pathLt a.path b.path then True
  else if pathLt b.path a.path then False
  else b.score ≤ a.score

instance : DecidableRel perFileLe := fun a b => by
  unfold perFileLe
  split
  · exact inferInstance
  · split
    · exact inferInstance
    · exact inferInstance

/-- The comparator of the final sort in `apply_per_file_limit` (and of the
sort in step 4 of the search pipeline): score descending. -/
def scoreGe (a b : SearchResult) : Prop := b.score ≤ a.score

instance : DecidableRel scoreGe := fun a b =>
  inferInstanceAs (Decidable (_ ≤ _))

/-- The selection loop of `apply_per_file_limit`: walk the path-sorted
results keeping a per-run counter that resets whenever the path changes;
`none` models the `final_results.last().unwrap()` panic, which fires when
`i > 0` while nothing has been pushed yet. -/
def selectPerFileGo (limit : Nat) : List SearchResult → Nat → List SearchResult → Nat →
    Option (List SearchResult)
  | [], _, acc, _ => some acc
  | r :: rest, i, acc, count =>
    if i = 0 then
      let count := 0
      if count < limit then selectPerFileGo limit rest (i + 1) (acc ++ [r]) (count + 1)
      else selectPerFileGo limit rest (i + 1) acc count
    else
      match acc.getLast? with
      | none => none
      | some last =>
        let isNew := last.path ≠ r.path
        let count := if isNew then 0 else count
        if count < limit then selectPerFileGo limit rest (i + 1) (acc ++ [r]) (count + 1)
        else selectPerFileGo limit rest (i + 1) acc count

/-- `apply_per_file_limit` from `src/search/ranking.rs`: stable-sort by
`(path asc, score desc)`, keep at most `limit` per path run, then
stable-sort the survivors by score descending.  The `Option` records the
panic of the selection loop. -/
def apply_per_file_limit (results : List SearchResult) (limit : Nat) :
    Option (List SearchResult) :=
  (selectPerFileGo limit (List.insertionSort perFileLe results) 0 [] 0).map
    (List.insertionSort scoreGe)

/-! ### Anchor builder (`src/chunker/anchor.rs`) -/

/-- The preamble selection loop of `create_anchor_chunk` (lines 25-40 of
`src/chunker/anchor.rs`): push each non-blank line, counting lines and
their lengths, and stop after a push once 30 lines or 1200 characters have
been reached.  Returns `(preamble, non_blank, total_chars)`. -/
def selectPreambleGo : List Str → List Str → Nat → Nat → List Str × Nat × Nat
  | [], pre, nb, tc => (pre, nb, tc)
  | line :: rest, pre, nb, tc =>
    if trimC line = [] then selectPreambleGo rest pre nb tc
    else
      let pre' := pre ++ [line]
      let nb' := nb + 1
      let tc' := tc + line.length
      if 30 ≤ nb' ∨ 1200 ≤ tc' then (pre', nb', tc')
      else selectPreambleGo rest pre' nb' tc'

/-- The preamble of `create_anchor_chunk` for a given line list. -/
def selectPreamble (ls : List Str) : List Str × Nat × Nat :=
  selectPreambleGo ls [] 0 0

/-- The scan loop of `extract_top_comments`: keep blank lines, `//`, `#!`,
`# ` lines and `/* ... */` blocks from the top of the file, stopping at the
first other non-blank line. -/
def extractTopGo : List Str → Bool → List Str
  | [], _ => []
  | line :: rest, inBlock =>
    let t := trimC line
    if inBlock then
      line :: extractTopGo rest (!containsSeq "*/".data t)
    else if t = [] then line :: extractTopGo rest false
    else if "//".data.isPrefixOf t || "#!".data.isPrefixOf t || "# ".data.isPrefixOf t then
      line :: extractTopGo rest false
    else if "/*".data.isPrefixOf t then
      line :: extractTopGo rest (!containsSeq "*/".data t)
    else []

/-- The trailing-blank-line trim of `extract_top_comments`. -/
def dropTrailingBlanks (ls : List Str) : List Str :=
  (ls.reverse.dropWhile (fun l => (trimC l).isEmpty)).reverse

/-- `extract_top_comments` from `src/chunker/anchor.rs`. -/
def extract_top_comments (ls : List Str) : List Str :=
  dropTrailingBlanks (extractTopGo ls false)

/-- `create_anchor_chunk` from `src/chunker/anchor.rs`.  The import and
export extraction (lines 139-236) is driven by the external `regex` crate;
it is abstracted as the function arguments `importsOf` / `exportsOf`, which
no claim in this development depends on.  Everything else — preamble, top
comments, text assembly, the approximate end line, the `-1` sentinel index
and the anchor flag — is modelled from the source. -/
def create_anchor_chunk (importsOf exportsOf : List Str → List Str)
    (content : Str) (path : Str) : Chunk :=
  let lns := linesOf content
  let topComments := extract_top_comments lns
  let imports := importsOf lns
  let exports := exportsOf lns
  let pre := selectPreamble lns
  let preamble := pre.1
  let nonBlank := pre.2.1
  let base := "File: ".data ++ path
  let t1 :=
    if imports ≠ [] then base ++ "\n\nImports: ".data ++ List.intercalate ", ".data imports
    else base
  let t2 :=
    if exports ≠ [] then t1 ++ "\n\nExports: ".data ++ List.intercalate ", ".data exports
    else t1
  let t3 :=
    if topComments ≠ [] then
      t2 ++ "\n\nTop comments:\n".data ++ List.intercalate "\n".data topComments
    else t2
  let t4 :=
    if preamble ≠ [] then
      t3 ++ "\n\nPreamble:\n".data ++ List.intercalate "\n".data preamble
    else t3
  let anchorText := t4 ++ "\n\n---\n\n(anchor)".data
  let approxEndLine := min lns.length (max nonBlank (max preamble.length 5))
  { content := anchorText
    start_line := 0
    end_line := approxEndLine
    chunk_type := some ChunkType.Block
    context := [fileLabel path, "Anchor".data]
    chunk_index := some (-1)
    is_anchor := some true }

/-! ### Sync engine (`src/sync.rs`, `src/meta.rs`)

Paths, hashes and file contents are `Str`.  `compute_hash` (SHA-256 via the
external `sha2` crate) is abstracted as the deterministic function
`hashOf` of the environment; the chunker invocation is the environment
function `chunkRes` (its `Result` models the `?` at the `chunker.chunk`
call site); the embedder (`compute_hybrid`) only contributes the vector
payload of each record, which no claim reads, so records are modelled as
prepared chunks. -/

/-- `FileMeta` from `src/meta.rs`. -/
structure FileMeta where
  hash : Str
  mtime : Nat
deriving DecidableEq, Repr

/-- Association-list lookup (model of `HashMap::get`). -/
def alistGet {α : Type} (l : List (Str × α)) (k : Str) : Option α :=
  (l.find? (fun e => decide (e.1 = k))).map (fun e => e.2)

/-- Association-list update-or-append (model of `HashMap::insert`; the map
order is irrelevant to lookups). -/
def alistSet {α : Type} (l : List (Str × α)) (k : Str) (v : α) : List (Str × α) :=
  if (l.find? (fun e => decide (e.1 = k))).isSome then
    l.map (fun e => if e.1 = k then (k, v) else e)
  else l ++ [(k, v)]

/-- Association-list removal (model of `HashMap::remove`). -/
def alistRemove {α : Type} (l : List (Str × α)) (k : Str) : List (Str × α) :=
  l.filter (fun e => !decide (e.1 = k))

/-- `MetaStore` from `src/meta.rs`: the `files` map (path → hash, mtime),
the legacy `hashes` map (path → hash), and the dirty flag. -/
structure MetaStore where
  files : List (Str × FileMeta)
  hashes : List (Str × Str)
  dirty : Bool
deriving DecidableEq, Repr

/-- `MetaStore::get_hash`: the `files` entry's hash, else the `hashes`
entry. -/
def MetaStore.getHash (m : MetaStore) (p : Str) : Option Str :=
  match alistGet m.files p with
  | some fm => some fm.hash
  | none => alistGet m.hashes p

/-- `MetaStore::set_hash`: update the hash of an existing `files` entry in
place, otherwise insert a fresh entry (mtime 0) and drop any legacy entry. -/
def MetaStore.setHash (m : MetaStore) (p : Str) (h : Str) : MetaStore :=
  match alistGet m.files p with
  | some _ =>
    { m with
      files := m.files.map (fun e => if e.1 = p then (e.1, ⟨h, e.2.mtime⟩) else e)
      dirty := true }
  | none =>
    { files := m.files ++ [(p, ⟨h, 0⟩)]
      hashes := alistRemove m.hashes p
      dirty := true }

/-- `MetaStore::remove`. -/
def MetaStore.removeP (m : MetaStore) (p : Str) : MetaStore :=
  ⟨alistRemove m.files p, alistRemove m.hashes p, true⟩

/-- `MetaStore::all_paths`: keys of `files` chained with keys of `hashes`. -/
def MetaStore.allPaths (m : MetaStore) : List Str :=
  m.files.map (fun e => e.1) ++ m.hashes.map (fun e => e.1)

/-- The persisted record for one chunk: `PreparedChunk` from
`src/types.rs`, which is also the claim-relevant part of `VectorRecord`
(the dense/ColBERT payload attached by the embedder is read by no claim
and is omitted). -/
structure SRecord where
  id : Str
  path : Str
  hash : Str
  content : Str
  start_line : Nat
  end_line : Nat
  chunk_index : Option Nat
  is_anchor : Option Bool
  chunk_type : Option ChunkType
  context_prev : Option Str
  context_next : Option Str
deriving DecidableEq, Repr

/-- Modelled from the spec: the vector store itself (`src/store/lance.rs`
is not part of the snapshot; `src/store/mod.rs` only declares the trait).
Per the spec it is a durable per-repo table of chunk records supporting
upsert, delete-by-path and bulk hash listing; it is modelled as the list of
inserted records. -/
structure StoreState where
  records : List SRecord
deriving DecidableEq, Repr

/-- Modelled from the spec: `Store::insert_batch` appends the batch to the
table. -/
def StoreState.insertBatch (s : StoreState) (rs : List SRecord) : StoreState :=
  ⟨s.records ++ rs⟩

/-- Modelled from the spec: `Store::delete_files` drops every record whose
path is listed. -/
def StoreState.deleteFiles (s : StoreState) (ps : List Str) : StoreState :=
  ⟨s.records.filter (fun r => !decide (r.path ∈ ps))⟩

/-- Modelled from the spec: `Store::get_file_hashes` lists, per path, the
hash carried by that path's records (every record of one file shares the
file's hash). -/
def StoreState.fileHash (s : StoreState) (p : Str) : Option Str :=
  (s.records.find? (fun r => decide (r.path = p))).map (fun r => r.hash)

/-- The observable store / meta-store effects of a sync run, in order. -/
inductive SyncEff
  | deleteFiles (paths : List Str)
  | insertBatch (records : List SRecord)
  | metaSave
  | createFtsIndex
  | createVectorIndex
deriving DecidableEq, Repr

/-- `SyncResult` from `src/sync.rs`. -/
structure SyncResult where
  processed : Nat
  indexed : Nat
  skipped : Nat
  deleted : Nat
deriving DecidableEq, Repr

/-- The environment of one `initial_sync` run: the discovered files in
traversal order (`none` content models a per-file `std::fs::read` error),
the chunker, the hash function, the anchor builder's regex extractors and
the configured batch size. -/
structure SyncEnv where
  files : List (Str × Option Str)
  chunkRes : Str → Str → Except Unit (List Chunk)
  hashOf : Str → Str
  importsOf : List Str → List Str
  exportsOf : List Str → List Str
  batchSize : Nat

/-- The mutable state threaded through `initial_sync`. -/
structure SyncState where
  meta : MetaStore
  store : StoreState
  effs : List SyncEff
  processed : Nat
  indexed : Nat
  skipped : Nat
  queue : List (Str × Str × List SRecord)
  sinceSave : Nat
deriving DecidableEq, Repr

/-- `SAVE_INTERVAL` from `src/sync.rs`. -/
def SAVE_INTERVAL : Nat := 25

/-- The ordinary prepared chunks of one file (lines 169-196 of
`src/sync.rs`): `id = "{path}:{idx}"`, `chunk_index = idx + 1`,
`is_anchor = false`, neighbour contents as context. -/
def prepareOrdinary (p : Str) (h : Str) (chunks : List Chunk) : List SRecord :=
  chunks.enum.map (fun e =>
    { id := p ++ ':' :: Nat.toDigits 10 e.1
      path := p
      hash := h
      content := e.2.content
      start_line := e.2.start_line
      end_line := e.2.end_line
      chunk_index := some (e.1 + 1)
      is_anchor := some false
      chunk_type := e.2.chunk_type
      context_prev := if 0 < e.1 then (chunks.get? (e.1 - 1)).map Chunk.content else none
      context_next :=
        if e.1 < chunks.length - 1 then (chunks.get? (e.1 + 1)).map Chunk.content else none })

/-- The prepared chunks of one file (lines 150-196 of `src/sync.rs`): the
anchor record (`chunk_index = 0`, `is_anchor = true`) followed by the
ordinary chunks renumbered from 1. -/
def prepareFile (env : SyncEnv) (p : Str) (h : Str) (content : Str)
    (chunks : List Chunk) : List SRecord :=
  let anchor := create_anchor_chunk env.importsOf env.exportsOf content p
  { id := p ++ ":anchor".data
    path := p
    hash := h
    content := anchor.content
    start_line := anchor.start_line
    end_line := anchor.end_line
    chunk_index := some 0
    is_anchor := some true
    chunk_type := anchor.chunk_type
    context_prev := none
    context_next := none } :: prepareOrdinary p h chunks

/-- `SyncEngine::process_embed_batch` from `src/sync.rs`: flatten the
batch, embed (abstracted), insert the records, then write each file's hash
into the meta store; returns the number of files in the batch.  An empty
flattened batch returns 0 without touching the store. -/
def processEmbedBatch (st : SyncState) (batch : List (Str × Str × List SRecord)) :
    Nat × SyncState :=
  let allChunks := batch.flatMap (fun b => b.2.2)
  if allChunks = [] then (0, st)
  else
    { fst := batch.length
      snd :=
      { st with
        store := st.store.insertBatch allChunks
        meta := batch.foldl (fun m b => m.setHash b.1 b.2.1) st.meta
        effs := st.effs ++ [SyncEff.insertBatch allChunks] } }

/-- The per-file loop of `initial_sync` (lines 123-223 of `src/sync.rs`)
over the flattened hash results `(path, hash, content, needs_indexing)`:
count and skip unchanged files, count dry-run files, otherwise chunk
(propagating a chunk error, which aborts the sync), prepare, enqueue, and
flush a full batch, saving meta every `SAVE_INTERVAL` batched files. -/
def syncLoop (env : SyncEnv) (dryRun : Bool) :
    List (Str × Str × Str × Bool) → SyncState → Except Unit SyncState
  | [], st => .ok st
  | item :: rest, st =>
    let p := item.1
    let h := item.2.1
    let c := item.2.2.1
    let ni := item.2.2.2
    let st := { st with processed := st.processed + 1 }
    if !ni then syncLoop env dryRun rest { st with skipped := st.skipped + 1 }
    else if dryRun then syncLoop env dryRun rest { st with indexed := st.indexed + 1 }
    else
      match env.chunkRes p c with
      | .error e => .error e
      | .ok chunks =>
        let prepared := prepareFile env p h c chunks
        let st := { st with queue := st.queue ++ [(p, h, prepared)] }
        if env.batchSize ≤ st.queue.length then
          let batch := st.queue
          let step := processEmbedBatch { st with queue := [] } batch
          let st2 :=
            { step.2 with
              indexed := step.2.indexed + step.1
              sinceSave := step.2.sinceSave + batch.length }
          let st3 :=
            if SAVE_INTERVAL ≤ st2.sinceSave then
              { st2 with effs := st2.effs ++ [SyncEff.metaSave], sinceSave := 0 }
            else st2
          syncLoop env dryRun rest st3
        else syncLoop env dryRun rest st

/-- The stale paths of a run: meta paths (a set, hence deduplicated) that
are no longer on disk. -/
def stalePaths (env : SyncEnv) (m : MetaStore) : List Str :=
  m.allPaths.dedup.filter (fun p => decide (p ∉ env.files.map (fun f => f.1)))

/-- The hash lookup of `initial_sync`: the meta store's hash for the path,
falling back to the store's bulk hash map. -/
def lookupHash (m : MetaStore) (s : StoreState) (p : Str) : Option Str :=
  match m.getHash p with
  | some e => some e
  | none => s.fileHash p

/-- `SyncEngine::initial_sync` from `src/sync.rs` (the index lock, the
progress callbacks and the embedder are outside the model; data-parallel
hashing preserves order, as `par_iter().map().collect()` does). -/
def initialSync (env : SyncEnv) (meta0 : MetaStore) (store0 : StoreState)
    (dryRun : Bool) : Except Unit (SyncState × SyncResult) :=
  let deletedPaths := stalePaths env meta0
  let meta1 :=
    if dryRun = false ∧ deletedPaths ≠ [] then
      deletedPaths.foldl (fun m q => m.removeP q) meta0
    else meta0
  let store1 :=
    if dryRun = false ∧ deletedPaths ≠ [] then store0.deleteFiles deletedPaths else store0
  let effs1 : List SyncEff :=
    if dryRun = false ∧ deletedPaths ≠ [] then [SyncEff.deleteFiles deletedPaths] else []
  let deletedCount := deletedPaths.length
  let hashResults : List (Option (Str × Str × Str × Bool)) :=
    env.files.map (fun f => f.2.map (fun c =>
      let h := env.hashOf c
      (f.1, h, c, decide (lookupHash meta1 store1 f.1 ≠ some h))))
  let changedFiles : List Str := hashResults.filterMap (fun r =>
    match r with
    | some (p, _, _, ni) =>
      if ni ∧ ((meta1.getHash p).isSome ∨ (store1.fileHash p).isSome) then some p else none
    | none => none)
  let store2 :=
    if dryRun = false ∧ changedFiles ≠ [] then store1.deleteFiles changedFiles else store1
  let effs2 : List SyncEff :=
    if dryRun = false ∧ changedFiles ≠ [] then [SyncEff.deleteFiles changedFiles] else []
  let st0 : SyncState := ⟨meta1, store2, effs1 ++ effs2, 0, 0, 0, [], 0⟩
  match syncLoop env dryRun (hashResults.filterMap id) st0 with
  | .error e => .error e
  | .ok st =>
    let st :=
      if dryRun = false ∧ st.queue ≠ [] then
        let batch := st.queue
        let step := processEmbedBatch { st with queue := [] } batch
        { step.2 with indexed := step.2.indexed + step.1 }
      else st
    let st :=
      if dryRun = false then
        let st := { st with effs := st.effs ++ [SyncEff.metaSave] }
        if 0 < st.indexed then
          { st with effs := st.effs ++ [SyncEff.createFtsIndex, SyncEff.createVectorIndex] }
        else st
      else st
    .ok (st, ⟨st.processed, st.indexed, st.skipped, deletedCount⟩)

/-- The records handed to `Store::insert_batch` during a run, in order. -/
def insertedRecords (effs : List SyncEff) : List SRecord :=
  effs.flatMap (fun e =>
    match e with
    | .insertBatch rs => rs
    | _ => [])

/-- The meta store after the stale-path deletion of a non-dry run (when
there are no stale paths the fold is the identity, matching the guarded
branch of the source). -/
def metaStale (env : SyncEnv) (m : MetaStore) : MetaStore :=
  (stalePaths env m).foldl (fun mm q => mm.removeP q) m

/-- The store after the stale-path deletion of a non-dry run; `m` is the
meta store whose stale paths were deleted. -/
def storeStale (env : SyncEnv) (m : MetaStore) (s : StoreState) : StoreState :=
  s.deleteFiles (stalePaths env m)

/-- The `needs_indexing` bit a non-dry `initial_sync` run computes for a
readable file: the recomputed hash differs from the stored one (meta hash,
falling back to the store's hash map, both taken after stale deletion). -/
def needsIdx (env : SyncEnv) (m : MetaStore) (s : StoreState) (p c : Str) : Bool :=
  decide (lookupHash (metaStale env m) (storeStale env m s) p ≠ some (env.hashOf c))

/-- `Except.isOk` as a plain function. -/
def isOkE {ε α : Type} : Except ε α → Bool
  | .ok _ => true
  | .error _ => false

/-! ### Concrete fixtures used by counterexamples and witnesses -/

/-- A ten-character line. -/
def tenChars : Str := "abcdefghij".data

/-- 74 one-character lines followed by a single 2500-character line. -/
def demoC9content : Str :=
  (List.replicate 74 ['a', '\n']).flatten ++ List.replicate 2500 'b'

/-- A path with no grammar, so `Chunker::chunk` takes the fallback path. -/
def demoPath : Str := "demo.txt".data

/-- A 140-line definition chunk (139 ten-character lines, then a
1200-character line); its line span is consistent with its content. -/
def demoC1chunk : Chunk :=
  ⟨(List.replicate 139 (tenChars ++ ['\n'])).flatten ++ List.replicate 1200 'b',
    0, 139, some ChunkType.Function, [], none, some false⟩

/-- A search result fixture. -/
def mkSearchResult (p : Str) (sl : Nat) (sc : ℚ) : SearchResult :=
  ⟨p, [], sc, sl, 10, some ChunkType.Function, some false⟩

/-- The per-file-limit scenario of the spec: paths/scores
`[("a",5),("a",4),("a",3),("b",2)]`. -/
def demoResults : List SearchResult :=
  [mkSearchResult "a".data 1 5, mkSearchResult "a".data 2 4,
   mkSearchResult "a".data 3 3, mkSearchResult "b".data 4 2]

/-- A file consisting of one 1300-character line. -/
def demoLongLine : Str := List.replicate 1300 'a'

/-- An empty meta store. -/
def emptyMeta : MetaStore := ⟨[], [], false⟩

/-- An empty vector store. -/
def emptyStore : StoreState := ⟨[]⟩

/-- Import/export extraction that finds nothing. -/
def noExtract : List Str → List Str := fun _ => []

/-- Two readable files with a chunker that fails on every file. -/
def envChunkErr : SyncEnv :=
  ⟨[("f1".data, some "x".data), ("f2".data, some "y".data)],
    fun _ _ => .error (), id, noExtract, noExtract, 48⟩

/-- One readable file whose hash is already recorded, so a sync skips it. -/
def envIdemW : SyncEnv :=
  ⟨[("f1".data, some "x".data)],
    fun _ c => .ok [Chunk.new c 0 1 ChunkType.Block []],
    fun c => 'H' :: c, noExtract, noExtract, 48⟩

/-- The meta store matching `envIdemW`. -/
def metaIdemW : MetaStore := ⟨[("f1".data, ⟨'H' :: "x".data, 0⟩)], [], false⟩

/-- One unreadable file and one readable file, with a chunker that
succeeds. -/
def envReadErrW : SyncEnv :=
  ⟨[("f1".data, none), ("f2".data, some "y".data)],
    fun _ _ => .ok [], fun c => 'H' :: c, noExtract, noExtract, 48⟩

/-- One fresh readable file whose chunker yields one ordinary chunk. -/
def envAnchorW : SyncEnv :=
  ⟨[("g1".data, some "z".data)],
    fun _ c => .ok [Chunk.new c 0 1 ChunkType.Block []],
    fun c => 'H' :: c, noExtract, noExtract, 48⟩

/-! ### Named stages of `initial_sync` (definitionally equal to the lets of
`initialSync`; used to state lemmas about one run) -/

/-- The meta store after the stale-path deletion step of `initial_sync`. -/
def syncMeta1 (env : SyncEnv) (m : MetaStore) (dr : Bool) : MetaStore :=
  if dr = false ∧ stalePaths env m ≠ [] then
    (stalePaths env m).foldl (fun mm q => mm.removeP q) m
  else m

/-- The store after the stale-path deletion step of `initial_sync`. -/
def syncStore1 (env : SyncEnv) (m : MetaStore) (s : StoreState) (dr : Bool) : StoreState :=
  if dr = false ∧ stalePaths env m ≠ [] then s.deleteFiles (stalePaths env m) else s

/-- The effects of the stale-path deletion step. -/
def syncEffs1 (env : SyncEnv) (m : MetaStore) (dr : Bool) : List SyncEff :=
  if dr = false ∧ stalePaths env m ≠ [] then [SyncEff.deleteFiles (stalePaths env m)]
  else []

/-- The per-file hash results of `initial_sync` (`none` = read error). -/
def syncHashResults (env : SyncEnv) (m : MetaStore) (s : StoreState) (dr : Bool) :
    List (Option (Str × Str × Str × Bool)) :=
  env.files.map (fun f => f.2.map (fun c =>
    (f.1, env.hashOf c, c,
      decide (lookupHash (syncMeta1 env m dr) (syncStore1 env m s dr) f.1 ≠
        some (env.hashOf c)))))

/-- The changed known files whose old records get deleted before re-indexing. -/
def syncChangedFiles (env : SyncEnv) (m : MetaStore) (s : StoreState) (dr : Bool) :
    List Str :=
  (syncHashResults env m s dr).filterMap (fun r =>
    match r with
    | some (p, _, _, ni) =>
      if ni ∧ (((syncMeta1 env m dr).getHash p).isSome ∨
          ((syncStore1 env m s dr).fileHash p).isSome) then some p else none
    | none => none)

/-- The store after the changed-file deletion step. -/
def syncStore2 (env : SyncEnv) (m : MetaStore) (s : StoreState) (dr : Bool) : StoreState :=
  if dr = false ∧ syncChangedFiles env m s dr ≠ [] then
    (syncStore1 env m s dr).deleteFiles (syncChangedFiles env m s dr)
  else syncStore1 env m s dr

/-- The effects of the changed-file deletion step. -/
def syncEffs2 (env : SyncEnv) (m : MetaStore) (s : StoreState) (dr : Bool) : List SyncEff :=
  if dr = false ∧ syncChangedFiles env m s dr ≠ [] then
    [SyncEff.deleteFiles (syncChangedFiles env m s dr)]
  else []

/-- The state handed to the per-file loop of `initial_sync`. -/
def syncSt0 (env : SyncEnv) (m : MetaStore) (s : StoreState) (dr : Bool) : SyncState :=
  ⟨syncMeta1 env m dr, syncStore2 env m s dr,
    syncEffs1 env m dr ++ syncEffs2 env m s dr, 0, 0, 0, [], 0⟩

/-- The flattened per-file loop items of `initial_sync`. -/
def syncItems (env : SyncEnv) (m : MetaStore) (s : StoreState) (dr : Bool) :
    List (Str × Str × Str × Bool) :=
  (syncHashResults env m s dr).filterMap id

/-- The post-loop stage of `initial_sync`: flush the remaining batch, save
meta and build the indexes (non-dry runs only). -/
def syncPost (dr : Bool) (d : Nat) (st : SyncState) : Except Unit (SyncState × SyncResult) :=
  let st1 :=
    if dr = false ∧ st.queue ≠ [] then
      let batch := st.queue
      let step := processEmbedBatch { st with queue := [] } batch
      { step.2 with indexed := step.2.indexed + step.1 }
    else st
  let st2 :=
    if dr = false then
      let stx := { st1 with effs := st1.effs ++ [SyncEff.metaSave] }
      if 0 < stx.indexed then
        { stx with effs := stx.effs ++ [SyncEff.createFtsIndex, SyncEff.createVectorIndex] }
      else stx
    else st1
  .ok (st2, ⟨st2.processed, st2.indexed, st2.skipped, d⟩)

/-! ### Lemmas: ColBERT scoring -/

theorem streamRow_fold_some (s : ℚ) (q : List ℚ) (rows : List (List Nat)) (m : ℚ) :
    rows.foldl (streamRow s q) (some m) =
      some ((((rows.filter (fun r => !isPaddingRow r)).map
        (fun r => dotProduct q (dequantRow s r)))).foldl max m) := by
  induction rows generalizing m with
  | nil => rfl
  | cons r rs ih =>
    by_cases hp : isPaddingRow r
    · simp [streamRow, hp, List.filter_cons, ih]
    · simp [streamRow, hp, List.filter_cons, ih]

theorem streamRow_fold_none (s : ℚ) (q : List ℚ) (rows : List (List Nat)) :
    ((rows.foldl (streamRow s q) none).getD 0) =
      listMaxD ((rows.filter (fun r => !isPaddingRow r)).map
        (fun r => dotProduct q (dequantRow s r))) 0 := by
  induction rows with
  | nil => rfl
  | cons r rs ih =>
    by_cases hp : isPaddingRow r
    · simpa [streamRow, hp, List.filter_cons] using ih
    · simp [streamRow, hp, List.filter_cons, listMaxD, streamRow_fold_some]

theorem toRows_dim_zero (b : List Nat) : toRows b 0 = [] := by
  simp [toRows, toRowsGo]

theorem toRows_nil (dim : Nat) : toRows [] dim = [] := by
  cases dim with
  | zero => simp [toRows, toRowsGo]
  | succ d => simp [toRows, toRowsGo, Nat.div_eq_of_lt]

theorem toRowsGo_length_mem {dim : Nat} :
    ∀ (n : Nat) (bytes : List Nat), n * dim ≤ bytes.length →
      ∀ r ∈ toRowsGo dim n bytes, r.length = dim := by
  intro n
  induction n with
  | zero => intro bytes _ r hr; simp [toRowsGo] at hr
  | succ k ih =>
    intro bytes hlen r hr
    have hdim : dim ≤ bytes.length := by
      calc dim = 1 * dim := (one_mul dim).symm
        _ ≤ (k + 1) * dim := Nat.mul_le_mul_right dim (Nat.le_add_left 1 k)
        _ ≤ bytes.length := hlen
    simp only [toRowsGo, List.mem_cons] at hr
    rcases hr with h | h
    · subst h; exact List.length_take_of_le hdim
    · refine ih (bytes.drop dim) ?_ r h
      have : k * dim + dim ≤ bytes.length := by
        have := hlen
        rw [Nat.succ_mul] at this
        exact this
      simpa [List.length_drop] using Nat.le_sub_of_add_le this

theorem toRows_row_length {dim : Nat} {b : List Nat} {r : List Nat}
    (hr : r ∈ toRows b dim) : r.length = dim :=
  toRowsGo_length_mem (b.length / dim) b (Nat.div_mul_le_self b.length dim) r hr

theorem dotProduct_zero_right (l1 l2 : List ℚ) (h : ∀ y ∈ l2, y = 0) :
    dotProduct l1 l2 = 0 := by
  induction l2 generalizing l1 with
  | nil => cases l1 <;> simp [dotProduct]
  | cons y ys ih =>
    cases l1 with
    | nil => simp [dotProduct]
    | cons x xs =>
      have hy : y = 0 := h y (List.mem_cons_self y ys)
      have hrest := ih xs (fun z hz => h z (List.mem_cons_of_mem y hz))
      simp only [dotProduct, List.zipWith_cons_cons, List.sum_cons, hy, mul_zero]
      simpa [dotProduct] using hrest

theorem foldl_max_zero (l : List ℚ) (h : ∀ x ∈ l, x = 0) : l.foldl max 0 = 0 := by
  induction l with
  | nil => rfl
  | cons x xs ih =>
    have hx : x = 0 := h x (List.mem_cons_self x xs)
    simp only [List.foldl_cons, hx, max_self]
    exact ih (fun z hz => h z (List.mem_cons_of_mem x hz))

theorem listMaxD_zero_of_all_zero (l : List ℚ) (h : ∀ x ∈ l, x = 0) :
    listMaxD l 0 = 0 := by
  cases l with
  | nil => rfl
  | cons x xs =>
    have hx : x = 0 := h x (List.mem_cons_self x xs)
    simp only [listMaxD, hx]
    exact foldl_max_zero xs (fun z hz => h z (List.mem_cons_of_mem x hz))

theorem dequantRow_all_zero_of_padding {r : List Nat} (s : ℚ)
    (hp : isPaddingRow r = true) : ∀ v ∈ dequantRow s r, v = 0 := by
  intro v hv
  simp only [dequantRow, List.mem_map] at hv
  obtain ⟨b, hb, rfl⟩ := hv
  simp only [isPaddingRow, List.all_eq_true] at hp
  have := hp b hb
  simp only [decide_eq_true_eq] at this
  simp [this]

theorem dequant_all_iff_padding {s : ℚ} (hs : s ≠ 0) (r : List Nat) :
    ((dequantRow s r).all (fun v => decide (v = 0))) = isPaddingRow r := by
  induction r with
  | nil => rfl
  | cons b bs ih =>
    have hcomp : (decide ((asI8 b : ℚ) * s = 0)) = decide (asI8 b = 0) := by
      apply decide_eq_decide.mpr
      constructor
      · intro h
        rcases mul_eq_zero.mp h with h | h
        · exact_mod_cast h
        · exact absurd h hs
      · intro h
        have hz : ((asI8 b : ℚ)) = 0 := by exact_mod_cast h
        rw [hz, zero_mul]
    simp only [dequantRow, List.map_cons, List.all_cons, isPaddingRow] at ih ⊢
    rw [hcomp, ih]

theorem sum_rowMax_zero (Q : List (List ℚ)) (f : List ℚ → List ℚ)
    (h : ∀ q ∈ Q, f q = []) : (Q.map (fun q => listMaxD (f q) 0)).sum = 0 := by
  apply List.sum_eq_zero
  intro x hx
  obtain ⟨q, hqm, rfl⟩ := List.mem_map.mp hx
  rw [h q hqm]
  rfl

theorem maxSimQuantized_rows (Q : List (List ℚ)) (b : List Nat) (s : ℚ)
    (dim : Nat) (hq : ∀ q ∈ Q, q.length = dim) :
    max_sim_quantized Q b s dim =
      (Q.map (fun q =>
        listMaxD (((toRows b dim).filter (fun r => !isPaddingRow r)).map
          (fun r => dotProduct q (dequantRow s r))) 0)).sum := by
  rcases Q with _ | ⟨q0, Qs⟩
  · simp [max_sim_quantized, matIsEmpty]
  · by_cases hd : dim = 0
    · subst hd
      have hq0 : q0 = [] := List.length_eq_zero.mp (hq q0 (List.mem_cons_self _ _))
      subst hq0
      rw [show max_sim_quantized ([] :: Qs) b s 0 = 0 from by simp [max_sim_quantized, matIsEmpty]]
      exact (sum_rowMax_zero ([] :: Qs)
        (fun q => ((toRows b 0).filter (fun r => !isPaddingRow r)).map
          (fun r => dotProduct q (dequantRow s r)))
        (by intro q _; simp [toRows_dim_zero])).symm
    · by_cases hb : b = []
      · subst hb
        rw [show max_sim_quantized (q0 :: Qs) [] s dim = 0 from by
          simp [max_sim_quantized, matIsEmpty]]
        exact (sum_rowMax_zero (q0 :: Qs)
          (fun q => ((toRows [] dim).filter (fun r => !isPaddingRow r)).map
            (fun r => dotProduct q (dequantRow s r)))
          (by intro q _; simp [toRows_nil])).symm
      · have hq0len : q0.length = dim := hq q0 (List.mem_cons_self _ _)
        have hq0ne : q0 ≠ [] := by
          intro h
          subst h
          exact hd hq0len.symm
        have hQE : matIsEmpty (q0 :: Qs) = false := by
          simp [matIsEmpty, List.isEmpty_iff, hq0ne]
        have hguard : (matIsEmpty (q0 :: Qs) || List.isEmpty b || decide (dim = 0)) = false := by
          simp [hQE, List.isEmpty_iff, hb, hd]
        rw [max_sim_quantized, if_neg (by rw [hguard]; exact Bool.false_ne_true)]
        congr 1
        apply List.map_congr_left
        intro q _
        exact streamRow_fold_none s q (toRows b dim)

/-- Claim C2: for every query matrix (rows of width `dim`), byte buffer,
scale and dimension, `max_sim_quantized` returns the sum over query rows of
the maximum over non-padding document rows (rows with at least one non-zero
byte) of the dot product with the dequantized row
(`dequantize(d)[j] = (d[j] as i8) * scale`); a query row with no
non-padding document row contributes `0` (via the `listMaxD _ 0` default),
so a fully padded document scores `0`. -/
theorem claimC2_maxSimQuantized_rowwise (Q : List (List ℚ)) (b : List Nat) (s : ℚ)
    (dim : Nat) (hq : ∀ q ∈ Q, q.length = dim) :
    max_sim_quantized Q b s dim =
      (Q.map (fun q =>
        listMaxD (((toRows b dim).filter (fun r => !isPaddingRow r)).map
          (fun r => dotProduct q (dequantRow s r))) 0)).sum :=
  maxSimQuantized_rows Q b s dim hq

/-- Witness for claim C2 at `Q = [[1,0],[0,1]]`, `b = [127,0,0,127]`,
`scale = 1`, `dim = 2`. -/
theorem claimC2_witness :
    (∀ q ∈ [[(1 : ℚ), 0], [0, 1]], q.length = 2) ∧
      max_sim_quantized [[(1 : ℚ), 0], [0, 1]] [127, 0, 0, 127] 1 2 =
        (([[(1 : ℚ), 0], [0, 1]]).map (fun q =>
          listMaxD (((toRows [127, 0, 0, 127] 2).filter (fun r => !isPaddingRow r)).map
            (fun r => dotProduct q (dequantRow 1 r))) 0)).sum :=
  ⟨by decide, claimC2_maxSimQuantized_rowwise _ _ _ _ (by decide)⟩

/-- Claim C3: the streaming quantized scorer agrees with the
dequantize-then-score reference path, `max_sim_quantized Q b s dim =
max_sim Q (dequantize_colbert b s dim)`, for query matrices whose rows have
width `dim`; in particular both exclude padding rows and both yield `0` on
a fully padded document. -/
theorem claimC3_maxSimQuantized_refines_maxSim (Q : List (List ℚ)) (b : List Nat)
    (s : ℚ) (dim : Nat) (hq : ∀ q ∈ Q, q.length = dim) :
    max_sim_quantized Q b s dim = max_sim Q (dequantize_colbert b s dim) := by
  rcases Q with _ | ⟨q0, Qs⟩
  · simp [max_sim_quantized, max_sim, matIsEmpty]
  · by_cases hd : dim = 0
    · subst hd
      have hq0 : q0 = [] := List.length_eq_zero.mp (hq q0 (List.mem_cons_self _ _))
      subst hq0
      simp [max_sim_quantized, max_sim, matIsEmpty]
    · by_cases hb : b = []
      · subst hb
        simp [max_sim_quantized, max_sim, dequantize_colbert, matIsEmpty]
      · have hq0len : q0.length = dim := hq q0 (List.mem_cons_self _ _)
        have hq0ne : q0 ≠ [] := by
          intro h
          subst h
          exact hd hq0len.symm
        have hQE : matIsEmpty (q0 :: Qs) = false := by
          simp [matIsEmpty, List.isEmpty_iff, hq0ne]
        rw [maxSimQuantized_rows _ _ _ _ hq]
        have hDval : dequantize_colbert b s dim =
            ((toRows b dim).map (dequantRow s)).filter
              (fun r => !(r.all (fun v => decide (v = 0)))) := by
          simp [dequantize_colbert, hb, hd, List.isEmpty_iff]
        by_cases hDnil : dequantize_colbert b s dim = []
        · have hall : ∀ r ∈ toRows b dim,
              (dequantRow s r).all (fun v => decide (v = 0)) = true := by
            intro r hr
            have hmem : dequantRow s r ∈ (toRows b dim).map (dequantRow s) :=
              List.mem_map_of_mem _ hr
            have := List.filter_eq_nil_iff.mp (hDval ▸ hDnil) (dequantRow s r) hmem
            simpa using this
          rw [hDnil]
          rw [show max_sim (q0 :: Qs) [] = 0 from by simp [max_sim, matIsEmpty]]
          apply List.sum_eq_zero
          intro x hx
          obtain ⟨q, hqmem, rfl⟩ := List.mem_map.mp hx
          apply listMaxD_zero_of_all_zero
          intro y hy
          obtain ⟨r, hrmem, rfl⟩ := List.mem_map.mp hy
          have hr2 : r ∈ toRows b dim := List.mem_of_mem_filter hrmem
          apply dotProduct_zero_right
          intro v hv
          have h1 := hall r hr2
          rw [List.all_eq_true] at h1
          have := h1 v hv
          simpa using this
        · have hs : s ≠ 0 := by
            intro hs0
            apply hDnil
            rw [hDval]
            apply List.filter_eq_nil_iff.mpr
            intro a ha
            obtain ⟨r, hrmem, rfl⟩ := List.mem_map.mp ha
            subst hs0
            simp [dequantRow, List.all_eq_true]
          have hfilters : dequantize_colbert b s dim =
              ((toRows b dim).filter (fun r => !isPaddingRow r)).map (dequantRow s) := by
            rw [hDval, List.filter_map]
            congr 1
            apply List.filter_congr
            intro r _
            simp only [Function.comp_apply]
            rw [dequant_all_iff_padding hs]
          have hDne : matIsEmpty (dequantize_colbert b s dim) = false := by
            rcases hd0 : dequantize_colbert b s dim with _ | ⟨d0, Ds⟩
            · exact absurd hd0 hDnil
            · have hd0mem : d0 ∈ dequantize_colbert b s dim := by
                rw [hd0]
                exact List.mem_cons_self _ _
              rw [hfilters] at hd0mem
              obtain ⟨r, hrmem, rfl⟩ := List.mem_map.mp hd0mem
              have hrlen : r.length = dim := toRows_row_length (List.mem_of_mem_filter hrmem)
              have hlen2 : (dequantRow s r).length = dim := by simp [dequantRow, hrlen]
              have hne : dequantRow s r ≠ [] := by
                intro h
                rw [h] at hlen2
                exact hd hlen2.symm
              simp [matIsEmpty, List.isEmpty_iff, hne]
          rw [show max_sim (q0 :: Qs) (dequantize_colbert b s dim) =
              ((q0 :: Qs).map (fun q =>
                listMaxD ((dequantize_colbert b s dim).map (fun d => dotProduct q d)) 0)).sum
            from by simp [max_sim, hQE, hDne]]
          congr 1
          apply List.map_congr_left
          intro q _
          rw [hfilters, List.map_map]
          rfl

/-- Witness for claim C3 at `Q = [[1,0],[0,1]]`, `b = [127,0,129,64]`,
`scale = 2`, `dim = 2`. -/
theorem claimC3_witness :
    (∀ q ∈ [[(1 : ℚ), 0], [0, 1]], q.length = 2) ∧
      max_sim_quantized [[(1 : ℚ), 0], [0, 1]] [127, 0, 129, 64] 2 2 =
        max_sim [[(1 : ℚ), 0], [0, 1]] (dequantize_colbert [127, 0, 129, 64] 2 2) :=
  ⟨by decide, claimC3_maxSimQuantized_refines_maxSim _ _ _ _ (by decide)⟩

/-! ### Lemmas: anchor preamble -/

theorem selectPreambleGo_cons_blank (line : Str) (rest : List Str) (pre : List Str)
    (nb tc : Nat) (h : trimC line = []) :
    selectPreambleGo (line :: rest) pre nb tc = selectPreambleGo rest pre nb tc := by
  simp only [selectPreambleGo]
  rw [if_pos h]

theorem selectPreambleGo_cons_stop (line : Str) (rest : List Str) (pre : List Str)
    (nb tc : Nat) (h : ¬trimC line = [])
    (hs : 30 ≤ nb + 1 ∨ 1200 ≤ tc + line.length) :
    selectPreambleGo (line :: rest) pre nb tc = (pre ++ [line], nb + 1, tc + line.length) := by
  simp only [selectPreambleGo]
  rw [if_neg h, if_pos hs]

theorem selectPreambleGo_cons_step (line : Str) (rest : List Str) (pre : List Str)
    (nb tc : Nat) (h : ¬trimC line = [])
    (hs : ¬(30 ≤ nb + 1 ∨ 1200 ≤ tc + line.length)) :
    selectPreambleGo (line :: rest) pre nb tc =
      selectPreambleGo rest (pre ++ [line]) (nb + 1) (tc + line.length) := by
  simp only [selectPreambleGo]
  rw [if_neg h, if_neg hs]

theorem selectPreambleGo_shape :
    ∀ (ls pre : List Str) (nb tc : Nat),
      ∃ extra, (selectPreambleGo ls pre nb tc).1 = pre ++ extra ∧
        extra.Sublist ls ∧ (∀ l ∈ extra, trimC l ≠ []) := by
  intro ls
  induction ls with
  | nil =>
    intro pre nb tc
    exact ⟨[], by simp [selectPreambleGo], List.nil_sublist _, by simp⟩
  | cons line rest ih =>
    intro pre nb tc
    by_cases hbl : trimC line = []
    · obtain ⟨extra, h1, h2, h3⟩ := ih pre nb tc
      rw [selectPreambleGo_cons_blank line rest pre nb tc hbl]
      exact ⟨extra, h1, h2.cons _, h3⟩
    · by_cases hstop : 30 ≤ nb + 1 ∨ 1200 ≤ tc + line.length
      · rw [selectPreambleGo_cons_stop line rest pre nb tc hbl hstop]
        refine ⟨[line], rfl, (List.nil_sublist rest).cons₂ _, ?_⟩
        intro l hl
        rcases List.mem_singleton.mp hl with rfl
        exact hbl
      · rw [selectPreambleGo_cons_step line rest pre nb tc hbl hstop]
        obtain ⟨extra, h1, h2, h3⟩ := ih (pre ++ [line]) (nb + 1) (tc + line.length)
        refine ⟨line :: extra, by simpa using h1, h2.cons₂ _, ?_⟩
        intro l hl
        rcases List.mem_cons.mp hl with rfl | hl
        · exact hbl
        · exact h3 l hl

theorem selectPreambleGo_bounds :
    ∀ (ls pre : List Str) (nb tc : Nat),
      nb = pre.length → tc = (pre.map List.length).sum → nb < 30 → tc < 1200 →
      (selectPreambleGo ls pre nb tc).1.length ≤ 30 ∧
        (((selectPreambleGo ls pre nb tc).1.dropLast.map List.length).sum < 1200) := by
  intro ls
  induction ls with
  | nil =>
    intro pre nb tc hnb htc hnb30 htc1200
    constructor
    · simpa [selectPreambleGo, hnb.symm] using Nat.le_of_lt hnb30
    · refine lt_of_le_of_lt ?_ htc1200
      rw [htc]
      simp only [selectPreambleGo]
      exact List.Sublist.sum_le_sum
        ((List.dropLast_sublist pre).map List.length) (fun a _ => Nat.zero_le a)
  | cons line rest ih =>
    intro pre nb tc hnb htc hnb30 htc1200
    by_cases hbl : trimC line = []
    · rw [selectPreambleGo_cons_blank line rest pre nb tc hbl]
      exact ih pre nb tc hnb htc hnb30 htc1200
    · by_cases hstop : 30 ≤ nb + 1 ∨ 1200 ≤ tc + line.length
      · rw [selectPreambleGo_cons_stop line rest pre nb tc hbl hstop]
        constructor
        · simpa [hnb.symm] using Nat.lt_succ_iff.mp hnb30
        · have hdl : (pre ++ [line]).dropLast = pre := by simp
          simpa [hdl, htc.symm] using htc1200
      · rw [selectPreambleGo_cons_step line rest pre nb tc hbl hstop]
        push_neg at hstop
        refine ih (pre ++ [line]) (nb + 1) (tc + line.length) (by simp [hnb]) (by simp [htc])
          hstop.1 hstop.2

theorem splitNl_no_newline : ∀ (s : Str), (∀ c ∈ s, c ≠ '\n') → splitNl s = [s] := by
  intro s
  induction s with
  | nil => intro _; rfl
  | cons c cs ih =>
    intro h
    have hc : c ≠ '\n' := h c (List.mem_cons_self _ _)
    have hcs := ih (fun x hx => h x (List.mem_cons_of_mem _ hx))
    simp only [splitNl, if_neg hc, hcs]

theorem dropWhile_no_ws (l : Str) (h : ∀ c ∈ l, c.isWhitespace = false) :
    l.dropWhile Char.isWhitespace = l := by
  cases l with
  | nil => rfl
  | cons a t =>
    rw [List.dropWhile_cons]
    rw [h a (List.mem_cons_self _ _)]
    simp

theorem trimC_no_ws (l : Str) (h : ∀ c ∈ l, c.isWhitespace = false) : trimC l = l := by
  have h1 : trimStartC l = l := dropWhile_no_ws l h
  rw [trimC, h1, trimEndC]
  rw [dropWhile_no_ws l.reverse (fun c hc => h c (List.mem_reverse.mp hc))]
  exact List.reverse_reverse l

theorem demoLongLine_length : demoLongLine.length = 1300 := by
  rw [demoLongLine]
  exact List.length_replicate _ _

theorem demoLongLine_ne_nil : demoLongLine ≠ [] := by
  intro h
  have hl := demoLongLine_length
  rw [h] at hl
  exact absurd hl (by decide)

/-- Counterexample to claim C10 as stated: on a file consisting of one
1300-character line, the preamble selected by `create_anchor_chunk` is that
whole line — 1300 > 1200 characters of leading content. -/
theorem claimC10_counterexample :
    ¬ (((selectPreamble (linesOf demoLongLine)).1.map List.length).sum ≤ 1200) := by
  have hnn : ∀ c ∈ demoLongLine, c ≠ '\n' := by
    intro c hc
    rw [demoLongLine] at hc
    rw [List.eq_of_mem_replicate hc]
    decide
  have hlines : linesOf demoLongLine = [demoLongLine] := by
    rw [linesOf, if_neg demoLongLine_ne_nil]
    simp only [splitNl_no_newline _ hnn]
    rw [if_neg]
    simp [demoLongLine_ne_nil]
  have htrim : trimC demoLongLine ≠ [] := by
    rw [trimC_no_ws]
    · exact demoLongLine_ne_nil
    · intro c hc
      rw [demoLongLine] at hc
      rw [List.eq_of_mem_replicate hc]
      decide
  have hsel : selectPreamble (linesOf demoLongLine) = ([demoLongLine], 1, 1300) := by
    rw [hlines, selectPreamble, selectPreambleGo_cons_stop _ _ _ _ _ htrim]
    · simp [demoLongLine_length]
    · right
      rw [demoLongLine_length]
      norm_num
  rw [hsel]
  simp [demoLongLine_length]

/-- Claim C10 (amended): the preamble of the anchor chunk holds at most 30
non-blank lines of the file's leading content, in original order (a
sublist of the file's lines); the 1200-character budget bounds the lines
before the last one (the loop breaks only after pushing the line that
reaches 1200, so the whole preamble may exceed 1200 by up to the final
line's length). -/
theorem claimC10_preamble_bounds (content : Str) :
    (selectPreamble (linesOf content)).1.length ≤ 30 ∧
      (∀ l ∈ (selectPreamble (linesOf content)).1, trimC l ≠ []) ∧
      (selectPreamble (linesOf content)).1.Sublist (linesOf content) ∧
      ((((selectPreamble (linesOf content)).1.dropLast.map List.length).sum < 1200)) := by
  obtain ⟨extra, h1, h2, h3⟩ := selectPreambleGo_shape (linesOf content) [] 0 0
  have hb := selectPreambleGo_bounds (linesOf content) [] 0 0 rfl rfl (by norm_num) (by norm_num)
  have hsel : (selectPreamble (linesOf content)).1 = extra := by
    simpa [selectPreamble] using h1
  refine ⟨hb.1, ?_, ?_, hb.2⟩
  · intro l hl
    rw [hsel] at hl
    exact h3 l hl
  · rw [hsel]
    exact h2

/-! ### Lemmas: ranking -/

theorem pathLt_conn : ∀ a b : Str, pathLt a b = false → pathLt b a = false → a = b := by
  intro a
  induction a with
  | nil =>
    intro b h1 _
    cases b with
    | nil => rfl
    | cons c cs => simp [pathLt] at h1
  | cons x xs ih =>
    intro b h1 h2
    cases b with
    | nil => simp [pathLt] at h2
    | cons y ys =>
      by_cases hxy : x < y
      · simp [pathLt, hxy] at h1
      · by_cases hyx : y < x
        · simp [pathLt, hyx] at h2
        · have hval : x = y := le_antisymm (not_lt.mp hyx) (not_lt.mp hxy)
          subst hval
          simp only [pathLt, if_neg hxy, if_neg hyx] at h1 h2
          rw [ih ys h1 h2]

theorem pathLt_asymm : ∀ a b : Str, pathLt a b = true → pathLt b a = false := by
  intro a
  induction a with
  | nil =>
    intro b h
    cases b with
    | nil => simpa [pathLt] using h
    | cons c cs => simp [pathLt]
  | cons x xs ih =>
    intro b h
    cases b with
    | nil => simp [pathLt] at h
    | cons y ys =>
      by_cases hxy : x < y
      · simp [pathLt, hxy, asymm hxy, not_lt.mpr (le_of_lt hxy)]
      · by_cases hyx : y < x
        · simp [pathLt, hxy, hyx] at h
        · simp only [pathLt, if_neg hxy, if_neg hyx] at h ⊢
          exact ih ys h

theorem pathLt_trans : ∀ a b c : Str, pathLt a b = true → pathLt b c = true →
    pathLt a c = true := by
  intro a
  induction a with
  | nil =>
    intro b c h1 h2
    cases b with
    | nil => simp [pathLt] at h1
    | cons y ys =>
      cases c with
      | nil => simp [pathLt] at h2
      | cons z zs => simp [pathLt]
  | cons x xs ih =>
    intro b c h1 h2
    cases b with
    | nil => simp [pathLt] at h1
    | cons y ys =>
      cases c with
      | nil => simp [pathLt] at h2
      | cons z zs =>
        by_cases hxy : x < y
        · by_cases hyz : y < z
          · simp [pathLt, lt_trans hxy hyz]
          · by_cases hzy : z < y
            · simp [pathLt, hyz, hzy] at h2
            · have : y = z := le_antisymm (not_lt.mp hzy) (not_lt.mp hyz)
              subst this
              simp [pathLt, hxy]
        · by_cases hyx : y < x
          · simp [pathLt, hxy, hyx] at h1
          · have hv : x = y := le_antisymm (not_lt.mp hyx) (not_lt.mp hxy)
            subst hv
            simp only [pathLt, if_neg hxy, if_neg hyx] at h1
            by_cases hyz : x < z
            · simp [pathLt, hyz]
            · by_cases hzy : z < x
              · simp [pathLt, hyz, hzy] at h2
              · simp only [pathLt, if_neg hyz, if_neg hzy] at h2 ⊢
                exact ih ys zs h1 h2

theorem perFileLe_total : ∀ a b : SearchResult, perFileLe a b ∨ perFileLe b a := by
  intro a b
  unfold perFileLe
  by_cases h1 : pathLt a.path b.path = true
  · left
    simp [h1]
  · by_cases h2 : pathLt b.path a.path = true
    · right
      simp [h2]
    · rcases le_total a.score b.score with h | h
      · right
        simp [h1, h2, h]
      · left
        simp [h1, h2, h]

theorem perFileLe_path (a b : SearchResult) (h : perFileLe a b) :
    pathLt b.path a.path = false := by
  unfold perFileLe at h
  by_cases h1 : pathLt a.path b.path = true
  · exact pathLt_asymm _ _ h1
  · by_cases h2 : pathLt b.path a.path = true
    · rw [if_neg h1, if_pos h2] at h
      exact absurd h not_false
    · simpa using h2

theorem perFileLe_trans : ∀ a b c : SearchResult,
    perFileLe a b → perFileLe b c → perFileLe a c := by
  intro a b c h1 h2
  unfold perFileLe at *
  by_cases hab : pathLt a.path b.path = true
  · by_cases hbc : pathLt b.path c.path = true
    · simp [pathLt_trans _ _ _ hab hbc]
    · by_cases hcb : pathLt c.path b.path = true
      · rw [if_neg hbc, if_pos hcb] at h2
        exact absurd h2 not_false
      · have hbceq : b.path = c.path :=
          pathLt_conn _ _ (by simpa using hbc) (by simpa using hcb)
        have hac : pathLt a.path c.path = true := hbceq ▸ hab
        simp [hac]
  · by_cases hba : pathLt b.path a.path = true
    · rw [if_neg hab, if_pos hba] at h1
      exact absurd h1 not_false
    · have habeq : a.path = b.path :=
        pathLt_conn _ _ (by simpa using hab) (by simpa using hba)
      rw [if_neg hab, if_neg hba] at h1
      by_cases hbc : pathLt b.path c.path = true
      · have hac : pathLt a.path c.path = true := habeq ▸ hbc
        simp [hac]
      · by_cases hcb : pathLt c.path b.path = true
        · rw [if_neg hbc, if_pos hcb] at h2
          exact absurd h2 not_false
        · rw [if_neg hbc, if_neg hcb] at h2
          have h3 : pathLt a.path c.path = false := by
            rw [habeq]
            simpa using hbc
          have h4 : pathLt c.path a.path = false := by
            rw [habeq]
            simpa using hcb
          rw [if_neg (by simp [h3]), if_neg (by simp [h4])]
          exact le_trans h2 h1

instance : IsTotal SearchResult perFileLe := ⟨perFileLe_total⟩

instance : IsTrans SearchResult perFileLe := ⟨perFileLe_trans⟩

instance : IsTotal SearchResult scoreGe := ⟨fun a b => le_total b.score a.score⟩

instance : IsTrans SearchResult scoreGe := ⟨fun _ _ _ h1 h2 => le_trans h2 h1⟩

theorem selectPerFileGo_nil (limit : Nat) (i count : Nat) (acc : List SearchResult) :
    selectPerFileGo limit [] i acc count = some acc := rfl

theorem selectPerFileGo_cons_zero (limit : Nat) (r : SearchResult)
    (rest acc : List SearchResult) (count : Nat) (h : 0 < limit) :
    selectPerFileGo limit (r :: rest) 0 acc count =
      selectPerFileGo limit rest 1 (acc ++ [r]) 1 := by
  simp only [selectPerFileGo]
  rw [if_pos trivial, if_pos h]

theorem selectPerFileGo_cons_none (limit : Nat) (r : SearchResult)
    (rest acc : List SearchResult) (i count : Nat) (hi : ¬ i = 0)
    (hl : acc.getLast? = none) :
    selectPerFileGo limit (r :: rest) i acc count = none := by
  simp only [selectPerFileGo]
  rw [if_neg hi, hl]

theorem selectPerFileGo_cons_push (limit : Nat) (r lr : SearchResult)
    (rest acc : List SearchResult) (i count : Nat) (hi : ¬ i = 0)
    (hl : acc.getLast? = some lr)
    (hc : (if lr.path ≠ r.path then 0 else count) < limit) :
    selectPerFileGo limit (r :: rest) i acc count =
      selectPerFileGo limit rest (i + 1) (acc ++ [r])
        ((if lr.path ≠ r.path then 0 else count) + 1) := by
  simp only [selectPerFileGo]
  rw [if_neg hi, hl]
  simp only []
  rw [if_pos hc]

theorem selectPerFileGo_cons_skip (limit : Nat) (r lr : SearchResult)
    (rest acc : List SearchResult) (i count : Nat) (hi : ¬ i = 0)
    (hl : acc.getLast? = some lr)
    (hc : ¬ ((if lr.path ≠ r.path then 0 else count) < limit)) :
    selectPerFileGo limit (r :: rest) i acc count =
      selectPerFileGo limit rest (i + 1) acc (if lr.path ≠ r.path then 0 else count) := by
  simp only [selectPerFileGo]
  rw [if_neg hi, hl]
  simp only []
  rw [if_neg hc]

theorem mem_of_getLast?_eq_some {α : Type} {l : List α} {a : α}
    (h : l.getLast? = some a) : a ∈ l := by
  induction l with
  | nil => simp at h
  | cons x xs ih =>
    cases xs with
    | nil =>
      simp only [List.getLast?_singleton, Option.some.injEq] at h
      subst h
      exact List.mem_singleton_self _
    | cons y ys =>
      rw [List.getLast?_cons_cons] at h
      exact List.mem_cons_of_mem _ (ih h)

theorem selectPerFileGo_spec (limit : Nat) (hlim : 1 ≤ limit) :
    ∀ (xs acc : List SearchResult) (i count : Nat),
      List.Pairwise perFileLe xs →
      (∀ p, acc.countP (fun r => decide (r.path = p)) ≤ limit) →
      (∀ lr, acc.getLast? = some lr →
        acc.countP (fun r => decide (r.path = lr.path)) ≤ count) →
      count ≤ limit →
      (∀ x ∈ xs, ∀ lr, acc.getLast? = some lr → lr.path ≠ x.path →
        acc.countP (fun r => decide (r.path = x.path)) = 0) →
      (∀ a ∈ acc, ∀ x ∈ xs, pathLt x.path a.path = false) →
      (i ≠ 0 → acc ≠ []) →
      (i = 0 → acc = []) →
      ∃ res, selectPerFileGo limit xs i acc count = some res ∧
        ∀ p, res.countP (fun r => decide (r.path = p)) ≤ limit := by
  intro xs
  induction xs with
  | nil =>
    intro acc i count _ hA _ _ _ _ _ _
    exact ⟨acc, selectPerFileGo_nil limit i count acc, hA⟩
  | cons r rest ih =>
    intro acc i count hF hA hB hC hD hE hG hH
    have hFrest : List.Pairwise perFileLe rest := (List.pairwise_cons.mp hF).2
    have hFhead : ∀ x ∈ rest, perFileLe r x := (List.pairwise_cons.mp hF).1
    by_cases hi : i = 0
    · subst hi
      have hacc : acc = [] := hH rfl
      subst hacc
      rw [selectPerFileGo_cons_zero limit r rest [] count hlim]
      apply ih [r] 1 1 hFrest
      · intro p
        simp only [List.countP_cons, List.countP_nil]
        split <;> omega
      · intro lr hlr
        simp only [List.getLast?_singleton, Option.some.injEq] at hlr
        subst hlr
        simp [List.countP_cons]
      · exact hlim
      · intro x hx lr hlr hne
        simp only [List.getLast?_singleton, Option.some.injEq] at hlr
        subst hlr
        simp only [List.countP_cons, List.countP_nil]
        rw [if_neg]
        simp only [decide_eq_true_eq]
        exact fun h => hne h
      · intro a ha x hx
        rcases List.mem_singleton.mp ha with rfl
        exact perFileLe_path _ _ (hFhead x hx)
      · intro _
        simp
      · intro h
        exact absurd h one_ne_zero
    · obtain ⟨lr, hl⟩ : ∃ lr, acc.getLast? = some lr := by
        rcases h : acc.getLast? with _ | lr
        · exact absurd (List.getLast?_eq_none_iff.mp h) (hG hi)
        · exact ⟨lr, rfl⟩
      by_cases hnew : lr.path ≠ r.path
      · -- new path starts: count resets to 0 < limit, push
        have hc : (if lr.path ≠ r.path then 0 else count) < limit := by
          rw [if_pos hnew]
          exact hlim
        rw [selectPerFileGo_cons_push limit r lr rest acc i count hi hl hc]
        rw [if_pos hnew]
        have hcnt0 : acc.countP (fun x => decide (x.path = r.path)) = 0 :=
          hD r (List.mem_cons_self _ _) lr hl hnew
        apply ih (acc ++ [r]) (i + 1) 1 hFrest
        · intro p
          rw [List.countP_append]
          by_cases hp : r.path = p
          · subst hp
            rw [hcnt0]
            simp [List.countP_cons]
            omega
          · have : List.countP (fun x => decide (x.path = p)) [r] = 0 := by
              simp [List.countP_cons, hp]
            rw [this, Nat.add_zero]
            exact hA p
        · intro lr' hlr'
          rw [List.getLast?_concat] at hlr'
          injection hlr' with hlr'
          subst hlr'
          rw [List.countP_append, hcnt0]
          simp [List.countP_cons]
        · exact hlim
        · intro x hx lr' hlr' hne
          rw [List.getLast?_concat] at hlr'
          injection hlr' with hlr'
          subst hlr'
          rw [List.countP_append]
          have h2 : List.countP (fun y => decide (y.path = x.path)) [r] = 0 := by
            simp only [List.countP_cons, List.countP_nil]
            rw [if_neg]
            simp only [decide_eq_true_eq]
            exact fun h => hne h
          rw [h2, Nat.add_zero]
          -- if x's path occurred in acc it would force lr.path = r.path
          by_cases hsame : lr.path = x.path
          · exfalso
            have hlrmem : lr ∈ acc := mem_of_getLast?_eq_some hl
            have h3 : pathLt r.path lr.path = false :=
              hE lr hlrmem r (List.mem_cons_self _ _)
            have h4 : pathLt lr.path r.path = false := by
              rw [hsame]
              exact perFileLe_path _ _ (hFhead x hx)
            exact hnew (pathLt_conn _ _ h4 h3)
          · exact hD x (List.mem_cons_of_mem _ hx) lr hl hsame
        · intro a ha x hx
          rcases List.mem_append.mp ha with ha | ha
          · exact hE a ha x (List.mem_cons_of_mem _ hx)
          · rcases List.mem_singleton.mp ha with rfl
            exact perFileLe_path _ _ (hFhead x hx)
        · intro _
          simp
        · intro h
          exact absurd h (Nat.succ_ne_zero i)
      · -- same path as the current run
        push_neg at hnew
        by_cases hc : (if lr.path ≠ r.path then 0 else count) < limit
        · rw [selectPerFileGo_cons_push limit r lr rest acc i count hi hl hc]
          rw [if_neg (by simpa using hnew)] at hc ⊢
          have hcntB := hB lr hl
          apply ih (acc ++ [r]) (i + 1) (count + 1) hFrest
          · intro p
            rw [List.countP_append]
            by_cases hp : r.path = p
            · subst hp
              have hle : List.countP (fun x => decide (x.path = r.path)) acc ≤ count := by
                rw [hnew] at hcntB
                exact hcntB
              have hone : List.countP (fun x => decide (x.path = r.path)) [r] = 1 := by
                simp
              rw [hone]
              omega
            · have : List.countP (fun x => decide (x.path = p)) [r] = 0 := by
                simp [List.countP_cons, hp]
              rw [this, Nat.add_zero]
              exact hA p
          · intro lr' hlr'
            rw [List.getLast?_concat] at hlr'
            injection hlr' with hlr'
            subst hlr'
            rw [List.countP_append]
            have hle : List.countP (fun x => decide (x.path = r.path)) acc ≤ count := by
              rw [hnew] at hcntB
              exact hcntB
            have hone : List.countP (fun x => decide (x.path = r.path)) [r] = 1 := by
              simp
            rw [hone]
            omega
          · omega
          · intro x hx lr' hlr' hne
            rw [List.getLast?_concat] at hlr'
            injection hlr' with hlr'
            subst hlr'
            rw [List.countP_append]
            have h2 : List.countP (fun y => decide (y.path = x.path)) [r] = 0 := by
              simp only [List.countP_cons, List.countP_nil]
              rw [if_neg]
              simp only [decide_eq_true_eq]
              exact fun h => hne h
            rw [h2, Nat.add_zero]
            exact hD x (List.mem_cons_of_mem _ hx) lr hl (hnew ▸ hne)
          · intro a ha x hx
            rcases List.mem_append.mp ha with ha | ha
            · exact hE a ha x (List.mem_cons_of_mem _ hx)
            · rcases List.mem_singleton.mp ha with rfl
              exact perFileLe_path _ _ (hFhead x hx)
          · intro _
            simp
          · intro h
            exact absurd h (Nat.succ_ne_zero i)
        · rw [selectPerFileGo_cons_skip limit r lr rest acc i count hi hl hc]
          rw [if_neg (by simpa using hnew)] at hc ⊢
          apply ih acc (i + 1) count hFrest hA (fun lr' hlr' => hB lr' hlr') hC
          · intro x hx lr' hlr' hne
            exact hD x (List.mem_cons_of_mem _ hx) lr' hlr' hne
          · intro a ha x hx
            exact hE a ha x (List.mem_cons_of_mem _ hx)
          · intro _
            exact hG hi
          · intro h
            exact absurd h (Nat.succ_ne_zero i)

/-- Counterexample to claim C7 as stated: with `limit = 0` and two results,
the selection loop of `apply_per_file_limit` pushes nothing in its first
iteration and then panics on `final_results.last().unwrap()` (the model's
`none`), so the claimed properties of the output fail for `k = 0`. -/
theorem claimC7_counterexample :
    apply_per_file_limit [mkSearchResult "a".data 1 5, mkSearchResult "b".data 4 2] 0 =
      none := by
  rfl

/-- Claim C7 (amended): for every result list and every limit `k ≥ 1`,
`apply_per_file_limit` returns a result list in which no path occurs more
than `k` times and which is ordered by score descending; on the spec's
example (`[("a",5),("a",4),("a",3),("b",2)]`, `k = 2`) the output is
`[("a",5),("a",4),("b",2)]`.  (For `k = 0` with at least two results the
function panics, see the counterexample.) -/
theorem claimC7_apply_per_file_limit :
    (∀ (results : List SearchResult) (limit : Nat), 1 ≤ limit →
      ∃ out, apply_per_file_limit results limit = some out ∧
        (∀ p : Str, out.countP (fun r => decide (r.path = p)) ≤ limit) ∧
        List.Pairwise scoreGe out) ∧
      apply_per_file_limit demoResults 2 =
        some [mkSearchResult "a".data 1 5, mkSearchResult "a".data 2 4,
          mkSearchResult "b".data 4 2] := by
  constructor
  · intro results limit hlim
    have hsorted : List.Pairwise perFileLe (List.insertionSort perFileLe results) :=
      List.sorted_insertionSort perFileLe results
    obtain ⟨res, hres, hcnt⟩ := selectPerFileGo_spec limit hlim
      (List.insertionSort perFileLe results) [] 0 0 hsorted
      (by intro p; simp)
      (by intro lr h; simp at h)
      (Nat.zero_le _)
      (by intro x _ lr h; simp at h)
      (by intro a ha; simp at ha)
      (fun h => absurd rfl h)
      (fun _ => rfl)
    refine ⟨List.insertionSort scoreGe res, ?_, ?_, ?_⟩
    · rw [apply_per_file_limit, hres]
      rfl
    · intro p
      have hperm := List.perm_insertionSort scoreGe res
      rw [hperm.countP_eq]
      exact hcnt p
    · exact List.sorted_insertionSort scoreGe res
  · rfl

/-- Witness for claim C7 at the spec's example input with `k = 2`. -/
theorem claimC7_witness :
    1 ≤ 2 ∧ ∃ out, apply_per_file_limit demoResults 2 = some out ∧
      (∀ p : Str, out.countP (fun r => decide (r.path = p)) ≤ 2) ∧
      List.Pairwise scoreGe out :=
  ⟨by decide, claimC7_apply_per_file_limit.1 demoResults 2 (by decide)⟩

/-! ### Lemmas: newline positions and line counting -/

theorem nlPositions_cons (c : Char) (s : Str) :
    nlPositions (c :: s) =
      (if c = '\n' then [0] else []) ++ (nlPositions s).map (fun p => p + 1) := rfl

theorem nlPositions_nil : nlPositions [] = [] := rfl

theorem nlPositions_no_newline (s : Str) (h : ∀ c ∈ s, c ≠ '\n') :
    nlPositions s = [] := by
  induction s with
  | nil => rfl
  | cons c cs ih =>
    rw [nlPositions_cons, if_neg (h c (List.mem_cons_self _ _))]
    rw [ih (fun x hx => h x (List.mem_cons_of_mem _ hx))]
    rfl

theorem nlPositions_append_no_newline (u v : Str) (h : ∀ c ∈ u, c ≠ '\n') :
    nlPositions (u ++ v) = (nlPositions v).map (fun p => p + u.length) := by
  induction u with
  | nil => simp
  | cons c cs ih =>
    rw [List.cons_append, nlPositions_cons, if_neg (h c (List.mem_cons_self _ _))]
    rw [ih (fun x hx => h x (List.mem_cons_of_mem _ hx))]
    simp only [List.nil_append, List.map_map]
    apply List.map_congr_left
    intro p _
    simp only [Function.comp_apply, List.length_cons]
    omega

theorem countNl_append (u v : Str) : countNl (u ++ v) = countNl u + countNl v := by
  unfold countNl
  exact List.countP_append _ _ _

theorem countNl_eq_nlPositions_length (s : Str) : countNl s = (nlPositions s).length := by
  induction s with
  | nil => rfl
  | cons c cs ih =>
    rw [nlPositions_cons]
    by_cases hc : c = '\n'
    · subst hc
      simp only [if_pos rfl, List.length_append, List.length_map, List.length_cons,
        List.length_nil]
      unfold countNl at *
      rw [List.countP_cons]
      simp [ih]
      omega
    · simp only [if_neg hc, List.nil_append, List.length_map]
      unfold countNl at *
      rw [List.countP_cons]
      simp [ih, hc]

theorem countNl_take_pos (s : Str) :
    ∀ j v, (nlPositions s).get? j = some v → countNl (s.take v) = j := by
  induction s with
  | nil => intro j v hj; simp [nlPositions_nil] at hj
  | cons c cs ih =>
    intro j v hj
    rw [nlPositions_cons] at hj
    by_cases hc : c = '\n'
    · subst hc
      rw [if_pos rfl] at hj
      cases j with
      | zero =>
        simp only [List.cons_append, List.nil_append, List.get?_cons_zero,
          Option.some.injEq] at hj
        subst hj
        rfl
      | succ j' =>
        simp only [List.cons_append, List.nil_append, List.get?_cons_succ,
          List.get?_map] at hj
        rcases h2 : (nlPositions cs).get? j' with _ | w
        · rw [h2] at hj; simp at hj
        · rw [h2] at hj
          rw [Option.map_some'] at hj
          injection hj with hj
          subst hj
          rw [List.take_succ_cons]
          unfold countNl
          rw [List.countP_cons]
          have := ih j' w h2
          unfold countNl at this
          simp [this]
    · rw [if_neg hc, List.nil_append, List.get?_map] at hj
      rcases h2 : (nlPositions cs).get? j with _ | w
      · rw [h2] at hj; simp at hj
      · rw [h2] at hj
        rw [Option.map_some'] at hj
        injection hj with hj
        subst hj
        rw [List.take_succ_cons]
        unfold countNl
        rw [List.countP_cons]
        have := ih j w h2
        unfold countNl at this
        simp [this, hc]

theorem countNl_take_pos_succ (s : Str) :
    ∀ j v, (nlPositions s).get? j = some v → countNl (s.take (v + 1)) = j + 1 := by
  induction s with
  | nil => intro j v hj; simp [nlPositions_nil] at hj
  | cons c cs ih =>
    intro j v hj
    rw [nlPositions_cons] at hj
    by_cases hc : c = '\n'
    · subst hc
      rw [if_pos rfl] at hj
      cases j with
      | zero =>
        simp only [List.cons_append, List.nil_append, List.get?_cons_zero,
          Option.some.injEq] at hj
        subst hj
        rfl
      | succ j' =>
        simp only [List.cons_append, List.nil_append, List.get?_cons_succ,
          List.get?_map] at hj
        rcases h2 : (nlPositions cs).get? j' with _ | w
        · rw [h2] at hj; simp at hj
        · rw [h2] at hj
          rw [Option.map_some'] at hj
          injection hj with hj
          subst hj
          rw [List.take_succ_cons]
          unfold countNl
          rw [List.countP_cons]
          have := ih j' w h2
          unfold countNl at this
          simp [this]
    · rw [if_neg hc, List.nil_append, List.get?_map] at hj
      rcases h2 : (nlPositions cs).get? j with _ | w
      · rw [h2] at hj; simp at hj
      · rw [h2] at hj
        rw [Option.map_some'] at hj
        injection hj with hj
        subst hj
        rw [List.take_succ_cons]
        unfold countNl
        rw [List.countP_cons]
        have := ih j w h2
        unfold countNl at this
        simp [this, hc]

theorem lineRangeGo_out (i e : Nat) (hie : i < e) :
    ∀ (ps : List Nat) (cur sb0 eb0 : Nat), cur < e →
      lineRangeGo i e ps cur sb0 eb0 =
        ((if i ≤ cur then sb0
          else if i - cur ≤ ps.length then ps.getD (i - cur - 1) 0 + 1 else sb0),
         (if e - cur ≤ ps.length then ps.getD (e - cur - 1) 0 else eb0)) := by
  intro ps
  induction ps with
  | nil =>
    intro cur sb0 eb0 hcur
    simp only [lineRangeGo, List.length_nil]
    by_cases hi : i ≤ cur
    · rw [if_pos hi, if_neg (by omega : ¬ e - cur ≤ 0)]
    · rw [if_neg hi, if_neg (by omega : ¬ i - cur ≤ 0), if_neg (by omega : ¬ e - cur ≤ 0)]
  | cons idx rest ih =>
    intro cur sb0 eb0 hcur
    simp only [lineRangeGo]
    by_cases h1 : cur + 1 = e
    · rw [if_pos h1]
      have hi : i ≤ cur := by omega
      rw [if_pos hi]
      have he : e - cur ≤ (idx :: rest).length := by
        simp only [List.length_cons]
        omega
      rw [if_pos he]
      have : e - cur - 1 = 0 := by omega
      rw [this, List.getD_cons_zero]
    · rw [if_neg h1]
      by_cases h2 : cur + 1 = i
      · rw [if_pos h2]
        rw [ih (cur + 1) (idx + 1) eb0 (by omega)]
        have hi1 : i ≤ cur + 1 := by omega
        rw [if_pos hi1]
        have hi2 : ¬ i ≤ cur := by omega
        rw [if_neg hi2]
        have hi3 : i - cur ≤ (idx :: rest).length := by
          simp only [List.length_cons]
          omega
        rw [if_pos hi3]
        have hi4 : i - cur - 1 = 0 := by omega
        rw [hi4, List.getD_cons_zero]
        congr 1
        by_cases h3 : e - (cur + 1) ≤ rest.length
        · rw [if_pos h3, if_pos (by simp only [List.length_cons]; omega)]
          have h4 : e - cur - 1 = (e - (cur + 1) - 1) + 1 := by omega
          rw [h4, List.getD_cons_succ]
        · rw [if_neg h3, if_neg (by simp only [List.length_cons]; omega)]
      · rw [if_neg h2]
        rw [ih (cur + 1) sb0 eb0 (by omega)]
        congr 1
        · by_cases hi : i ≤ cur
          · rw [if_pos (by omega : i ≤ cur + 1), if_pos hi]
          · rw [if_neg (by omega : ¬ i ≤ cur + 1), if_neg hi]
            by_cases hi3 : i - (cur + 1) ≤ rest.length
            · rw [if_pos hi3, if_pos (by simp only [List.length_cons]; omega)]
              have h4 : i - cur - 1 = (i - (cur + 1) - 1) + 1 := by omega
              rw [h4, List.getD_cons_succ]
            · rw [if_neg hi3, if_neg (by simp only [List.length_cons]; omega)]
        · by_cases h3 : e - (cur + 1) ≤ rest.length
          · rw [if_pos h3, if_pos (by simp only [List.length_cons]; omega)]
            have h4 : e - cur - 1 = (e - (cur + 1) - 1) + 1 := by omega
            rw [h4, List.getD_cons_succ]
          · rw [if_neg h3, if_neg (by simp only [List.length_cons]; omega)]

theorem getD_eq_of_get? {l : List Nat} {j v : Nat} (h : l.get? j = some v) :
    l.getD j 0 = v := by
  rw [List.getD_eq_getElem?_getD, ← List.get?_eq_getElem?, h]
  rfl

theorem take_append_slice (s : Str) (a b : Nat) (hab : a ≤ b) :
    s.take b = s.take a ++ sliceC s a b := by
  unfold sliceC
  rw [← List.take_add]
  congr 1
  omega

theorem countNl_slice_lineRange (s : Str) (i e : Nat) (hie : i < e) (hi : i ≤ countNl s) :
    countNl (sliceC s (lineRangeToByteRange s i e).1 (lineRangeToByteRange s i e).2)
      + i + 1 ≤ e := by
  have hout := lineRangeGo_out i e hie (nlPositions s) 0 0 s.length (by omega)
  rw [lineRangeToByteRange, hout]
  simp only [Nat.sub_zero]
  have hlen : countNl s = (nlPositions s).length := countNl_eq_nlPositions_length s
  set ps := nlPositions s with hps
  set sb := (if i ≤ 0 then 0 else if i ≤ ps.length then ps.getD (i - 1) 0 + 1 else 0)
    with hsb
  set eb := (if e ≤ ps.length then ps.getD (e - 1) 0 else s.length) with heb
  -- the number of newlines strictly before `sb` is at least `i`
  have hGsb : i ≤ countNl (s.take sb) := by
    by_cases hi0 : i ≤ 0
    · omega
    · rw [hsb, if_neg hi0, if_pos (by omega)]
      rcases hget : ps.get? (i - 1) with _ | v
      · exact absurd (List.get?_eq_none.mp hget) (by omega)
      · rw [getD_eq_of_get? hget]
        rw [countNl_take_pos_succ s (i - 1) v hget]
        omega
  -- the number of newlines strictly before `eb` is at most `e - 1`
  have hGeb : countNl (s.take eb) + 1 ≤ e := by
    by_cases he : e ≤ ps.length
    · rw [heb, if_pos he]
      rcases hget : ps.get? (e - 1) with _ | v
      · exact absurd (List.get?_eq_none.mp hget) (by omega)
      · rw [getD_eq_of_get? hget]
        rw [countNl_take_pos s (e - 1) v hget]
        omega
    · rw [heb, if_neg he, List.take_length]
      omega
  by_cases hord : sb ≤ eb
  · have hsplit := take_append_slice s sb eb hord
    have : countNl (s.take eb) = countNl (s.take sb) + countNl (sliceC s sb eb) := by
      rw [hsplit, countNl_append]
    omega
  · have hempty : sliceC s sb eb = [] := by
      unfold sliceC
      have : eb - sb = 0 := by omega
      rw [this, List.take_zero]
    rw [hempty]
    have : countNl ([] : Str) = 0 := rfl
    omega

theorem splitNl_ne_nil (s : Str) : splitNl s ≠ [] := by
  cases s with
  | nil => simp [splitNl]
  | cons c cs =>
    by_cases hc : c = '\n'
    · simp [splitNl, hc]
    · simp only [splitNl, if_neg hc]
      rcases splitNl cs with _ | ⟨l, ls⟩ <;> simp

theorem countNl_cons (c : Char) (s : Str) :
    countNl (c :: s) = (if c = '\n' then 1 else 0) + countNl s := by
  unfold countNl
  rw [List.countP_cons]
  by_cases hc : c = '\n' <;> simp [hc] <;> omega

theorem splitNl_length (s : Str) : (splitNl s).length = countNl s + 1 := by
  induction s with
  | nil => rfl
  | cons c cs ih =>
    rw [countNl_cons]
    by_cases hc : c = '\n'
    · subst hc
      have h1 : splitNl ('\n' :: cs) = [] :: splitNl cs := by
        simp [splitNl]
      rw [h1, List.length_cons, ih]
      simp
      omega
    · simp only [splitNl, if_neg hc]
      rcases h : splitNl cs with _ | ⟨l, ls⟩
      · exact absurd h (splitNl_ne_nil cs)
      · rw [h] at ih
        simp only [List.length_cons] at ih ⊢
        simp [hc, ih]

theorem linesOf_length_le (s : Str) : (linesOf s).length ≤ countNl s + 1 := by
  unfold linesOf
  by_cases hs : s = []
  · simp [hs]
  · rw [if_neg hs]
    have := splitNl_length s
    show (if (splitNl s).getLast? = some [] then (splitNl s).dropLast else splitNl s).length ≤
      countNl s + 1
    split
    · rw [List.length_dropLast]
      omega
    · omega

theorem countNl_le_linesOf_length (s : Str) : countNl s ≤ (linesOf s).length := by
  unfold linesOf
  by_cases hs : s = []
  · subst hs
    simp [countNl]
  · rw [if_neg hs]
    have := splitNl_length s
    show countNl s ≤
      (if (splitNl s).getLast? = some [] then (splitNl s).dropLast else splitNl s).length
    split
    · rw [List.length_dropLast]
      omega
    · omega

theorem mem_splitNl_no_newline (s : Str) : ∀ l ∈ splitNl s, ∀ c ∈ l, c ≠ '\n' := by
  induction s with
  | nil =>
    intro l hl
    simp only [splitNl, List.mem_singleton] at hl
    subst hl
    simp
  | cons c cs ih =>
    intro l hl
    by_cases hc : c = '\n'
    · rw [splitNl, if_pos hc] at hl
      rcases List.mem_cons.mp hl with rfl | hl
      · simp
      · exact ih l hl
    · rw [splitNl, if_neg hc] at hl
      rcases h : splitNl cs with _ | ⟨t, ts⟩
      · exact absurd h (splitNl_ne_nil cs)
      · rw [h] at hl
        rcases List.mem_cons.mp hl with rfl | hl
        · intro x hx
          rcases List.mem_cons.mp hx with rfl | hx
          · exact hc
          · exact ih t (h ▸ List.mem_cons_self _ _) x hx
        · exact ih l (h ▸ List.mem_cons_of_mem _ hl)

theorem mem_linesOf_no_newline (s : Str) : ∀ l ∈ linesOf s, ∀ c ∈ l, c ≠ '\n' := by
  intro l hl
  unfold linesOf at hl
  by_cases hs : s = []
  · simp [hs] at hl
  · rw [if_neg hs] at hl
    have hl2 : l ∈ (if (splitNl s).getLast? = some [] then (splitNl s).dropLast
        else splitNl s) := hl
    split at hl2
    · exact mem_splitNl_no_newline s l ((List.dropLast_sublist _).mem hl2)
    · exact mem_splitNl_no_newline s l hl2

theorem countNl_eq_zero_of_no_newline (l : Str) (h : ∀ c ∈ l, c ≠ '\n') :
    countNl l = 0 := by
  unfold countNl
  rw [List.countP_eq_zero]
  intro c hc
  simp only [decide_eq_true_eq]
  exact h c hc

theorem countNl_sublist_le {t s : Str} (h : t.Sublist s) : countNl t ≤ countNl s :=
  List.Sublist.countP_le _ h

theorem countNl_take_le (s : Str) (n : Nat) : countNl (s.take n) ≤ countNl s :=
  countNl_sublist_le (List.take_sublist n s)

theorem countNl_drop_le (s : Str) (n : Nat) : countNl (s.drop n) ≤ countNl s :=
  countNl_sublist_le (List.drop_sublist n s)

theorem countNl_reverse (s : Str) : countNl s.reverse = countNl s := by
  unfold countNl
  exact (List.reverse_perm s).countP_eq _

theorem countNl_trimStartC_le (s : Str) : countNl (trimStartC s) ≤ countNl s :=
  countNl_sublist_le (List.dropWhile_sublist _)

theorem countNl_trimEndC_le (s : Str) : countNl (trimEndC s) ≤ countNl s := by
  unfold trimEndC
  rw [countNl_reverse]
  calc countNl (s.reverse.dropWhile Char.isWhitespace) ≤ countNl s.reverse :=
        countNl_sublist_le (List.dropWhile_sublist _)
    _ = countNl s := countNl_reverse s

theorem splitByCharsGo_succ_empty (ct : ChunkType) (ctx : List Str) (f : Nat)
    (iter0 : Str) (ln : Nat) (h : trimStartC iter0 = []) :
    splitByCharsGo ct ctx (f + 1) iter0 ln = [] := by
  simp only [splitByCharsGo]
  rw [if_pos h]

theorem splitByCharsGo_succ_blank (ct : ChunkType) (ctx : List Str) (f : Nat)
    (iter0 : Str) (ln : Nat) (h1 : ¬ trimStartC iter0 = [])
    (h2 : trimEndC ((trimStartC iter0).take
      (floorCharBoundary (trimStartC iter0) MAX_CHARS)) = []) :
    splitByCharsGo ct ctx (f + 1) iter0 ln =
      splitByCharsGo ct ctx f
        ((trimStartC iter0).drop (floorCharBoundary (trimStartC iter0) MAX_CHARS)) ln := by
  simp only [splitByCharsGo]
  rw [if_neg h1, if_pos h2]

theorem splitByCharsGo_succ_push (ct : ChunkType) (ctx : List Str) (f : Nat)
    (iter0 : Str) (ln : Nat) (h1 : ¬ trimStartC iter0 = [])
    (h2 : ¬ trimEndC ((trimStartC iter0).take
      (floorCharBoundary (trimStartC iter0) MAX_CHARS)) = []) :
    splitByCharsGo ct ctx (f + 1) iter0 ln =
      Chunk.new (trimEndC ((trimStartC iter0).take
          (floorCharBoundary (trimStartC iter0) MAX_CHARS))) ln
        (ln + (linesOf (trimEndC ((trimStartC iter0).take
          (floorCharBoundary (trimStartC iter0) MAX_CHARS)))).length) ct ctx ::
      splitByCharsGo ct ctx f
        ((trimStartC iter0).drop (floorCharBoundary (trimStartC iter0) MAX_CHARS))
        (ln + (linesOf (trimEndC ((trimStartC iter0).take
          (floorCharBoundary (trimStartC iter0) MAX_CHARS)))).length) := by
  simp only [splitByCharsGo]
  rw [if_neg h1, if_neg h2]

theorem trimEndC_length_le (s : Str) : (trimEndC s).length ≤ s.length := by
  unfold trimEndC
  rw [List.length_reverse]
  calc (s.reverse.dropWhile Char.isWhitespace).length ≤ s.reverse.length :=
        List.Sublist.length_le (List.dropWhile_sublist _)
    _ = s.length := List.length_reverse s

theorem splitByCharsGo_bounds (ct : ChunkType) (ctx : List Str) (B : Nat) :
    ∀ (fuel : Nat) (iter : Str) (ln : Nat), countNl iter ≤ B →
      ∀ out ∈ splitByCharsGo ct ctx fuel iter ln,
        out.content.length ≤ MAX_CHARS ∧ out.end_line - out.start_line ≤ B + 1 := by
  intro fuel
  induction fuel with
  | zero =>
    intro iter ln _ out hout
    simp [splitByCharsGo] at hout
  | succ f ih =>
    intro iter ln hcnt out hout
    by_cases h1 : trimStartC iter = []
    · rw [splitByCharsGo_succ_empty ct ctx f iter ln h1] at hout
      simp at hout
    · have hiter : countNl (trimStartC iter) ≤ B :=
        le_trans (countNl_trimStartC_le iter) hcnt
      have hpost : countNl ((trimStartC iter).drop
          (floorCharBoundary (trimStartC iter) MAX_CHARS)) ≤ B :=
        le_trans (countNl_drop_le _ _) hiter
      by_cases h2 : trimEndC ((trimStartC iter).take
          (floorCharBoundary (trimStartC iter) MAX_CHARS)) = []
      · rw [splitByCharsGo_succ_blank ct ctx f iter ln h1 h2] at hout
        exact ih _ ln hpost out hout
      · rw [splitByCharsGo_succ_push ct ctx f iter ln h1 h2] at hout
        rcases List.mem_cons.mp hout with rfl | hout
        · constructor
          · show (trimEndC _).length ≤ MAX_CHARS
            calc (trimEndC ((trimStartC iter).take
                  (floorCharBoundary (trimStartC iter) MAX_CHARS))).length
                ≤ ((trimStartC iter).take
                  (floorCharBoundary (trimStartC iter) MAX_CHARS)).length :=
                  trimEndC_length_le _
              _ ≤ floorCharBoundary (trimStartC iter) MAX_CHARS := by
                  rw [List.length_take]
                  exact min_le_left _ _
              _ ≤ MAX_CHARS := min_le_left _ _
          · show (ln + _) - ln ≤ B + 1
            rw [Nat.add_sub_cancel_left]
            have htr : countNl (trimEndC ((trimStartC iter).take
                (floorCharBoundary (trimStartC iter) MAX_CHARS))) ≤ B :=
              le_trans (countNl_trimEndC_le _) (le_trans (countNl_take_le _ _) hiter)
            calc (linesOf (trimEndC ((trimStartC iter).take
                  (floorCharBoundary (trimStartC iter) MAX_CHARS)))).length
                ≤ countNl (trimEndC ((trimStartC iter).take
                  (floorCharBoundary (trimStartC iter) MAX_CHARS))) + 1 :=
                  linesOf_length_le _
              _ ≤ B + 1 := by omega
        · exact ih _ _ hpost out hout

theorem split_by_chars_impl_bounds (content : Str) (startLine : Nat) (ct : ChunkType)
    (ctx : List Str) (B : Nat) (hB : countNl content ≤ B) :
    ∀ out ∈ split_by_chars_impl content startLine ct ctx,
      out.content.length ≤ MAX_CHARS ∧ out.end_line - out.start_line ≤ B + 1 :=
  splitByCharsGo_bounds ct ctx B (content.length + 1) content startLine hB

theorem splitBigGo_succ_stop (c : Chunk) (lns : List Str) (header : Option Str)
    (f i : Nat) (h : ¬ i < lns.length) :
    splitBigGo c lns header (f + 1) i = [] := by
  simp only [splitBigGo]
  rw [if_neg h]

theorem splitBigGo_succ_skip (c : Chunk) (lns : List Str) (header : Option Str)
    (f i : Nat) (h : i < lns.length)
    (h2 : ((lns.drop i).take (min (i + MAX_LINES) lns.length - i)).length < 3 ∧ 0 < i) :
    splitBigGo c lns header (f + 1) i = splitBigGo c lns header f (i + lineStride) := by
  simp only [splitBigGo]
  rw [if_pos h, if_pos h2]

theorem splitBigGo_succ_emit (c : Chunk) (lns : List Str) (header : Option Str)
    (f i : Nat) (h : i < lns.length)
    (h2 : ¬ (((lns.drop i).take (min (i + MAX_LINES) lns.length - i)).length < 3 ∧ 0 < i)) :
    splitBigGo c lns header (f + 1) i =
      Chunk.new
        (match header with
         | some hd =>
           if 0 < i ∧ c.chunk_type ≠ some ChunkType.Block then
             hd ++ '\n' :: sliceC c.content
               (lineRangeToByteRange c.content i (min (i + MAX_LINES) lns.length)).1
               (lineRangeToByteRange c.content i (min (i + MAX_LINES) lns.length)).2
           else
             sliceC c.content
               (lineRangeToByteRange c.content i (min (i + MAX_LINES) lns.length)).1
               (lineRangeToByteRange c.content i (min (i + MAX_LINES) lns.length)).2
         | none =>
           sliceC c.content
             (lineRangeToByteRange c.content i (min (i + MAX_LINES) lns.length)).1
             (lineRangeToByteRange c.content i (min (i + MAX_LINES) lns.length)).2)
        (c.start_line + i) (c.start_line + min (i + MAX_LINES) lns.length)
        (c.chunk_type.getD ChunkType.Other) c.context ::
      splitBigGo c lns header f (i + lineStride) := by
  simp only [splitBigGo]
  rw [if_pos h, if_neg h2]

theorem countNl_header_zero (c : Chunk) (hd : Str)
    (hh : extract_header_line c.content = some hd) : countNl hd = 0 := by
  unfold extract_header_line at hh
  have hmem := List.mem_of_find?_eq_some hh
  rw [List.mem_map] at hmem
  obtain ⟨l, hl, rfl⟩ := hmem
  have hzero : countNl l = 0 :=
    countNl_eq_zero_of_no_newline l (mem_linesOf_no_newline c.content l hl)
  have h1 : countNl (trimC l) ≤ countNl l := by
    unfold trimC
    exact le_trans (countNl_trimEndC_le _) (countNl_trimStartC_le l)
  omega

theorem splitBigGo_bounds (c : Chunk) :
    ∀ (fuel i : Nat),
      ∀ out ∈ splitBigGo c (linesOf c.content) (extract_header_line c.content) fuel i,
        out.end_line - out.start_line ≤ MAX_LINES ∧ countNl out.content ≤ MAX_LINES := by
  intro fuel
  induction fuel with
  | zero =>
    intro i out hout
    simp [splitBigGo] at hout
  | succ f ih =>
    intro i out hout
    by_cases h : i < (linesOf c.content).length
    · by_cases h2 : (((linesOf c.content).drop i).take
          (min (i + MAX_LINES) (linesOf c.content).length - i)).length < 3 ∧ 0 < i
      · rw [splitBigGo_succ_skip c _ _ f i h h2] at hout
        exact ih _ out hout
      · rw [splitBigGo_succ_emit c _ _ f i h h2] at hout
        rcases List.mem_cons.mp hout with rfl | hout
        · set e := min (i + MAX_LINES) (linesOf c.content).length with he
          have hie : i < e := by
            rw [he]
            have : 0 < MAX_LINES := by norm_num [MAX_LINES]
            omega
          have hi : i ≤ countNl c.content := by
            have := countNl_le_linesOf_length c.content
            have h3 := linesOf_length_le c.content
            omega
          have hslice := countNl_slice_lineRange c.content i e hie hi
          have heint : e - i ≤ MAX_LINES := by
            rw [he]
            omega
          refine ⟨?_, ?_⟩
          · show (c.start_line + e) - (c.start_line + i) ≤ MAX_LINES
            omega
          · show countNl (match extract_header_line c.content with
              | some hd => _ | none => _) ≤ MAX_LINES
            rcases hh : extract_header_line c.content with _ | hd
            · simp only []
              omega
            · simp only []
              by_cases hcond : 0 < i ∧ c.chunk_type ≠ some ChunkType.Block
              · rw [if_pos hcond]
                rw [countNl_append, countNl_cons]
                have hhd := countNl_header_zero c hd hh
                norm_num
                omega
              · rw [if_neg hcond]
                omega
        · exact ih _ out hout
    · rw [splitBigGo_succ_stop c _ _ f i h] at hout
      simp at hout

theorem split_if_too_big_small (c : Chunk)
    (h : (linesOf c.content).length ≤ MAX_LINES ∧ c.content.length ≤ MAX_CHARS) :
    split_if_too_big c = [c] := by
  simp only [split_if_too_big]
  rw [if_pos h]

theorem split_if_too_big_chars (c : Chunk)
    (h1 : ¬ ((linesOf c.content).length ≤ MAX_LINES ∧ c.content.length ≤ MAX_CHARS))
    (h2 : MAX_CHARS < c.content.length ∧ (linesOf c.content).length ≤ MAX_LINES) :
    split_if_too_big c = split_by_chars c := by
  simp only [split_if_too_big]
  rw [if_neg h1, if_pos h2]

theorem split_if_too_big_lines (c : Chunk)
    (h1 : ¬ ((linesOf c.content).length ≤ MAX_LINES ∧ c.content.length ≤ MAX_CHARS))
    (h2 : ¬ (MAX_CHARS < c.content.length ∧ (linesOf c.content).length ≤ MAX_LINES)) :
    split_if_too_big c =
      (splitBigGo c (linesOf c.content) (extract_header_line c.content)
          ((linesOf c.content).length + 1) 0).flatMap
        (fun sc => if MAX_CHARS < sc.content.length then split_by_chars sc else [sc]) := by
  simp only [split_if_too_big]
  rw [if_neg h1, if_neg h2]

theorem split_if_too_big_bounds (c : Chunk) (hc : chunkConsistent c) :
    ∀ out ∈ split_if_too_big c,
      out.content.length ≤ MAX_CHARS ∧ out.end_line - out.start_line ≤ MAX_LINES + 1 := by
  intro out hout
  by_cases h1 : (linesOf c.content).length ≤ MAX_LINES ∧ c.content.length ≤ MAX_CHARS
  · rw [split_if_too_big_small c h1] at hout
    rcases List.mem_singleton.mp hout with rfl
    refine ⟨h1.2, ?_⟩
    unfold chunkConsistent at hc
    omega
  · by_cases h2 : MAX_CHARS < c.content.length ∧ (linesOf c.content).length ≤ MAX_LINES
    · rw [split_if_too_big_chars c h1 h2] at hout
      have hcnt : countNl c.content ≤ MAX_LINES :=
        le_trans (countNl_le_linesOf_length c.content) h2.2
      exact split_by_chars_impl_bounds c.content c.start_line _ c.context MAX_LINES hcnt
        out hout
    · rw [split_if_too_big_lines c h1 h2] at hout
      rw [List.mem_flatMap] at hout
      obtain ⟨sc, hsc, hout⟩ := hout
      have hscb := splitBigGo_bounds c _ 0 sc hsc
      by_cases h3 : MAX_CHARS < sc.content.length
      · rw [if_pos h3] at hout
        have := split_by_chars_impl_bounds sc.content sc.start_line _ sc.context
          MAX_LINES hscb.2 out hout
        exact this
      · rw [if_neg h3] at hout
        rcases List.mem_singleton.mp hout with rfl
        exact ⟨by omega, by omega⟩

/-- On a single raw chunk, the grammar-path pipeline is exactly the size
pass on that chunk. -/
theorem chunkViaTreeSitter_singleton (c : Chunk) :
    chunkViaTreeSitter [c] = split_if_too_big c := by
  unfold chunkViaTreeSitter chunkSizePass sortChunksByKey
  simp [List.insertionSort]

/-- Claim C1 (amended): every chunk produced by the size-enforcement pass of
`Chunker::chunk` over span-consistent raw chunks has content of at most
`MAX_CHARS` code units, and spans at most `MAX_LINES + 1` lines
(`end_line - start_line ≤ 76`); the stated bound `MAX_LINES` itself can be
exceeded by exactly one line by a char-split piece of a header-prepended
sub-chunk, see the counterexample. -/
theorem claimC1_size_bounds (raw : List Chunk) (hraw : ∀ c ∈ raw, chunkConsistent c) :
    ∀ out ∈ chunkViaTreeSitter raw,
      out.content.length ≤ MAX_CHARS ∧ out.end_line - out.start_line ≤ MAX_LINES + 1 := by
  intro out hout
  unfold chunkViaTreeSitter chunkSizePass at hout
  rw [List.mem_flatMap] at hout
  obtain ⟨c, hc, hout⟩ := hout
  have hmem : c ∈ raw := (List.perm_insertionSort chunkKeyLe raw).mem_iff.mp hc
  exact split_if_too_big_bounds c (hraw c hmem) out hout

/-- Witness for claim C1's amended bound at a one-chunk input. -/
theorem claimC1_witness :
    (∀ c ∈ [Chunk.new ['a'] 0 1 ChunkType.Block []], chunkConsistent c) ∧
      ∀ out ∈ chunkViaTreeSitter [Chunk.new ['a'] 0 1 ChunkType.Block []],
        out.content.length ≤ MAX_CHARS ∧ out.end_line - out.start_line ≤ MAX_LINES + 1 := by
  have hcons : ∀ c ∈ [Chunk.new ['a'] 0 1 ChunkType.Block []], chunkConsistent c := by
    intro c hc
    rcases List.mem_singleton.mp hc with rfl
    unfold chunkConsistent
    decide
  exact ⟨hcons, claimC1_size_bounds _ hcons⟩

/-- Claim C9 (amended): the chunk list assembled by
`chunk_with_tree_sitter` is sorted by `(start_line, end_line)` ascending,
stably — its final sort yields a list that is ordered by the key, is a
permutation of its input, and preserves the relative order of any pair
already in key order (stability); the subsequent size-enforcement pass of
`Chunker::chunk` does not preserve this order (see the counterexample). -/
theorem claimC9_sort_properties (l : List Chunk) :
    List.Pairwise chunkKeyLe (sortChunksByKey l) ∧
      (sortChunksByKey l).Perm l ∧
      (∀ a b : Chunk, chunkKeyLe a b → [a, b].Sublist l →
        [a, b].Sublist (sortChunksByKey l)) := by
  refine ⟨?_, List.perm_insertionSort chunkKeyLe l, ?_⟩
  · have htot : IsTotal Chunk chunkKeyLe := by
      constructor
      intro a b
      unfold chunkKeyLe
      omega
    have htrans : IsTrans Chunk chunkKeyLe := by
      constructor
      intro a b c h1 h2
      unfold chunkKeyLe at *
      omega
    exact List.sorted_insertionSort chunkKeyLe l
  · intro a b hab hsub
    exact List.pair_sublist_insertionSort hab hsub

/-- Witness for claim C9's amended sort properties at a concrete two-chunk
list in reversed order. -/
theorem claimC9_witness :
    List.Pairwise chunkKeyLe
        (sortChunksByKey [Chunk.new ['b'] 5 6 ChunkType.Block [],
          Chunk.new ['a'] 1 2 ChunkType.Block []]) ∧
      (sortChunksByKey [Chunk.new ['b'] 5 6 ChunkType.Block [],
          Chunk.new ['a'] 1 2 ChunkType.Block []]).Perm
        [Chunk.new ['b'] 5 6 ChunkType.Block [], Chunk.new ['a'] 1 2 ChunkType.Block []] ∧
      chunkKeyLe (Chunk.new ['a'] 1 2 ChunkType.Block [])
          (Chunk.new ['b'] 5 6 ChunkType.Block []) ∧
      [Chunk.new ['a'] 1 2 ChunkType.Block [],
          Chunk.new ['b'] 5 6 ChunkType.Block []].Sublist
        (sortChunksByKey [Chunk.new ['b'] 5 6 ChunkType.Block [],
          Chunk.new ['a'] 1 2 ChunkType.Block []]) := by
  obtain ⟨h1, h2, _⟩ := claimC9_sort_properties
    [Chunk.new ['b'] 5 6 ChunkType.Block [], Chunk.new ['a'] 1 2 ChunkType.Block []]
  refine ⟨h1, h2, by decide, ?_⟩
  show [_, _].Sublist (List.insertionSort chunkKeyLe _)
  decide

/-! ### Lemmas: concrete block-structured strings -/

theorem linesOf_no_newline (s : Str) (hne : s ≠ []) (h : ∀ c ∈ s, c ≠ '\n') :
    linesOf s = [s] := by
  rw [linesOf, if_neg hne]
  show (if (splitNl s).getLast? = some [] then (splitNl s).dropLast else splitNl s) = [s]
  rw [splitNl_no_newline s h]
  simp [hne]

theorem splitNl_block (u rest : Str) (hu : ∀ c ∈ u, c ≠ '\n') :
    splitNl (u ++ '\n' :: rest) = u :: splitNl rest := by
  induction u with
  | nil => simp [splitNl]
  | cons c u' ih =>
    have hc : c ≠ '\n' := hu c (List.mem_cons_self _ _)
    rw [List.cons_append, splitNl, if_neg hc]
    rw [ih (fun x hx => hu x (List.mem_cons_of_mem _ hx))]

theorem blocks_cons (u t : Str) (k : Nat) :
    (List.replicate (k + 1) (u ++ ['\n'])).flatten ++ t =
      u ++ '\n' :: ((List.replicate k (u ++ ['\n'])).flatten ++ t) := by
  rw [List.replicate_succ, List.flatten_cons]
  simp [List.append_assoc]

theorem splitNl_blocks (u t : Str) (hu : ∀ c ∈ u, c ≠ '\n') (ht : ∀ c ∈ t, c ≠ '\n') :
    ∀ k, splitNl ((List.replicate k (u ++ ['\n'])).flatten ++ t) =
      List.replicate k u ++ [t] := by
  intro k
  induction k with
  | zero => simpa using splitNl_no_newline t ht
  | succ k' ih =>
    rw [blocks_cons, splitNl_block u _ hu, ih]
    rfl

theorem blocks_ne_nil (u t : Str) (hne : t ≠ []) (k : Nat) :
    (List.replicate k (u ++ ['\n'])).flatten ++ t ≠ [] := by
  intro h
  rw [List.append_eq_nil] at h
  exact hne h.2

theorem linesOf_blocks (u t : Str) (hu : ∀ c ∈ u, c ≠ '\n') (ht : ∀ c ∈ t, c ≠ '\n')
    (hne : t ≠ []) (k : Nat) :
    linesOf ((List.replicate k (u ++ ['\n'])).flatten ++ t) =
      List.replicate k u ++ [t] := by
  rw [linesOf, if_neg (blocks_ne_nil u t hne k)]
  show (if (splitNl _).getLast? = some [] then (splitNl _).dropLast else splitNl _) = _
  rw [splitNl_blocks u t hu ht k]
  rw [if_neg]
  rw [List.getLast?_concat]
  simp [hne]

theorem blocks_length (u : Str) (k : Nat) :
    ((List.replicate k (u ++ ['\n'])).flatten).length = k * (u.length + 1) := by
  induction k with
  | zero => simp
  | succ k' ih =>
    rw [List.replicate_succ, List.flatten_cons, List.length_append, ih,
      List.length_append]
    simp only [List.length_singleton]
    ring

theorem nlPositions_blocks (u t : Str) (hu : ∀ c ∈ u, c ≠ '\n') (ht : ∀ c ∈ t, c ≠ '\n') :
    ∀ k, nlPositions ((List.replicate k (u ++ ['\n'])).flatten ++ t) =
      (List.range k).map (fun j => (u.length + 1) * j + u.length) := by
  intro k
  induction k with
  | zero => simpa using nlPositions_no_newline t ht
  | succ k' ih =>
    rw [blocks_cons, nlPositions_append_no_newline u _ hu, nlPositions_cons,
      if_pos rfl, ih]
    rw [List.range_succ_eq_map]
    simp only [List.cons_append, List.nil_append, List.map_cons, List.map_map,
      Nat.zero_add]
    congr 1
    ring

theorem blocks_drop (u t : Str) :
    ∀ (m k : Nat), m ≤ k →
      ((List.replicate k (u ++ ['\n'])).flatten ++ t).drop (m * (u.length + 1)) =
        (List.replicate (k - m) (u ++ ['\n'])).flatten ++ t := by
  intro m
  induction m with
  | zero => intro k _; simp
  | succ m' ih =>
    intro k hm
    rcases k with _ | k'
    · omega
    · rw [blocks_cons]
      have hstep : (m' + 1) * (u.length + 1) = (u.length + 1) + m' * (u.length + 1) := by
        ring
      rw [hstep, ← List.drop_drop]
      have hhead : (u ++ '\n' :: ((List.replicate k' (u ++ ['\n'])).flatten ++ t)).drop
          (u.length + 1) = (List.replicate k' (u ++ ['\n'])).flatten ++ t := by
        have : u ++ '\n' :: ((List.replicate k' (u ++ ['\n'])).flatten ++ t) =
            (u ++ ['\n']) ++ ((List.replicate k' (u ++ ['\n'])).flatten ++ t) := by
          simp
        rw [this]
        have hlen2 : (u ++ ['\n']).length = u.length + 1 := by simp
        rw [← hlen2, List.drop_left]
      rw [hhead]
      have := ih k' (by omega)
      simpa using this

theorem take_append_exact (l1 l2 : Str) (j : Nat) :
    (l1 ++ l2).take (l1.length + j) = l1 ++ l2.take j := by
  rw [List.take_add, List.take_left, List.drop_left]

theorem drop_append_exact (l1 l2 : Str) (j : Nat) :
    (l1 ++ l2).drop (l1.length + j) = l2.drop j := by
  rw [← List.drop_drop, List.drop_left]

theorem trimStartC_cons_not_ws (c : Char) (rest : Str) (hc : c.isWhitespace = false) :
    trimStartC (c :: rest) = c :: rest := by
  unfold trimStartC
  rw [List.dropWhile_cons_of_neg]
  simp [hc]

theorem trimEndC_append_replicate (X : Str) (m : Nat) (c : Char)
    (hm : 0 < m) (hc : c.isWhitespace = false) :
    trimEndC (X ++ List.replicate m c) = X ++ List.replicate m c := by
  unfold trimEndC
  rcases m with _ | m'
  · omega
  rw [List.reverse_append, List.reverse_replicate, List.replicate_succ,
    List.cons_append, List.dropWhile_cons_of_neg (by simp [hc]),
    ← List.cons_append, ← List.replicate_succ, ← List.reverse_replicate (m' + 1) c,
    ← List.reverse_append, List.reverse_reverse, List.reverse_replicate]

theorem trimEndC_replicate (m : Nat) (c : Char)
    (hm : 0 < m) (hc : c.isWhitespace = false) :
    trimEndC (List.replicate m c) = List.replicate m c := by
  have := trimEndC_append_replicate [] m c hm hc
  simpa using this

theorem trimStartC_replicate (m : Nat) (c : Char)
    (hm : 0 < m) (hc : c.isWhitespace = false) :
    trimStartC (List.replicate m c) = List.replicate m c := by
  rcases m with _ | m'
  · omega
  rw [List.replicate_succ]
  exact trimStartC_cons_not_ws c _ hc

theorem simpleChunkGo_succ_lt (content : Str) (lns ctx : List Str) (f i : Nat)
    (h : i < lns.length) :
    simpleChunkGo content lns ctx (f + 1) i =
      (if (sliceC content (lineRangeToByteRange content i (min (i + MAX_LINES) lns.length)).1
            (lineRangeToByteRange content i (min (i + MAX_LINES) lns.length)).2).length
          ≤ MAX_CHARS then
        [Chunk.new
          (sliceC content (lineRangeToByteRange content i (min (i + MAX_LINES) lns.length)).1
            (lineRangeToByteRange content i (min (i + MAX_LINES) lns.length)).2)
          i (min (i + MAX_LINES) lns.length) ChunkType.Block ctx]
       else split_content_by_chars
          (sliceC content (lineRangeToByteRange content i (min (i + MAX_LINES) lns.length)).1
            (lineRangeToByteRange content i (min (i + MAX_LINES) lns.length)).2)
          i ctx) ++
        simpleChunkGo content lns ctx f (i + lineStride) := by
  simp only [simpleChunkGo]
  rw [if_pos h]

theorem simpleChunkGo_succ_ge (content : Str) (lns ctx : List Str) (f i : Nat)
    (h : ¬ i < lns.length) :
    simpleChunkGo content lns ctx (f + 1) i = [] := by
  simp only [simpleChunkGo]
  rw [if_neg h]

theorem splitByCharsGo_nil_input (ct : ChunkType) (ctx : List Str) (f ln : Nat) :
    splitByCharsGo ct ctx f [] ln = [] := by
  rcases f with _ | f'
  · rfl
  · exact splitByCharsGo_succ_empty ct ctx f' [] ln rfl

theorem split_by_chars_impl_blocks (u : Str) (c0 : Char) (u' : Str)
    (huc : u = c0 :: u')
    (hu_ws : c0.isWhitespace = false)
    (hu_nl : ∀ x ∈ u, x ≠ '\n')
    (b : Char) (hb_ws : b.isWhitespace = false) (hb_nl : b ≠ '\n')
    (k R j : Nat) (hk : 0 < k)
    (hkj : k * (u.length + 1) + j = MAX_CHARS)
    (hj : 0 < j) (hjR : j < R) (hrem : R - j ≤ MAX_CHARS)
    (ct : ChunkType) (ctx : List Str) (ln : Nat) :
    split_by_chars_impl
        ((List.replicate k (u ++ ['\n'])).flatten ++ List.replicate R b) ln ct ctx =
      [Chunk.new ((List.replicate k (u ++ ['\n'])).flatten ++ List.replicate j b)
        ln (ln + (k + 1)) ct ctx,
       Chunk.new (List.replicate (R - j) b) (ln + (k + 1)) (ln + (k + 1) + 1) ct ctx] := by
  have hAlen : ((List.replicate k (u ++ ['\n'])).flatten).length = k * (u.length + 1) :=
    blocks_length u k
  have hslen : ((List.replicate k (u ++ ['\n'])).flatten ++ List.replicate R b).length
      = k * (u.length + 1) + R := by
    rw [List.length_append, hAlen, List.length_replicate]
  have hjnl : ∀ x ∈ List.replicate j b, x ≠ '\n' := by
    intro x hx
    rw [List.eq_of_mem_replicate hx]
    exact hb_nl
  have hjne : List.replicate j b ≠ [] := by
    simp only [ne_eq, List.replicate_eq_nil]
    omega
  have hts : trimStartC ((List.replicate k (u ++ ['\n'])).flatten ++ List.replicate R b)
      = (List.replicate k (u ++ ['\n'])).flatten ++ List.replicate R b := by
    rcases k with _ | k'
    · omega
    · rw [blocks_cons, huc, List.cons_append]
      exact trimStartC_cons_not_ws c0 _ hu_ws
  have h1 : ¬ trimStartC ((List.replicate k (u ++ ['\n'])).flatten ++
      List.replicate R b) = [] := by
    rw [hts]
    exact blocks_ne_nil u _ (by simp only [ne_eq, List.replicate_eq_nil]; omega) k
  have hfloor : floorCharBoundary ((List.replicate k (u ++ ['\n'])).flatten ++
      List.replicate R b) MAX_CHARS = MAX_CHARS := by
    rw [floorCharBoundary, hslen]
    omega
  have h2000 : MAX_CHARS = ((List.replicate k (u ++ ['\n'])).flatten).length + j := by
    rw [hAlen]
    omega
  have htake : ((List.replicate k (u ++ ['\n'])).flatten ++ List.replicate R b).take
      MAX_CHARS = (List.replicate k (u ++ ['\n'])).flatten ++ List.replicate j b := by
    rw [h2000, take_append_exact, List.take_replicate, Nat.min_eq_left (le_of_lt hjR)]
  have hdrop : ((List.replicate k (u ++ ['\n'])).flatten ++ List.replicate R b).drop
      MAX_CHARS = List.replicate (R - j) b := by
    rw [h2000, drop_append_exact, List.drop_replicate]
  have htrim : trimEndC ((List.replicate k (u ++ ['\n'])).flatten ++ List.replicate j b)
      = (List.replicate k (u ++ ['\n'])).flatten ++ List.replicate j b :=
    trimEndC_append_replicate _ j b hj hb_ws
  have hlns : linesOf ((List.replicate k (u ++ ['\n'])).flatten ++ List.replicate j b)
      = List.replicate k u ++ [List.replicate j b] :=
    linesOf_blocks u _ hu_nl hjnl hjne k
  have hlnslen : (linesOf ((List.replicate k (u ++ ['\n'])).flatten ++
      List.replicate j b)).length = k + 1 := by
    rw [hlns]
    simp
  have h2 : ¬ trimEndC ((trimStartC ((List.replicate k (u ++ ['\n'])).flatten ++
      List.replicate R b)).take (floorCharBoundary (trimStartC
      ((List.replicate k (u ++ ['\n'])).flatten ++ List.replicate R b)) MAX_CHARS)) = [] := by
    rw [hts, hfloor, htake, htrim]
    exact blocks_ne_nil u _ hjne k
  rw [split_by_chars_impl, splitByCharsGo_succ_push ct ctx _ _ ln h1 h2]
  rw [hts, hfloor, htake, htrim, hdrop, hlnslen]
  have h1b : ¬ trimStartC (List.replicate (R - j) b) = [] := by
    rw [trimStartC_replicate (R - j) b (by omega) hb_ws]
    simp only [ne_eq, List.replicate_eq_nil]
    omega
  have htsb : trimStartC (List.replicate (R - j) b) = List.replicate (R - j) b :=
    trimStartC_replicate (R - j) b (by omega) hb_ws
  have hfloorb : floorCharBoundary (List.replicate (R - j) b) MAX_CHARS = R - j := by
    rw [floorCharBoundary, List.length_replicate]
    omega
  have htakeb : (List.replicate (R - j) b).take (R - j) = List.replicate (R - j) b := by
    rw [List.take_replicate, Nat.min_self]
  have hdropb : (List.replicate (R - j) b).drop (R - j) = [] := by
    rw [List.drop_replicate, Nat.sub_self, List.replicate_zero]
  have htrimb : trimEndC (List.replicate (R - j) b) = List.replicate (R - j) b :=
    trimEndC_replicate (R - j) b (by omega) hb_ws
  have hbne : List.replicate (R - j) b ≠ [] := by
    simp only [ne_eq, List.replicate_eq_nil]
    omega
  have hbnl2 : ∀ x ∈ List.replicate (R - j) b, x ≠ '\n' := by
    intro x hx
    rw [List.eq_of_mem_replicate hx]
    exact hb_nl
  have hlnsb : (linesOf (List.replicate (R - j) b)).length = 1 := by
    rw [linesOf_no_newline _ hbne hbnl2]
    rfl
  have h2b : ¬ trimEndC ((trimStartC (List.replicate (R - j) b)).take
      (floorCharBoundary (trimStartC (List.replicate (R - j) b)) MAX_CHARS)) = [] := by
    rw [htsb, hfloorb, htakeb, htrimb]
    exact hbne
  rw [hslen, show k * (u.length + 1) + R = (k * (u.length + 1) + R - 1) + 1 from by omega]
  rw [splitByCharsGo_succ_push ct ctx _ _ _ h1b h2b]
  rw [htsb, hfloorb, htakeb, htrimb, hdropb, hlnsb, splitByCharsGo_nil_input]

theorem simpleChunkGo_stop (content : Str) (lns ctx : List Str) (f i : Nat)
    (h : ¬ i < lns.length) :
    simpleChunkGo content lns ctx f i = [] := by
  rcases f with _ | f'
  · rfl
  · exact simpleChunkGo_succ_ge content lns ctx f' i h

theorem chunkSizePass_all_small (l : List Chunk)
    (h : ∀ c ∈ l, (linesOf c.content).length ≤ MAX_LINES ∧ c.content.length ≤ MAX_CHARS) :
    chunkSizePass l = l := by
  induction l with
  | nil => rfl
  | cons a rest ih =>
    rw [chunkSizePass, List.flatMap_cons,
      split_if_too_big_small a (h a (List.mem_cons_self _ _))]
    have hrest : rest.flatMap split_if_too_big = rest :=
      ih (fun c hc => h c (List.mem_cons_of_mem _ hc))
    rw [hrest]
    rfl

/-- **C9 counterexample.**  The spec says the fallback chunking path returns
chunks sorted by `(start_line, end_line)`.  On a 74-line file followed by one
2500-character line, `simple_chunk`'s overlapping windows each get split by
characters, and the final output `(0,75), (75,76), (65,75), (75,76)` is not
sorted: the sort in `chunk_with_tree_sitter` runs before the size-enforcement
pass, and the fallback path never sorts at all. -/
theorem claimC9_counterexample :
    chunksSortedByKeyB (chunkViaFallback demoC9content demoPath) = false := by
  have hform : demoC9content =
      (List.replicate 74 ((['a'] : Str) ++ ['\n'])).flatten ++ List.replicate 2500 'b' := rfl
  have hu_nl : ∀ x ∈ (['a'] : Str), x ≠ '\n' := by decide
  have ht_nl : ∀ x ∈ List.replicate 2500 'b', x ≠ '\n' := by
    intro x hx
    rw [List.eq_of_mem_replicate hx]
    decide
  have htne : (List.replicate 2500 'b' : Str) ≠ [] := by
    simp only [ne_eq, List.replicate_eq_nil]
    omega
  have hlines : linesOf demoC9content =
      List.replicate 74 (['a'] : Str) ++ [List.replicate 2500 'b'] := by
    rw [hform]
    exact linesOf_blocks _ _ hu_nl ht_nl htne 74
  have hlineslen : (linesOf demoC9content).length = 75 := by
    rw [hlines, List.length_append, List.length_replicate]
    rfl
  have hlen : demoC9content.length = 2648 := by
    rw [hform, List.length_append, blocks_length, List.length_replicate]
    decide
  have hps : nlPositions demoC9content = (List.range 74).map
      (fun j => ((['a'] : Str).length + 1) * j + (['a'] : Str).length) := by
    rw [hform]
    exact nlPositions_blocks _ _ hu_nl ht_nl 74
  have hpslen : (nlPositions demoC9content).length = 74 := by
    rw [hps]
    simp
  have hbr0 : lineRangeToByteRange demoC9content 0 75 = (0, 2648) := by
    rw [lineRangeToByteRange,
      lineRangeGo_out 0 75 (by omega) (nlPositions demoC9content) 0 0
        demoC9content.length (by omega)]
    rw [if_pos (le_refl 0)]
    rw [if_neg (by rw [hpslen]; omega :
      ¬ 75 - 0 ≤ (nlPositions demoC9content).length)]
    rw [hlen]
  have hbr0a : (lineRangeToByteRange demoC9content 0 75).1 = 0 := by rw [hbr0]
  have hbr0b : (lineRangeToByteRange demoC9content 0 75).2 = 2648 := by rw [hbr0]
  have hbr65 : lineRangeToByteRange demoC9content 65 75 = (130, 2648) := by
    rw [lineRangeToByteRange,
      lineRangeGo_out 65 75 (by omega) (nlPositions demoC9content) 0 0
        demoC9content.length (by omega)]
    rw [if_neg (by omega : ¬ (65 : Nat) ≤ 0)]
    rw [if_pos (by rw [hpslen]; omega :
      (65 : Nat) - 0 ≤ (nlPositions demoC9content).length)]
    rw [if_neg (by rw [hpslen]; omega :
      ¬ 75 - 0 ≤ (nlPositions demoC9content).length)]
    rw [hps, hlen]
    decide
  have hbr65a : (lineRangeToByteRange demoC9content 65 75).1 = 130 := by rw [hbr65]
  have hbr65b : (lineRangeToByteRange demoC9content 65 75).2 = 2648 := by rw [hbr65]
  have hsub0 : sliceC demoC9content 0 2648 = demoC9content := by
    rw [sliceC, List.drop_zero, Nat.sub_zero, ← hlen, List.take_length]
  have hlen2518 : (((List.replicate 9 ((['a'] : Str) ++ ['\n'])).flatten ++
      List.replicate 2500 'b') : Str).length = 2518 := by
    rw [List.length_append, blocks_length, List.length_replicate]
    decide
  have hsub65 : sliceC demoC9content 130 2648 =
      (List.replicate 9 ((['a'] : Str) ++ ['\n'])).flatten ++ List.replicate 2500 'b' := by
    rw [sliceC, hform]
    rw [show (2648 : Nat) - 130 = 2518 from by norm_num]
    rw [show (130 : Nat) = 65 * ((['a'] : Str).length + 1) from by decide]
    rw [blocks_drop _ _ 65 74 (by omega)]
    rw [show (74 : Nat) - 65 = 9 from by norm_num]
    rw [← hlen2518, List.take_length]
  have hsplitA := split_by_chars_impl_blocks ['a'] 'a' [] rfl (by decide) hu_nl
    'b' (by decide) (by decide) 74 2500 1852 (by omega) (by decide) (by omega)
    (by omega) (by decide) ChunkType.Block [fileLabel demoPath] 0
  rw [← hform] at hsplitA
  have hsplitB := split_by_chars_impl_blocks ['a'] 'a' [] rfl (by decide) hu_nl
    'b' (by decide) (by decide) 9 2500 1982 (by omega) (by decide) (by omega)
    (by omega) (by decide) ChunkType.Block [fileLabel demoPath] 65
  rw [chunkViaFallback, simple_chunk]
  rw [simpleChunkGo_succ_lt demoC9content (linesOf demoC9content) [fileLabel demoPath]
    ((linesOf demoC9content).length) 0 (by rw [hlineslen]; omega)]
  have he0 : min (0 + MAX_LINES) (linesOf demoC9content).length = 75 := by
    rw [hlineslen]
    decide
  rw [he0, hbr0a, hbr0b, hsub0]
  rw [if_neg (by rw [hlen]; decide : ¬ demoC9content.length ≤ MAX_CHARS)]
  rw [split_content_by_chars, hsplitA]
  have hstride : (0 : Nat) + lineStride = 65 := by decide
  rw [hstride, hlineslen]
  rw [show (75 : Nat) = 74 + 1 from by norm_num]
  rw [simpleChunkGo_succ_lt demoC9content (linesOf demoC9content) [fileLabel demoPath]
    74 65 (by rw [hlineslen]; omega)]
  have he65 : min (65 + MAX_LINES) (linesOf demoC9content).length = 75 := by
    rw [hlineslen]
    decide
  rw [he65, hbr65a, hbr65b, hsub65]
  rw [if_neg (by rw [hlen2518]; decide :
    ¬ (((List.replicate 9 ((['a'] : Str) ++ ['\n'])).flatten ++
      List.replicate 2500 'b') : Str).length ≤ MAX_CHARS)]
  rw [split_content_by_chars, hsplitB]
  have hstride2 : (65 : Nat) + lineStride = 130 := by decide
  rw [hstride2]
  rw [simpleChunkGo_stop demoC9content (linesOf demoC9content) [fileLabel demoPath]
    74 130 (by rw [hlineslen]; decide)]
  have hlinesA : (linesOf ((List.replicate 74 ((['a'] : Str) ++ ['\n'])).flatten ++
      List.replicate 1852 'b')).length = 75 := by
    rw [linesOf_blocks _ _ hu_nl
      (by intro x hx; rw [List.eq_of_mem_replicate hx]; decide)
      (by simp only [ne_eq, List.replicate_eq_nil]; omega) 74]
    rw [List.length_append, List.length_replicate]
    rfl
  have hlenA : (((List.replicate 74 ((['a'] : Str) ++ ['\n'])).flatten ++
      List.replicate 1852 'b') : Str).length = 2000 := by
    rw [List.length_append, blocks_length, List.length_replicate]
    decide
  have hlinesC : (linesOf ((List.replicate 9 ((['a'] : Str) ++ ['\n'])).flatten ++
      List.replicate 1982 'b')).length = 10 := by
    rw [linesOf_blocks _ _ hu_nl
      (by intro x hx; rw [List.eq_of_mem_replicate hx]; decide)
      (by simp only [ne_eq, List.replicate_eq_nil]; omega) 9]
    rw [List.length_append, List.length_replicate]
    rfl
  have hlenC : (((List.replicate 9 ((['a'] : Str) ++ ['\n'])).flatten ++
      List.replicate 1982 'b') : Str).length = 2000 := by
    rw [List.length_append, blocks_length, List.length_replicate]
    decide
  have hlinesRep : ∀ n : Nat, 0 < n →
      (linesOf (List.replicate n 'b')).length = 1 := by
    intro n hn
    rw [linesOf_no_newline _ (by simp only [ne_eq, List.replicate_eq_nil]; omega)
      (by intro x hx; rw [List.eq_of_mem_replicate hx]; decide)]
    rfl
  rw [chunkSizePass_all_small]
  · decide
  · intro c hc
    simp only [List.mem_append, List.mem_cons, List.not_mem_nil, or_false] at hc
    rcases hc with (rfl | rfl) | (rfl | rfl)
    · exact ⟨by rw [show (Chunk.new ((List.replicate 74 ((['a'] : Str) ++ ['\n'])).flatten ++
          List.replicate 1852 'b') 0 (0 + (74 + 1)) ChunkType.Block
          [fileLabel demoPath]).content = (List.replicate 74 ((['a'] : Str) ++
          ['\n'])).flatten ++ List.replicate 1852 'b' from rfl, hlinesA]; decide,
        by rw [show (Chunk.new ((List.replicate 74 ((['a'] : Str) ++ ['\n'])).flatten ++
          List.replicate 1852 'b') 0 (0 + (74 + 1)) ChunkType.Block
          [fileLabel demoPath]).content = (List.replicate 74 ((['a'] : Str) ++
          ['\n'])).flatten ++ List.replicate 1852 'b' from rfl, hlenA]; decide⟩
    · exact ⟨by rw [show (Chunk.new (List.replicate (2500 - 1852) 'b') (0 + (74 + 1))
          (0 + (74 + 1) + 1) ChunkType.Block [fileLabel demoPath]).content =
          List.replicate (2500 - 1852) 'b' from rfl, hlinesRep _ (by omega)]; decide,
        by rw [show (Chunk.new (List.replicate (2500 - 1852) 'b') (0 + (74 + 1))
          (0 + (74 + 1) + 1) ChunkType.Block [fileLabel demoPath]).content =
          List.replicate (2500 - 1852) 'b' from rfl, List.length_replicate]; decide⟩
    · exact ⟨by rw [show (Chunk.new ((List.replicate 9 ((['a'] : Str) ++ ['\n'])).flatten ++
          List.replicate 1982 'b') 65 (65 + (9 + 1)) ChunkType.Block
          [fileLabel demoPath]).content = (List.replicate 9 ((['a'] : Str) ++
          ['\n'])).flatten ++ List.replicate 1982 'b' from rfl, hlinesC]; decide,
        by rw [show (Chunk.new ((List.replicate 9 ((['a'] : Str) ++ ['\n'])).flatten ++
          List.replicate 1982 'b') 65 (65 + (9 + 1)) ChunkType.Block
          [fileLabel demoPath]).content = (List.replicate 9 ((['a'] : Str) ++
          ['\n'])).flatten ++ List.replicate 1982 'b' from rfl, hlenC]; decide⟩
    · exact ⟨by rw [show (Chunk.new (List.replicate (2500 - 1982) 'b') (65 + (9 + 1))
          (65 + (9 + 1) + 1) ChunkType.Block [fileLabel demoPath]).content =
          List.replicate (2500 - 1982) 'b' from rfl, hlinesRep _ (by omega)]; decide,
        by rw [show (Chunk.new (List.replicate (2500 - 1982) 'b') (65 + (9 + 1))
          (65 + (9 + 1) + 1) ChunkType.Block [fileLabel demoPath]).content =
          List.replicate (2500 - 1982) 'b' from rfl, List.length_replicate]; decide⟩

theorem Chunk_new_content (X : Str) (a b : Nat) (ct : ChunkType) (cx : List Str) :
    (Chunk.new X a b ct cx).content = X := rfl

theorem split_by_chars_new (X : Str) (a b : Nat) (ct : ChunkType) (cx : List Str) :
    split_by_chars (Chunk.new X a b ct cx) = split_by_chars_impl X a ct cx := rfl

theorem splitBigGo_stop (c : Chunk) (lns : List Str) (header : Option Str) (f i : Nat)
    (h : ¬ i < lns.length) :
    splitBigGo c lns header f i = [] := by
  rcases f with _ | f'
  · rfl
  · exact splitBigGo_succ_stop c lns header f' i h

theorem splitBigGo_succ_emit_some (c : Chunk) (lns : List Str) (hd : Str) (f i : Nat)
    (h : i < lns.length)
    (h2 : ¬ (((lns.drop i).take (min (i + MAX_LINES) lns.length - i)).length < 3 ∧ 0 < i))
    (hi : 0 < i) (hct : c.chunk_type ≠ some ChunkType.Block) :
    splitBigGo c lns (some hd) (f + 1) i =
      Chunk.new
        (hd ++ '\n' :: sliceC c.content
          (lineRangeToByteRange c.content i (min (i + MAX_LINES) lns.length)).1
          (lineRangeToByteRange c.content i (min (i + MAX_LINES) lns.length)).2)
        (c.start_line + i) (c.start_line + min (i + MAX_LINES) lns.length)
        (c.chunk_type.getD ChunkType.Other) c.context ::
      splitBigGo c lns (some hd) f (i + lineStride) := by
  rw [splitBigGo_succ_emit c lns (some hd) f i h h2]
  dsimp only
  rw [if_pos ⟨hi, hct⟩]

theorem splitBigGo_succ_emit_zero (c : Chunk) (lns : List Str) (header : Option Str)
    (f : Nat) (h : 0 < lns.length)
    (h2 : ¬ (((lns.drop 0).take (min (0 + MAX_LINES) lns.length - 0)).length < 3 ∧ 0 < 0)) :
    splitBigGo c lns header (f + 1) 0 =
      Chunk.new
        (sliceC c.content
          (lineRangeToByteRange c.content 0 (min (0 + MAX_LINES) lns.length)).1
          (lineRangeToByteRange c.content 0 (min (0 + MAX_LINES) lns.length)).2)
        (c.start_line + 0) (c.start_line + min (0 + MAX_LINES) lns.length)
        (c.chunk_type.getD ChunkType.Other) c.context ::
      splitBigGo c lns header f (0 + lineStride) := by
  rw [splitBigGo_succ_emit c lns header f 0 h h2]
  rcases header with _ | hd
  · rfl
  · dsimp only
    rw [if_neg (fun hh => absurd hh.1 (Nat.lt_irrefl 0))]

/-- **C1 counterexample.**  The spec says chunks are kept to at most
`MAX_LINES` (75) lines.  On a 140-line function chunk whose last window is
character-split, `split_if_too_big` prepends the extracted header line to the
middle window's slice, and the resulting piece spans
`end_line - start_line = 76 > MAX_LINES` lines. -/
theorem claimC1_counterexample :
    (chunkViaTreeSitter [demoC1chunk]).any
      (fun c => decide (MAX_LINES < c.end_line - c.start_line)) = true := by
  have hcontent : demoC1chunk.content =
      (List.replicate 139 (tenChars ++ ['\n'])).flatten ++ List.replicate 1200 'b' := rfl
  have hu_nl : ∀ x ∈ tenChars, x ≠ '\n' := by decide
  have ht_nl : ∀ x ∈ List.replicate 1200 'b', x ≠ '\n' := by
    intro x hx
    rw [List.eq_of_mem_replicate hx]
    decide
  have htne : (List.replicate 1200 'b' : Str) ≠ [] := by
    simp only [ne_eq, List.replicate_eq_nil]
    omega
  have hlines : linesOf demoC1chunk.content =
      List.replicate 139 tenChars ++ [List.replicate 1200 'b'] := by
    rw [hcontent]
    exact linesOf_blocks _ _ hu_nl ht_nl htne 139
  have hlineslen : (linesOf demoC1chunk.content).length = 140 := by
    rw [hlines, List.length_append, List.length_replicate]
    rfl
  have hlen : demoC1chunk.content.length = 2729 := by
    rw [hcontent, List.length_append, blocks_length, List.length_replicate]
    decide
  have hps : nlPositions demoC1chunk.content = (List.range 139).map
      (fun j => (tenChars.length + 1) * j + tenChars.length) := by
    rw [hcontent]
    exact nlPositions_blocks _ _ hu_nl ht_nl 139
  have hpslen : (nlPositions demoC1chunk.content).length = 139 := by
    rw [hps]
    simp
  have hheader : extract_header_line demoC1chunk.content = some tenChars := by
    rw [extract_header_line, hlines, List.map_append, List.map_replicate,
      trimC_no_ws tenChars (by decide)]
    rw [show (List.replicate 139 tenChars : List Str) =
      tenChars :: List.replicate 138 tenChars from rfl]
    rw [List.cons_append, List.find?_cons_of_pos _ (by decide)]
  have hbr0 : lineRangeToByteRange demoC1chunk.content 0 75 = (0, 824) := by
    rw [lineRangeToByteRange,
      lineRangeGo_out 0 75 (by omega) (nlPositions demoC1chunk.content) 0 0
        demoC1chunk.content.length (by omega)]
    rw [if_pos (le_refl 0)]
    rw [if_pos (by rw [hpslen]; omega :
      75 - 0 ≤ (nlPositions demoC1chunk.content).length)]
    rw [hps]
    decide
  have hbr0a : (lineRangeToByteRange demoC1chunk.content 0 75).1 = 0 := by rw [hbr0]
  have hbr0b : (lineRangeToByteRange demoC1chunk.content 0 75).2 = 824 := by rw [hbr0]
  have hbr65 : lineRangeToByteRange demoC1chunk.content 65 140 = (715, 2729) := by
    rw [lineRangeToByteRange,
      lineRangeGo_out 65 140 (by omega) (nlPositions demoC1chunk.content) 0 0
        demoC1chunk.content.length (by omega)]
    rw [if_neg (by omega : ¬ (65 : Nat) ≤ 0)]
    rw [if_pos (by rw [hpslen]; omega :
      (65 : Nat) - 0 ≤ (nlPositions demoC1chunk.content).length)]
    rw [if_neg (by rw [hpslen]; omega :
      ¬ 140 - 0 ≤ (nlPositions demoC1chunk.content).length)]
    rw [hps, hlen]
    decide
  have hbr65a : (lineRangeToByteRange demoC1chunk.content 65 140).1 = 715 := by rw [hbr65]
  have hbr65b : (lineRangeToByteRange demoC1chunk.content 65 140).2 = 2729 := by rw [hbr65]
  have hbr130 : lineRangeToByteRange demoC1chunk.content 130 140 = (1430, 2729) := by
    rw [lineRangeToByteRange,
      lineRangeGo_out 130 140 (by omega) (nlPositions demoC1chunk.content) 0 0
        demoC1chunk.content.length (by omega)]
    rw [if_neg (by omega : ¬ (130 : Nat) ≤ 0)]
    rw [if_pos (by rw [hpslen]; omega :
      (130 : Nat) - 0 ≤ (nlPositions demoC1chunk.content).length)]
    rw [if_neg (by rw [hpslen]; omega :
      ¬ 140 - 0 ≤ (nlPositions demoC1chunk.content).length)]
    rw [hps, hlen]
    decide
  have hbr130a : (lineRangeToByteRange demoC1chunk.content 130 140).1 = 1430 := by
    rw [hbr130]
  have hbr130b : (lineRangeToByteRange demoC1chunk.content 130 140).2 = 2729 := by
    rw [hbr130]
  have hsub0len : (sliceC demoC1chunk.content 0 824).length = 824 := by
    rw [sliceC, List.length_take, List.length_drop, hlen]
    decide
  have hlen2014 : (((List.replicate 74 (tenChars ++ ['\n'])).flatten ++
      List.replicate 1200 'b') : Str).length = 2014 := by
    rw [List.length_append, blocks_length, List.length_replicate]
    decide
  have hsub65 : sliceC demoC1chunk.content 715 2729 =
      (List.replicate 74 (tenChars ++ ['\n'])).flatten ++ List.replicate 1200 'b' := by
    rw [sliceC, hcontent]
    rw [show (2729 : Nat) - 715 = 2014 from by norm_num]
    rw [show (715 : Nat) = 65 * (tenChars.length + 1) from by decide]
    rw [blocks_drop _ _ 65 139 (by omega)]
    rw [show (139 : Nat) - 65 = 74 from by norm_num]
    rw [← hlen2014, List.take_length]
  have hlen1299 : (((List.replicate 9 (tenChars ++ ['\n'])).flatten ++
      List.replicate 1200 'b') : Str).length = 1299 := by
    rw [List.length_append, blocks_length, List.length_replicate]
    decide
  have hsub130 : sliceC demoC1chunk.content 1430 2729 =
      (List.replicate 9 (tenChars ++ ['\n'])).flatten ++ List.replicate 1200 'b' := by
    rw [sliceC, hcontent]
    rw [show (2729 : Nat) - 1430 = 1299 from by norm_num]
    rw [show (1430 : Nat) = 130 * (tenChars.length + 1) from by decide]
    rw [blocks_drop _ _ 130 139 (by omega)]
    rw [show (139 : Nat) - 130 = 9 from by norm_num]
    rw [← hlen1299, List.take_length]
  have he0 : min (0 + MAX_LINES) (linesOf demoC1chunk.content).length = 75 := by
    rw [hlineslen]
    decide
  have he65 : min (65 + MAX_LINES) (linesOf demoC1chunk.content).length = 140 := by
    rw [hlineslen]
    decide
  have he130 : min (130 + MAX_LINES) (linesOf demoC1chunk.content).length = 140 := by
    rw [hlineslen]
    decide
  have hct : demoC1chunk.chunk_type ≠ some ChunkType.Block := by decide
  have hsplitC1 := split_by_chars_impl_blocks tenChars 'a' ("bcdefghij".data)
    (by decide) (by decide) hu_nl 'b' (by decide) (by decide) (74 + 1) 1200 1175
    (by omega) (by decide) (by omega) (by omega) (by decide)
    (demoC1chunk.chunk_type.getD ChunkType.Other) demoC1chunk.context
    (demoC1chunk.start_line + 65)
  rw [chunkViaTreeSitter_singleton]
  rw [split_if_too_big_lines demoC1chunk
    (by intro hh; rw [hlineslen] at hh; exact absurd hh.1 (by decide))
    (by intro hh; rw [hlineslen] at hh; exact absurd hh.2 (by decide))]
  rw [hheader]
  rw [splitBigGo_succ_emit_zero demoC1chunk (linesOf demoC1chunk.content)
    (some tenChars) ((linesOf demoC1chunk.content).length)
    (by rw [hlineslen]; omega) (fun hh => absurd hh.2 (Nat.lt_irrefl 0))]
  rw [he0, hbr0a, hbr0b]
  rw [show (0 : Nat) + lineStride = 65 from by decide]
  rw [hlineslen]
  rw [show (140 : Nat) = 139 + 1 from by norm_num]
  rw [splitBigGo_succ_emit_some demoC1chunk (linesOf demoC1chunk.content) tenChars
    139 65 (by rw [hlineslen]; omega)
    (by rw [List.length_take, List.length_drop, hlineslen]; decide)
    (by omega) hct]
  rw [he65, hbr65a, hbr65b, hsub65]
  rw [← blocks_cons tenChars (List.replicate 1200 'b') 74]
  rw [show (65 : Nat) + lineStride = 130 from by decide]
  rw [show (139 : Nat) = 138 + 1 from by norm_num]
  rw [splitBigGo_succ_emit_some demoC1chunk (linesOf demoC1chunk.content) tenChars
    138 130 (by rw [hlineslen]; omega)
    (by rw [List.length_take, List.length_drop, hlineslen]; decide)
    (by omega) hct]
  rw [he130, hbr130a, hbr130b, hsub130]
  rw [← blocks_cons tenChars (List.replicate 1200 'b') 9]
  rw [show (130 : Nat) + lineStride = 195 from by decide]
  rw [splitBigGo_stop demoC1chunk (linesOf demoC1chunk.content) (some tenChars)
    138 195 (by rw [hlineslen]; decide)]
  simp only [List.flatMap_cons, List.flatMap_nil, List.append_nil, Chunk_new_content]
  rw [if_neg (by rw [hsub0len]; decide :
    ¬ MAX_CHARS < (sliceC demoC1chunk.content 0 824).length)]
  rw [if_pos (by rw [List.length_append, blocks_length, List.length_replicate]; decide :
    MAX_CHARS < (((List.replicate (74 + 1) (tenChars ++ ['\n'])).flatten ++
      List.replicate 1200 'b') : Str).length)]
  rw [if_neg (by rw [List.length_append, blocks_length, List.length_replicate]; decide :
    ¬ MAX_CHARS < (((List.replicate (9 + 1) (tenChars ++ ['\n'])).flatten ++
      List.replicate 1200 'b') : Str).length)]
  rw [split_by_chars_new, hsplitC1]
  decide

/-! ### Lemmas: meta-store and store hash bookkeeping -/

theorem find?_append_some {α : Type} (f : α → Bool) (l1 l2 : List α) (r : α)
    (h : l1.find? f = some r) : (l1 ++ l2).find? f = some r := by
  induction l1 with
  | nil => simp [List.find?] at h
  | cons a rest ih =>
    rw [List.cons_append]
    rcases ha : f a with _ | _
    · rw [List.find?_cons_of_neg _ (by simp [ha])]
      rw [List.find?_cons_of_neg _ (by simp [ha])] at h
      exact ih h
    · rw [List.find?_cons_of_pos _ ha]
      rw [List.find?_cons_of_pos _ ha] at h
      exact h

theorem find?_append_none {α : Type} (f : α → Bool) (l1 l2 : List α)
    (h : l1.find? f = none) : (l1 ++ l2).find? f = l2.find? f := by
  induction l1 with
  | nil => simp
  | cons a rest ih =>
    rcases ha : f a with _ | _
    · rw [List.find?_cons_of_neg _ (by simp [ha])] at h
      rw [List.cons_append, List.find?_cons_of_neg _ (by simp [ha])]
      exact ih h
    · rw [List.find?_cons_of_pos _ ha] at h
      exact absurd h (by simp)

theorem find?_filter_keep {α : Type} (f g : α → Bool) (l : List α)
    (h : ∀ a ∈ l, f a = true → g a = true) :
    (l.filter g).find? f = l.find? f := by
  induction l with
  | nil => rfl
  | cons a rest ih =>
    have ih' := ih (fun x hx => h x (List.mem_cons_of_mem _ hx))
    rcases ha : f a with _ | _
    · rcases hg : g a with _ | _
      · rw [List.filter_cons_of_neg (by simp [hg]), ih',
          List.find?_cons_of_neg _ (by simp [ha])]
      · rw [List.filter_cons_of_pos (by simp [hg]),
          List.find?_cons_of_neg _ (by simp [ha]), ih',
          List.find?_cons_of_neg _ (by simp [ha])]
    · have hg : g a = true := h a (List.mem_cons_self _ _) ha
      rw [List.filter_cons_of_pos (by simp [hg]), List.find?_cons_of_pos _ ha,
        List.find?_cons_of_pos _ ha]

theorem fileHash_insertBatch_some (s : StoreState) (rs : List SRecord) (p h : Str)
    (hs : s.fileHash p = some h) : (s.insertBatch rs).fileHash p = some h := by
  rw [StoreState.fileHash] at hs ⊢
  rcases hf : s.records.find? (fun r => decide (r.path = p)) with _ | r
  · rw [hf] at hs
    simp at hs
  · rw [hf] at hs
    rw [StoreState.insertBatch]
    show ((s.records ++ rs).find? _).map _ = _
    rw [find?_append_some _ _ _ _ hf]
    exact hs

theorem fileHash_deleteFiles_not_mem (s : StoreState) (ps : List Str) (p : Str)
    (hp : p ∉ ps) : (s.deleteFiles ps).fileHash p = s.fileHash p := by
  rw [StoreState.fileHash, StoreState.fileHash, StoreState.deleteFiles]
  show ((s.records.filter _).find? _).map _ = _
  rw [find?_filter_keep _ _ _ ?_]
  intro r _ hr
  simp only [decide_eq_true_eq] at hr
  simp [hr, hp]

theorem alistGet_remove_other {α : Type} (l : List (Str × α)) (q p : Str) (hqp : q ≠ p) :
    alistGet (alistRemove l q) p = alistGet l p := by
  rw [alistGet, alistGet, alistRemove]
  rw [find?_filter_keep _ _ _ ?_]
  intro e _ he
  simp only [decide_eq_true_eq] at he
  rw [he]
  simp only [Bool.not_eq_true', decide_eq_false_iff_not]
  exact fun hh => hqp hh.symm

theorem alistGet_map_set_self (l : List (Str × FileMeta)) (p : Str) (h : Str) :
    alistGet (l.map (fun e => if e.1 = p then (e.1, (⟨h, e.2.mtime⟩ : FileMeta)) else e)) p =
      (alistGet l p).map (fun fm => (⟨h, fm.mtime⟩ : FileMeta)) := by
  induction l with
  | nil => rfl
  | cons e rest ih =>
    by_cases he : e.1 = p
    · rw [List.map_cons, if_pos he]
      rw [alistGet, List.find?_cons_of_pos _ (by simp [he]), alistGet,
        List.find?_cons_of_pos _ (by simp [he])]
      simp
    · rw [List.map_cons, if_neg he]
      rw [alistGet, List.find?_cons_of_neg _ (by simp [he]), alistGet,
        List.find?_cons_of_neg _ (by simp [he])]
      exact ih

theorem alistGet_map_set_other (l : List (Str × FileMeta)) (q : Str) (h : Str) (p : Str)
    (hqp : q ≠ p) :
    alistGet (l.map (fun e => if e.1 = q then (e.1, (⟨h, e.2.mtime⟩ : FileMeta)) else e)) p =
      alistGet l p := by
  induction l with
  | nil => rfl
  | cons e rest ih =>
    by_cases he : e.1 = q
    · rw [List.map_cons, if_pos he]
      rw [alistGet, List.find?_cons_of_neg _ (by simp [he, hqp]), alistGet,
        List.find?_cons_of_neg _ (by simp [he, hqp])]
      exact ih
    · rw [List.map_cons, if_neg he]
      by_cases hp : e.1 = p
      · rw [alistGet, List.find?_cons_of_pos _ (by simp [hp]), alistGet,
          List.find?_cons_of_pos _ (by simp [hp])]
      · rw [alistGet, List.find?_cons_of_neg _ (by simp [hp]), alistGet,
          List.find?_cons_of_neg _ (by simp [hp])]
        exact ih

theorem alistGet_append_right_self {α : Type} (l : List (Str × α)) (p : Str) (v : α)
    (h : alistGet l p = none) : alistGet (l ++ [(p, v)]) p = some v := by
  rw [alistGet] at h ⊢
  rcases hf : l.find? (fun e => decide (e.1 = p)) with _ | e
  · rw [find?_append_none _ _ _ hf]
    rw [List.find?_cons_of_pos _ (by simp)]
    rfl
  · rw [hf] at h
    simp at h

theorem alistGet_append_right_other {α : Type} (l : List (Str × α)) (q p : Str) (v : α)
    (hqp : q ≠ p) : alistGet (l ++ [(q, v)]) p = alistGet l p := by
  rw [alistGet, alistGet]
  rcases hf : l.find? (fun e => decide (e.1 = p)) with _ | e
  · rw [find?_append_none _ _ _ hf, hf]
    rw [List.find?_cons_of_neg _ (by simp [hqp])]
    rfl
  · rw [find?_append_some _ _ _ _ hf, hf]

theorem getHash_files_some (m : MetaStore) (p : Str) (fm : FileMeta)
    (h : alistGet m.files p = some fm) : m.getHash p = some fm.hash := by
  rw [MetaStore.getHash, h]

theorem getHash_files_none (m : MetaStore) (p : Str)
    (h : alistGet m.files p = none) : m.getHash p = alistGet m.hashes p := by
  rw [MetaStore.getHash, h]

theorem getHash_setHash_self (m : MetaStore) (p h : Str) :
    (m.setHash p h).getHash p = some h := by
  rw [MetaStore.setHash]
  rcases hg : alistGet m.files p with _ | fm
  · show MetaStore.getHash ⟨m.files ++ [(p, ⟨h, 0⟩)], alistRemove m.hashes p, true⟩ p = some h
    exact getHash_files_some _ p ⟨h, 0⟩
      (by show alistGet (m.files ++ [(p, (⟨h, 0⟩ : FileMeta))]) p = _
          exact alistGet_append_right_self m.files p _ hg)
  · show MetaStore.getHash ⟨m.files.map
      (fun e => if e.1 = p then (e.1, (⟨h, e.2.mtime⟩ : FileMeta)) else e),
      m.hashes, true⟩ p = some h
    have h2 := alistGet_map_set_self m.files p h
    rw [hg, Option.map_some'] at h2
    exact getHash_files_some ⟨m.files.map
      (fun e => if e.1 = p then (e.1, (⟨h, e.2.mtime⟩ : FileMeta)) else e),
      m.hashes, true⟩ p ⟨h, fm.mtime⟩ h2

theorem getHash_setHash_other (m : MetaStore) (q h p : Str) (hqp : q ≠ p) :
    (m.setHash q h).getHash p = m.getHash p := by
  rw [MetaStore.setHash]
  rcases hg : alistGet m.files q with _ | fm
  · show MetaStore.getHash ⟨m.files ++ [(q, ⟨h, 0⟩)], alistRemove m.hashes q, true⟩ p =
      m.getHash p
    rcases hp : alistGet m.files p with _ | fmp
    · rw [getHash_files_none _ p
        (by show alistGet (m.files ++ [(q, (⟨h, 0⟩ : FileMeta))]) p = none
            rw [alistGet_append_right_other m.files q p _ hqp]
            exact hp)]
      rw [getHash_files_none m p hp]
      show alistGet (alistRemove m.hashes q) p = _
      exact alistGet_remove_other _ _ _ hqp
    · rw [getHash_files_some _ p fmp
        (by show alistGet (m.files ++ [(q, (⟨h, 0⟩ : FileMeta))]) p = some fmp
            rw [alistGet_append_right_other m.files q p _ hqp]
            exact hp)]
      rw [getHash_files_some m p fmp hp]
  · show MetaStore.getHash ⟨m.files.map
      (fun e => if e.1 = q then (e.1, (⟨h, e.2.mtime⟩ : FileMeta)) else e),
      m.hashes, true⟩ p = m.getHash p
    rcases hp : alistGet m.files p with _ | fmp
    · rw [getHash_files_none _ p
        (by show alistGet (m.files.map
              (fun e => if e.1 = q then (e.1, (⟨h, e.2.mtime⟩ : FileMeta)) else e)) p = none
            rw [alistGet_map_set_other _ _ _ _ hqp]
            exact hp)]
      rw [getHash_files_none m p hp]
    · rw [getHash_files_some _ p fmp
        (by show alistGet (m.files.map
              (fun e => if e.1 = q then (e.1, (⟨h, e.2.mtime⟩ : FileMeta)) else e)) p = some fmp
            rw [alistGet_map_set_other _ _ _ _ hqp]
            exact hp)]
      rw [getHash_files_some m p fmp hp]

theorem getHash_removeP_other (m : MetaStore) (q p : Str) (hqp : q ≠ p) :
    (m.removeP q).getHash p = m.getHash p := by
  rw [MetaStore.removeP]
  rcases hp : alistGet m.files p with _ | fmp
  · rw [getHash_files_none _ p
      (by show alistGet (alistRemove m.files q) p = none
          rw [alistGet_remove_other _ _ _ hqp]
          exact hp)]
    rw [getHash_files_none m p hp]
    show alistGet (alistRemove m.hashes q) p = _
    exact alistGet_remove_other _ _ _ hqp
  · rw [getHash_files_some _ p fmp
      (by show alistGet (alistRemove m.files q) p = some fmp
          rw [alistGet_remove_other _ _ _ hqp]
          exact hp)]
    rw [getHash_files_some m p fmp hp]

theorem getHash_removeFold_other (qs : List Str) (p : Str) (hp : p ∉ qs) :
    ∀ m : MetaStore, (qs.foldl (fun mm q => mm.removeP q) m).getHash p = m.getHash p := by
  induction qs with
  | nil => intro m; rfl
  | cons q rest ih =>
    intro m
    rw [List.foldl_cons]
    rw [ih (fun hh => hp (List.mem_cons_of_mem _ hh))]
    exact getHash_removeP_other m q p (fun hh => hp (hh ▸ List.mem_cons_self _ _))

/-! ### Lemmas: the sync loop -/

theorem lookupHash_meta_some (m : MetaStore) (s : StoreState) (p h : Str)
    (hm : m.getHash p = some h) : lookupHash m s p = some h := by
  rw [lookupHash, hm]

theorem lookupHash_meta_none (m : MetaStore) (s : StoreState) (p : Str)
    (hm : m.getHash p = none) : lookupHash m s p = s.fileHash p := by
  rw [lookupHash, hm]

theorem getHash_setFold_not_mem (batch : List (Str × Str × List SRecord)) (p : Str)
    (hp : ∀ b ∈ batch, b.1 ≠ p) :
    ∀ m : MetaStore, (batch.foldl (fun mm b => mm.setHash b.1 b.2.1) m).getHash p =
      m.getHash p := by
  induction batch with
  | nil => intro m; rfl
  | cons b rest ih =>
    intro m
    rw [List.foldl_cons, ih (fun x hx => hp x (List.mem_cons_of_mem _ hx))]
    exact getHash_setHash_other m b.1 b.2.1 p (hp b (List.mem_cons_self _ _))

theorem getHash_setFold_mem (batch : List (Str × Str × List SRecord)) (p h : Str)
    (hh : ∀ b ∈ batch, b.1 = p → b.2.1 = h)
    (hmem : p ∈ batch.map (fun b => b.1)) :
    ∀ m : MetaStore, (batch.foldl (fun mm b => mm.setHash b.1 b.2.1) m).getHash p =
      some h := by
  induction batch with
  | nil => simp at hmem
  | cons b rest ih =>
    intro m
    rw [List.foldl_cons]
    by_cases hrest : p ∈ rest.map (fun b => b.1)
    · exact ih (fun x hx hxp => hh x (List.mem_cons_of_mem _ hx) hxp) hrest _
    · have hbp : b.1 = p := by
        rcases List.mem_map.mp hmem with ⟨x, hx, hxp⟩
        rcases List.mem_cons.mp hx with rfl | hx2
        · exact hxp
        · exact absurd (List.mem_map.mpr ⟨x, hx2, hxp⟩) hrest
      have hbh : b.2.1 = h := hh b (List.mem_cons_self _ _) hbp
      rw [getHash_setFold_not_mem rest p
        (fun x hx hxp => hrest (List.mem_map.mpr ⟨x, hx, hxp⟩))]
      rw [hbp, hbh]
      exact getHash_setHash_self m p h

theorem processEmbedBatch_eq_nil (st : SyncState) (batch : List (Str × Str × List SRecord))
    (h : batch.flatMap (fun b => b.2.2) = []) :
    processEmbedBatch st batch = (0, st) := by
  rw [processEmbedBatch, if_pos h]

theorem processEmbedBatch_eq_cons (st : SyncState) (batch : List (Str × Str × List SRecord))
    (h : ¬ batch.flatMap (fun b => b.2.2) = []) :
    processEmbedBatch st batch =
      (batch.length,
       { st with
         store := st.store.insertBatch (batch.flatMap (fun b => b.2.2))
         meta := batch.foldl (fun m b => m.setHash b.1 b.2.1) st.meta
         effs := st.effs ++ [SyncEff.insertBatch (batch.flatMap (fun b => b.2.2))] }) := by
  rw [processEmbedBatch, if_neg h]

theorem processEmbedBatch_lookup (st : SyncState) (batch : List (Str × Str × List SRecord))
    (p h : Str)
    (hh : ∀ b ∈ batch, b.1 = p → b.2.1 = h)
    (hrec : ∀ b ∈ batch, b.2.2 ≠ [])
    (ht : lookupHash st.meta st.store p = some h ∨ p ∈ batch.map (fun b => b.1)) :
    lookupHash (processEmbedBatch st batch).2.meta (processEmbedBatch st batch).2.store p =
      some h := by
  rcases hbatch : batch with _ | ⟨b, rest⟩
  · rw [processEmbedBatch_eq_nil st [] rfl]
    subst hbatch
    rcases ht with ht | ht
    · exact ht
    · simp at ht
  · subst hbatch
    have hne : ¬ (b :: rest).flatMap (fun x => x.2.2) = [] := by
      rw [List.flatMap_cons]
      intro hcontra
      rw [List.append_eq_nil] at hcontra
      exact hrec b (List.mem_cons_self _ _) hcontra.1
    rw [processEmbedBatch_eq_cons _ _ hne]
    by_cases hmem : p ∈ (b :: rest).map (fun x => x.1)
    · exact lookupHash_meta_some _ _ p h (getHash_setFold_mem _ p h hh hmem st.meta)
    · have hother : ∀ x ∈ b :: rest, x.1 ≠ p := by
        intro x hx hxp
        exact hmem (List.mem_map.mpr ⟨x, hx, hxp⟩)
      rcases ht with ht | ht
      · rcases hgm : st.meta.getHash p with _ | h'
        · rw [lookupHash_meta_none _ _ _ hgm] at ht
          show lookupHash _ _ p = some h
          rw [lookupHash_meta_none _ _ _ (by rw [getHash_setFold_not_mem _ p hother]; exact hgm)]
          exact fileHash_insertBatch_some st.store _ p h ht
        · rw [lookupHash_meta_some _ _ _ _ hgm] at ht
          injection ht with ht
          subst ht
          exact lookupHash_meta_some _ _ p h'
            (by rw [getHash_setFold_not_mem _ p hother]; exact hgm)
      · exact absurd ht hmem

theorem syncLoop_cons_skip (env : SyncEnv) (dr : Bool)
    (item : Str × Str × Str × Bool) (rest : List (Str × Str × Str × Bool))
    (st : SyncState) (hni : item.2.2.2 = false) :
    syncLoop env dr (item :: rest) st =
      syncLoop env dr rest
        { st with processed := st.processed + 1, skipped := st.skipped + 1 } := by
  simp only [syncLoop, hni]
  rw [if_pos (show (!false) = true from rfl)]

theorem syncLoop_cons_dry (env : SyncEnv)
    (item : Str × Str × Str × Bool) (rest : List (Str × Str × Str × Bool))
    (st : SyncState) (hni : item.2.2.2 = true) :
    syncLoop env true (item :: rest) st =
      syncLoop env true rest
        { st with processed := st.processed + 1, indexed := st.indexed + 1 } := by
  simp only [syncLoop, hni]
  rw [if_neg (show ¬ (!true) = true from by decide)]
  rw [if_pos trivial]

theorem syncLoop_cons_err (env : SyncEnv)
    (item : Str × Str × Str × Bool) (rest : List (Str × Str × Str × Bool))
    (st : SyncState) (e : Unit) (hni : item.2.2.2 = true)
    (hcr : env.chunkRes item.1 item.2.2.1 = .error e) :
    syncLoop env false (item :: rest) st = .error e := by
  simp only [syncLoop, hni]
  rw [if_neg (show ¬ (!true) = true from by decide)]
  rw [if_neg (show ¬ (false = true) from by decide)]
  rw [hcr]

theorem syncLoop_cons_ok_noflush (env : SyncEnv)
    (item : Str × Str × Str × Bool) (rest : List (Str × Str × Str × Bool))
    (st : SyncState) (chunks : List Chunk) (hni : item.2.2.2 = true)
    (hcr : env.chunkRes item.1 item.2.2.1 = .ok chunks)
    (hlt : ¬ env.batchSize ≤ st.queue.length + 1) :
    syncLoop env false (item :: rest) st =
      syncLoop env false rest
        { st with
          processed := st.processed + 1
          queue := st.queue ++
            [(item.1, item.2.1, prepareFile env item.1 item.2.1 item.2.2.1 chunks)] } := by
  simp only [syncLoop, hni]
  rw [if_neg (show ¬ (!true) = true from by decide)]
  rw [if_neg (show ¬ (false = true) from by decide)]
  rw [hcr]
  show (if env.batchSize ≤ (st.queue ++
      [(item.1, item.2.1, prepareFile env item.1 item.2.1 item.2.2.1 chunks)]).length
    then _ else _) = _
  rw [if_neg (by rw [List.length_append, List.length_singleton]; exact hlt)]

theorem processEmbedBatch_queue (st : SyncState) (batch : List (Str × Str × List SRecord)) :
    (processEmbedBatch st batch).2.queue = st.queue := by
  rw [processEmbedBatch]
  split
  · rfl
  · rfl

theorem processEmbedBatch_processed (st : SyncState)
    (batch : List (Str × Str × List SRecord)) :
    (processEmbedBatch st batch).2.processed = st.processed := by
  rw [processEmbedBatch]
  split
  · rfl
  · rfl

theorem syncLoop_cons_ok_flush (env : SyncEnv)
    (item : Str × Str × Str × Bool) (rest : List (Str × Str × Str × Bool))
    (st : SyncState) (chunks : List Chunk) (hni : item.2.2.2 = true)
    (hcr : env.chunkRes item.1 item.2.2.1 = .ok chunks)
    (hge : env.batchSize ≤ st.queue.length + 1) :
    ∃ st3 : SyncState,
      syncLoop env false (item :: rest) st = syncLoop env false rest st3 ∧
      st3.meta = (processEmbedBatch
        ⟨st.meta, st.store, st.effs, st.processed + 1, st.indexed, st.skipped, [],
          st.sinceSave⟩
        (st.queue ++
          [(item.1, item.2.1, prepareFile env item.1 item.2.1 item.2.2.1 chunks)])).2.meta ∧
      st3.store = (processEmbedBatch
        ⟨st.meta, st.store, st.effs, st.processed + 1, st.indexed, st.skipped, [],
          st.sinceSave⟩
        (st.queue ++
          [(item.1, item.2.1, prepareFile env item.1 item.2.1 item.2.2.1 chunks)])).2.store ∧
      st3.queue = [] ∧ st3.processed = st.processed + 1 := by
  simp only [syncLoop, hni]
  rw [if_neg (show ¬ (!true) = true from by decide)]
  rw [if_neg (show ¬ (false = true) from by decide)]
  rw [hcr]
  show ∃ st3, (if env.batchSize ≤ (st.queue ++
      [(item.1, item.2.1, prepareFile env item.1 item.2.1 item.2.2.1 chunks)]).length
    then _ else _) = _ ∧ _
  rw [if_pos (by rw [List.length_append, List.length_singleton]; exact hge)]
  refine ⟨_, rfl, ?_, ?_, ?_, ?_⟩
  · split <;> rfl
  · split <;> rfl
  · split <;> rw [processEmbedBatch_queue]
  · split <;> rw [processEmbedBatch_processed]

theorem prepareFile_ne_nil (env : SyncEnv) (p h c : Str) (chunks : List Chunk) :
    prepareFile env p h c chunks ≠ [] := by
  simp only [prepareFile]
  exact List.cons_ne_nil _ _

theorem processEmbedBatch_records (st : SyncState) (batch : List (Str × Str × List SRecord)) :
    (processEmbedBatch st batch).2.store.records =
      st.store.records ++ batch.flatMap (fun b => b.2.2) := by
  rw [processEmbedBatch]
  split
  · next hemp => rw [hemp, List.append_nil]
  · rfl

theorem length_filterMap_eq_countP {α β : Type} (f : α → Option β) (l : List α) :
    (l.filterMap f).length = l.countP (fun a => (f a).isSome) := by
  induction l with
  | nil => rfl
  | cons a rest ih =>
    rcases hf : f a with _ | b
    · rw [List.filterMap_cons_none hf, List.countP_cons, ih, hf]
      simp
    · rw [List.filterMap_cons_some hf, List.length_cons, List.countP_cons, ih, hf]
      simp

theorem countP_filterMap_eq {α β : Type} (f : α → Option β) (p : β → Bool) (l : List α) :
    (l.filterMap f).countP p = l.countP (fun a => ((f a).map p).getD false) := by
  induction l with
  | nil => rfl
  | cons a rest ih =>
    rcases hf : f a with _ | b
    · rw [List.filterMap_cons_none hf, List.countP_cons, ih, hf]
      simp
    · rw [List.filterMap_cons_some hf, List.countP_cons, List.countP_cons, ih, hf]
      simp

theorem syncLoop_dry (env : SyncEnv) :
    ∀ (items : List (Str × Str × Str × Bool)) (st : SyncState),
      syncLoop env true items st =
        .ok { st with
          processed := st.processed + items.length
          indexed := st.indexed + items.countP (fun it => it.2.2.2)
          skipped := st.skipped + items.countP (fun it => !it.2.2.2) } := by
  intro items
  induction items with
  | nil =>
    intro st
    show Except.ok st = _
    simp
  | cons it rest ih =>
    intro st
    rcases hni : it.2.2.2 with _ | _
    · rw [syncLoop_cons_skip env true it rest st hni, ih]
      simp [List.countP_cons, hni, Nat.add_assoc, Nat.add_comm, Nat.add_left_comm]
    · rw [syncLoop_cons_dry env it rest st hni, ih]
      simp [List.countP_cons, hni, Nat.add_assoc, Nat.add_comm, Nat.add_left_comm]

theorem syncLoop_all_skip (env : SyncEnv) (dr : Bool) :
    ∀ (items : List (Str × Str × Str × Bool)) (st : SyncState),
      (∀ it ∈ items, it.2.2.2 = false) →
      syncLoop env dr items st =
        .ok { st with
          processed := st.processed + items.length
          skipped := st.skipped + items.length } := by
  intro items
  induction items with
  | nil =>
    intro st _
    show Except.ok st = _
    simp
  | cons it rest ih =>
    intro st hall
    rw [syncLoop_cons_skip env dr it rest st (hall it (List.mem_cons_self _ _)),
      ih _ (fun x hx => hall x (List.mem_cons_of_mem _ hx))]
    simp [Nat.add_assoc, Nat.add_comm, Nat.add_left_comm]

theorem syncLoop_ok_exists (env : SyncEnv) (dr : Bool)
    (hok : ∀ p c, isOkE (env.chunkRes p c) = true) :
    ∀ (items : List (Str × Str × Str × Bool)) (st : SyncState),
      ∃ st', syncLoop env dr items st = .ok st' ∧
        st'.processed = st.processed + items.length := by
  intro items
  induction items with
  | nil =>
    intro st
    exact ⟨st, rfl, by simp⟩
  | cons it rest ih =>
    intro st
    rcases hni : it.2.2.2 with _ | _
    · obtain ⟨st', h1, h2⟩ :=
        ih { st with processed := st.processed + 1, skipped := st.skipped + 1 }
      refine ⟨st', ?_, ?_⟩
      · rw [syncLoop_cons_skip env dr it rest st hni, h1]
      · rw [h2]
        show st.processed + 1 + rest.length = _
        simp [Nat.add_assoc, Nat.add_comm, Nat.add_left_comm]
    · rcases dr with _ | _
      · rcases hcr : env.chunkRes it.1 it.2.2.1 with e | chunks
        · have hcontra := hok it.1 it.2.2.1
          rw [hcr] at hcontra
          simp [isOkE] at hcontra
        · by_cases hbs : env.batchSize ≤ st.queue.length + 1
          · obtain ⟨st3, heq, _, _, _, hp3⟩ :=
              syncLoop_cons_ok_flush env it rest st chunks hni hcr hbs
            obtain ⟨st', h1, h2⟩ := ih st3
            refine ⟨st', ?_, ?_⟩
            · rw [heq, h1]
            · rw [h2, hp3]
              simp [Nat.add_assoc, Nat.add_comm, Nat.add_left_comm]
          · obtain ⟨st', h1, h2⟩ :=
              ih { st with
                processed := st.processed + 1
                queue := st.queue ++
                  [(it.1, it.2.1, prepareFile env it.1 it.2.1 it.2.2.1 chunks)] }
            refine ⟨st', ?_, ?_⟩
            · rw [syncLoop_cons_ok_noflush env it rest st chunks hni hcr hbs, h1]
            · rw [h2]
              show st.processed + 1 + rest.length = _
              simp [Nat.add_assoc, Nat.add_comm, Nat.add_left_comm]
      · obtain ⟨st', h1, h2⟩ :=
          ih { st with processed := st.processed + 1, indexed := st.indexed + 1 }
        refine ⟨st', ?_, ?_⟩
        · rw [syncLoop_cons_dry env it rest st hni, h1]
        · rw [h2]
          show st.processed + 1 + rest.length = _
          simp [Nat.add_assoc, Nat.add_comm, Nat.add_left_comm]

theorem syncLoop_tracked (env : SyncEnv) (p h : Str)
    (hok : ∀ p' c', isOkE (env.chunkRes p' c') = true) :
    ∀ (items : List (Str × Str × Str × Bool)) (st : SyncState),
      (∀ it ∈ items, it.1 = p → it.2.1 = h) →
      (∀ q ∈ st.queue, q.1 = p → q.2.1 = h) →
      (∀ q ∈ st.queue, q.2.2 ≠ []) →
      (lookupHash st.meta st.store p = some h ∨ p ∈ st.queue.map (fun q => q.1) ∨
        ∃ it ∈ items, it.1 = p ∧ it.2.2.2 = true) →
      ∀ st', syncLoop env false items st = .ok st' →
        (lookupHash st'.meta st'.store p = some h ∨ p ∈ st'.queue.map (fun q => q.1)) ∧
        (∀ q ∈ st'.queue, q.1 = p → q.2.1 = h) ∧ (∀ q ∈ st'.queue, q.2.2 ≠ []) := by
  intro items
  induction items with
  | nil =>
    intro st hh hqh hqne htr st' hrun
    have hst : st = st' := by
      have : Except.ok (ε := Unit) st = Except.ok st' := hrun
      injection this
    subst hst
    rcases htr with htr | htr | ⟨it, hit, _⟩
    · exact ⟨Or.inl htr, hqh, hqne⟩
    · exact ⟨Or.inr htr, hqh, hqne⟩
    · simp at hit
  | cons it rest ih =>
    intro st hh hqh hqne htr st' hrun
    have hh' : ∀ x ∈ rest, x.1 = p → x.2.1 = h :=
      fun x hx => hh x (List.mem_cons_of_mem _ hx)
    rcases hni : it.2.2.2 with _ | _
    · rw [syncLoop_cons_skip env false it rest st hni] at hrun
      apply ih _ hh' ?_ ?_ ?_ st' hrun
      · exact hqh
      · exact hqne
      · rcases htr with htr | htr | ⟨x, hx, hxp, hxni⟩
        · exact Or.inl htr
        · exact Or.inr (Or.inl htr)
        · rcases List.mem_cons.mp hx with rfl | hx2
          · rw [hni] at hxni
            exact absurd hxni (by simp)
          · exact Or.inr (Or.inr ⟨x, hx2, hxp, hxni⟩)
    · rcases hcr : env.chunkRes it.1 it.2.2.1 with e | chunks
      · have hcontra := hok it.1 it.2.2.1
        rw [hcr] at hcontra
        simp [isOkE] at hcontra
      · by_cases hbs : env.batchSize ≤ st.queue.length + 1
        · obtain ⟨st3, heq, hm3, hs3, hq3, _⟩ :=
            syncLoop_cons_ok_flush env it rest st chunks hni hcr hbs
          rw [heq] at hrun
          apply ih _ hh' ?_ ?_ ?_ st' hrun
          · rw [hq3]
            intro q hq
            simp at hq
          · rw [hq3]
            intro q hq
            simp at hq
          · have hbatchh : ∀ b ∈ st.queue ++
                [(it.1, it.2.1, prepareFile env it.1 it.2.1 it.2.2.1 chunks)],
                b.1 = p → b.2.1 = h := by
              intro b hb hbp
              rcases List.mem_append.mp hb with hb1 | hb2
              · exact hqh b hb1 hbp
              · rcases List.mem_singleton.mp hb2 with rfl
                exact hh it (List.mem_cons_self _ _) hbp
            have hbatchr : ∀ b ∈ st.queue ++
                [(it.1, it.2.1, prepareFile env it.1 it.2.1 it.2.2.1 chunks)],
                b.2.2 ≠ [] := by
              intro b hb
              rcases List.mem_append.mp hb with hb1 | hb2
              · exact hqne b hb1
              · rcases List.mem_singleton.mp hb2 with rfl
                exact prepareFile_ne_nil env it.1 it.2.1 it.2.2.1 chunks
            rcases htr with htr | htr | ⟨x, hx, hxp, hxni⟩
            · refine Or.inl ?_
              rw [hm3, hs3]
              exact processEmbedBatch_lookup _ _ p h hbatchh hbatchr (Or.inl htr)
            · refine Or.inl ?_
              rw [hm3, hs3]
              refine processEmbedBatch_lookup _ _ p h hbatchh hbatchr (Or.inr ?_)
              rw [List.map_append]
              exact List.mem_append.mpr (Or.inl htr)
            · rcases List.mem_cons.mp hx with rfl | hx2
              · refine Or.inl ?_
                rw [hm3, hs3]
                refine processEmbedBatch_lookup _ _ p h hbatchh hbatchr (Or.inr ?_)
                rw [List.map_append]
                refine List.mem_append.mpr (Or.inr ?_)
                simp [hxp]
              · exact Or.inr (Or.inr ⟨x, hx2, hxp, hxni⟩)
        · rw [syncLoop_cons_ok_noflush env it rest st chunks hni hcr hbs] at hrun
          apply ih _ hh' ?_ ?_ ?_ st' hrun
          · intro q hq hqp
            rcases List.mem_append.mp hq with hq1 | hq2
            · exact hqh q hq1 hqp
            · rcases List.mem_singleton.mp hq2 with rfl
              exact hh it (List.mem_cons_self _ _) hqp
          · intro q hq
            rcases List.mem_append.mp hq with hq1 | hq2
            · exact hqne q hq1
            · rcases List.mem_singleton.mp hq2 with rfl
              exact prepareFile_ne_nil env it.1 it.2.1 it.2.2.1 chunks
          · rcases htr with htr | htr | ⟨x, hx, hxp, hxni⟩
            · exact Or.inl htr
            · refine Or.inr (Or.inl ?_)
              show p ∈ (st.queue ++ _).map _
              rw [List.map_append]
              exact List.mem_append.mpr (Or.inl htr)
            · rcases List.mem_cons.mp hx with rfl | hx2
              · refine Or.inr (Or.inl ?_)
                show p ∈ (st.queue ++ _).map _
                rw [List.map_append]
                refine List.mem_append.mpr (Or.inr ?_)
                simp [hxp]
              · exact Or.inr (Or.inr ⟨x, hx2, hxp, hxni⟩)

theorem syncLoop_records (env : SyncEnv) :
    ∀ (items : List (Str × Str × Str × Bool)) (st st' : SyncState),
      syncLoop env false items st = .ok st' →
      st'.store.records ++ st'.queue.flatMap (fun q => q.2.2) =
        st.store.records ++ st.queue.flatMap (fun q => q.2.2) ++
          items.flatMap (fun it =>
            if it.2.2.2 then
              match env.chunkRes it.1 it.2.2.1 with
              | .ok chunks => prepareFile env it.1 it.2.1 it.2.2.1 chunks
              | .error _ => []
            else []) := by
  intro items
  induction items with
  | nil =>
    intro st st' hrun
    have hst : st = st' := by
      have : Except.ok (ε := Unit) st = Except.ok st' := hrun
      injection this
    subst hst
    simp
  | cons it rest ih =>
    intro st st' hrun
    rcases hni : it.2.2.2 with _ | _
    · rw [syncLoop_cons_skip env false it rest st hni] at hrun
      rw [ih _ _ hrun]
      simp [List.flatMap_cons, hni, List.append_assoc]
    · rcases hcr : env.chunkRes it.1 it.2.2.1 with e | chunks
      · rw [syncLoop_cons_err env it rest st e hni hcr] at hrun
        exact Except.noConfusion hrun
      · by_cases hbs : env.batchSize ≤ st.queue.length + 1
        · obtain ⟨st3, heq, _, hs3, hq3, _⟩ :=
            syncLoop_cons_ok_flush env it rest st chunks hni hcr hbs
          rw [heq] at hrun
          rw [ih _ _ hrun, hs3, hq3, processEmbedBatch_records]
          simp [List.flatMap_cons, List.flatMap_append, hni, hcr, List.append_assoc]
        · rw [syncLoop_cons_ok_noflush env it rest st chunks hni hcr hbs] at hrun
          rw [ih _ _ hrun]
          simp [List.flatMap_cons, List.flatMap_append, hni, hcr, List.append_assoc]

/-- **Claim C6 (confirmed).**  A dry-run `initial_sync` performs no store or
meta-store effect at all (no `delete_files`, no `insert_batch`, no meta save,
no index build: the effect trace is empty and meta and store are returned
unchanged), and the reported `indexed` count is exactly the number of
readable files whose recomputed hash differs from the stored hash
(meta hash, falling back to the store's hash map). -/
theorem claimC6_dry_run_frame (env : SyncEnv) (m : MetaStore) (s : StoreState) :
    initialSync env m s true =
      .ok ({ meta := m, store := s, effs := []
             processed := env.files.countP (fun fl => fl.2.isSome)
             indexed := env.files.countP (fun fl =>
               ((fl.2.map (fun c =>
                 decide (lookupHash m s fl.1 ≠ some (env.hashOf c)))).getD false))
             skipped := env.files.countP (fun fl =>
               ((fl.2.map (fun c =>
                 !decide (lookupHash m s fl.1 ≠ some (env.hashOf c)))).getD false))
             queue := [], sinceSave := 0 },
           { processed := env.files.countP (fun fl => fl.2.isSome)
             indexed := env.files.countP (fun fl =>
               ((fl.2.map (fun c =>
                 decide (lookupHash m s fl.1 ≠ some (env.hashOf c)))).getD false))
             skipped := env.files.countP (fun fl =>
               ((fl.2.map (fun c =>
                 !decide (lookupHash m s fl.1 ≠ some (env.hashOf c)))).getD false))
             deleted := (stalePaths env m).length }) := by
  simp only [initialSync, Bool.true_eq_false, false_and, if_false]
  rw [syncLoop_dry]
  dsimp only
  rw [List.filterMap_map]
  simp only [Function.id_comp]
  rw [length_filterMap_eq_countP, countP_filterMap_eq, countP_filterMap_eq]
  simp [Option.isSome_map', Function.comp_def]

theorem initialSync_unfold (env : SyncEnv) (m : MetaStore) (s : StoreState) (dr : Bool) :
    initialSync env m s dr =
      match syncLoop env dr (syncItems env m s dr) (syncSt0 env m s dr) with
      | .error e => .error e
      | .ok st => syncPost dr (stalePaths env m).length st := rfl

theorem processEmbedBatch_skipped (st : SyncState)
    (batch : List (Str × Str × List SRecord)) :
    (processEmbedBatch st batch).2.skipped = st.skipped := by
  rw [processEmbedBatch]
  split
  · rfl
  · rfl

theorem syncPost_true (d : Nat) (st : SyncState) :
    syncPost true d st = .ok (st, ⟨st.processed, st.indexed, st.skipped, d⟩) := by
  simp [syncPost]

theorem syncPost_false (d : Nat) (st : SyncState) :
    ∃ stf, syncPost false d st = .ok (stf, ⟨stf.processed, stf.indexed, stf.skipped, d⟩) ∧
      stf.processed = st.processed ∧ stf.skipped = st.skipped ∧
      stf.store.records = st.store.records ++ st.queue.flatMap (fun q => q.2.2) ∧
      stf.meta = (processEmbedBatch { st with queue := [] } st.queue).2.meta ∧
      stf.store = (processEmbedBatch { st with queue := [] } st.queue).2.store ∧
      (st.queue = [] → stf.indexed = st.indexed) := by
  simp only [syncPost, if_true, true_and]
  by_cases hq : st.queue = []
  · rw [if_neg (not_not_intro hq)]
    refine ⟨_, rfl, ?_, ?_, ?_, ?_, ?_, ?_⟩
    · rw [apply_ite (fun x : SyncState => x.processed), ite_self]
    · rw [apply_ite (fun x : SyncState => x.skipped), ite_self]
    · rw [apply_ite (fun x : SyncState => x.store.records), ite_self, hq]
      simp
    · rw [apply_ite (fun x : SyncState => x.meta), ite_self, hq,
        processEmbedBatch_eq_nil _ [] rfl]
    · rw [apply_ite (fun x : SyncState => x.store), ite_self, hq,
        processEmbedBatch_eq_nil _ [] rfl]
    · exact fun _ => by rw [apply_ite (fun x : SyncState => x.indexed), ite_self]
  · rw [if_pos hq]
    refine ⟨_, rfl, ?_, ?_, ?_, ?_, ?_, ?_⟩
    · rw [apply_ite (fun x : SyncState => x.processed), ite_self,
        processEmbedBatch_processed]
    · rw [apply_ite (fun x : SyncState => x.skipped), ite_self,
        processEmbedBatch_skipped]
    · rw [apply_ite (fun x : SyncState => x.store.records), ite_self]
      show (processEmbedBatch { st with queue := [] } st.queue).2.store.records = _
      rw [processEmbedBatch_records]
    · rw [apply_ite (fun x : SyncState => x.meta), ite_self]
    · rw [apply_ite (fun x : SyncState => x.store), ite_self]
    · exact fun hcontra => absurd hcontra hq

theorem syncItems_length (env : SyncEnv) (m : MetaStore) (s : StoreState) (dr : Bool) :
    (syncItems env m s dr).length = env.files.countP (fun fl => fl.2.isSome) := by
  rw [syncItems, syncHashResults, List.filterMap_map]
  simp only [Function.id_comp]
  rw [length_filterMap_eq_countP]
  simp [Option.isSome_map']

/-- **C5 counterexample.**  The spec says a per-file chunk error only skips
that file.  In the source, the `?` on the `chunker.chunk(...)` call inside
`initial_sync` propagates the error: with a chunker that fails, the whole
sync returns an error instead of a `SyncResult`. -/
theorem claimC5_counterexample :
    isOkE (initialSync envChunkErr emptyMeta emptyStore false) = false := rfl

/-- **Claim C5 (amended).**  A per-file *read* error is indeed skipped
silently: the file is dropped from the hash results and the sync still
returns a `SyncResult`, with `processed` counting exactly the readable
files.  (A *chunk* error, by contrast, aborts the sync: see the
counterexample.)  Holds for every environment whose chunker never fails. -/
theorem claimC5_read_error_skipped (env : SyncEnv) (m : MetaStore) (s : StoreState)
    (dr : Bool) (hok : ∀ p c, isOkE (env.chunkRes p c) = true) :
    ∃ st r, initialSync env m s dr = .ok (st, r) ∧
      r.processed = env.files.countP (fun fl => fl.2.isSome) := by
  rw [initialSync_unfold]
  obtain ⟨st', hrun, hp⟩ :=
    syncLoop_ok_exists env dr hok (syncItems env m s dr) (syncSt0 env m s dr)
  rw [hrun]
  show ∃ st r, syncPost dr (stalePaths env m).length st' = .ok (st, r) ∧
    r.processed = env.files.countP (fun fl => fl.2.isSome)
  rcases dr with _ | _
  · obtain ⟨stf, hpost, hproc, _⟩ := syncPost_false (stalePaths env m).length st'
    refine ⟨stf, _, hpost, ?_⟩
    show stf.processed = _
    rw [hproc, hp, syncItems_length,
      show (syncSt0 env m s false).processed = 0 from rfl, Nat.zero_add]
  · rw [syncPost_true]
    exact ⟨st', _, rfl, by
      show st'.processed = _
      rw [hp, syncItems_length,
        show (syncSt0 env m s true).processed = 0 from rfl, Nat.zero_add]⟩

/-- Witness for C5: on an environment with one unreadable and one readable
file and a chunker that succeeds, the sync returns ok and processes exactly
the one readable file. -/
theorem claimC5_witness :
    ∃ st r, initialSync envReadErrW emptyMeta emptyStore false = .ok (st, r) ∧
      r.processed = envReadErrW.files.countP (fun fl => fl.2.isSome) :=
  claimC5_read_error_skipped envReadErrW emptyMeta emptyStore false (fun _ _ => rfl)

theorem syncMeta1_false_eq (env : SyncEnv) (m : MetaStore) :
    syncMeta1 env m false = metaStale env m := by
  rw [syncMeta1, metaStale]
  split
  · rfl
  · next hcond =>
    have hnil : stalePaths env m = [] := by
      by_contra hne
      exact hcond ⟨rfl, hne⟩
    rw [hnil]
    rfl

theorem syncStore1_false_eq (env : SyncEnv) (m : MetaStore) (s : StoreState) :
    syncStore1 env m s false = storeStale env m s := by
  rw [syncStore1, storeStale]
  split
  · rfl
  · next hcond =>
    have hnil : stalePaths env m = [] := by
      by_contra hne
      exact hcond ⟨rfl, hne⟩
    rw [hnil, StoreState.deleteFiles]
    rw [show s.records.filter (fun r => !decide (r.path ∈ ([] : List Str))) = s.records from
      by rw [List.filter_eq_self]; intro r _; simp]

theorem stalePaths_not_on_disk (env : SyncEnv) (m : MetaStore) (p : Str)
    (hp : p ∈ env.files.map (fun f => f.1)) : p ∉ stalePaths env m := by
  intro hmem
  rw [stalePaths] at hmem
  have := List.of_mem_filter hmem
  simp only [decide_eq_true_eq] at this
  exact this hp

theorem syncMeta1_getHash_on_disk (env : SyncEnv) (m : MetaStore) (p : Str)
    (hp : p ∈ env.files.map (fun f => f.1)) :
    (syncMeta1 env m false).getHash p = m.getHash p := by
  rw [syncMeta1]
  split
  · exact getHash_removeFold_other _ p (stalePaths_not_on_disk env m p hp) m
  · rfl

theorem syncStore1_fileHash_on_disk (env : SyncEnv) (m : MetaStore) (s : StoreState)
    (p : Str) (hp : p ∈ env.files.map (fun f => f.1)) :
    (syncStore1 env m s false).fileHash p = s.fileHash p := by
  rw [syncStore1]
  split
  · exact fileHash_deleteFiles_not_mem s _ p (stalePaths_not_on_disk env m p hp)
  · rfl

theorem lookupHash_sync1_on_disk (env : SyncEnv) (m : MetaStore) (s : StoreState)
    (p : Str) (hp : p ∈ env.files.map (fun f => f.1)) :
    lookupHash (syncMeta1 env m false) (syncStore1 env m s false) p =
      lookupHash m s p := by
  rcases hm : m.getHash p with _ | h
  · rw [lookupHash_meta_none _ _ _ (by rw [syncMeta1_getHash_on_disk env m p hp]; exact hm),
      lookupHash_meta_none _ _ _ hm]
    exact syncStore1_fileHash_on_disk env m s p hp
  · rw [lookupHash_meta_some _ _ _ _ (by rw [syncMeta1_getHash_on_disk env m p hp]; exact hm),
      lookupHash_meta_some _ _ _ _ hm]

theorem files_readable_unique (env : SyncEnv)
    (hnodup : (env.files.map (fun f => f.1)).Nodup) (p : Str) (c c' : Str)
    (h1 : (p, some c) ∈ env.files) (h2 : (p, some c') ∈ env.files) : c = c' := by
  have := List.inj_on_of_nodup_map hnodup h1 h2 rfl
  injection this with _ hsome
  injection hsome

theorem fileHash_none_no_records (s : StoreState) (p : Str)
    (h : s.fileHash p = none) :
    s.records.filter (fun r => decide (r.path = p)) = [] := by
  rw [StoreState.fileHash] at h
  rcases hf : s.records.find? (fun r => decide (r.path = p)) with _ | r
  · rw [List.filter_eq_nil]
    intro r hr
    have := List.find?_eq_none.mp hf r hr
    simpa using this
  · rw [hf] at h
    simp at h

theorem deleteFiles_filter_mem (s : StoreState) (ps : List Str) (p : Str) (hp : p ∈ ps) :
    (s.deleteFiles ps).records.filter (fun r => decide (r.path = p)) = [] := by
  rw [StoreState.deleteFiles]
  show (s.records.filter _).filter _ = []
  rw [List.filter_filter, List.filter_eq_nil]
  intro r _
  simp only [Bool.and_eq_true, decide_eq_true_eq, Bool.not_eq_true', decide_eq_false_iff_not,
    not_and]
  intro hrp
  rw [hrp]
  simp [hp]

theorem syncItems_mem (env : SyncEnv) (m : MetaStore) (s : StoreState) (dr : Bool) :
    ∀ it ∈ syncItems env m s dr,
      ∃ c, (it.1, some c) ∈ env.files ∧
        it = (it.1, env.hashOf c, c,
          decide (lookupHash (syncMeta1 env m dr) (syncStore1 env m s dr) it.1 ≠
            some (env.hashOf c))) := by
  intro it hit
  rw [syncItems, syncHashResults, List.filterMap_map] at hit
  simp only [Function.id_comp, List.mem_filterMap, Option.map_eq_some'] at hit
  obtain ⟨fl, hfl, c, hc, hit2⟩ := hit
  subst hit2
  refine ⟨c, ?_, rfl⟩
  show (fl.1, some c) ∈ env.files
  rw [← hc]
  exact hfl

theorem syncItems_mem_of_file (env : SyncEnv) (m : MetaStore) (s : StoreState) (dr : Bool)
    (p c : Str) (hf : (p, some c) ∈ env.files) :
    (p, env.hashOf c, c,
      decide (lookupHash (syncMeta1 env m dr) (syncStore1 env m s dr) p ≠
        some (env.hashOf c))) ∈ syncItems env m s dr := by
  rw [syncItems, syncHashResults, List.filterMap_map]
  simp only [Function.id_comp, List.mem_filterMap, Option.map_eq_some']
  exact ⟨(p, some c), hf, c, rfl, rfl⟩

theorem syncChangedFiles_mem (env : SyncEnv) (m : MetaStore) (s : StoreState) (dr : Bool) :
    ∀ q ∈ syncChangedFiles env m s dr,
      ∃ c, (q, some c) ∈ env.files ∧
        decide (lookupHash (syncMeta1 env m dr) (syncStore1 env m s dr) q ≠
          some (env.hashOf c)) = true := by
  intro q hq
  rw [syncChangedFiles, syncHashResults] at hq
  simp only [List.mem_filterMap, List.mem_map] at hq
  obtain ⟨r, ⟨fl, hfl, hr⟩, hq2⟩ := hq
  subst hr
  rcases hfl2 : fl.2 with _ | c
  · rw [hfl2] at hq2
    simp at hq2
  · rw [hfl2] at hq2
    simp only [Option.map_some'] at hq2
    split at hq2
    · next hcond =>
      injection hq2 with hq3
      subst hq3
      refine ⟨c, ?_, by simp [hcond.1]⟩
      show (fl.1, some c) ∈ env.files
      rw [← hfl2]
      exact hfl
    · exact Option.noConfusion hq2

theorem syncChangedFiles_mem_of (env : SyncEnv) (m : MetaStore) (s : StoreState)
    (dr : Bool) (p c : Str) (hf : (p, some c) ∈ env.files)
    (hni : decide (lookupHash (syncMeta1 env m dr) (syncStore1 env m s dr) p ≠
      some (env.hashOf c)) = true)
    (hknown : ((syncMeta1 env m dr).getHash p).isSome = true ∨
      ((syncStore1 env m s dr).fileHash p).isSome = true) :
    p ∈ syncChangedFiles env m s dr := by
  rw [syncChangedFiles, syncHashResults]
  simp only [List.mem_filterMap, List.mem_map]
  refine ⟨(some c).map (fun cc =>
    (p, env.hashOf cc, cc,
      decide (lookupHash (syncMeta1 env m dr) (syncStore1 env m s dr) p ≠
        some (env.hashOf cc)))), ⟨(p, some c), hf, rfl⟩, ?_⟩
  simp only [Option.map_some']
  rw [if_pos]
  constructor
  · exact hni
  · rcases hknown with hk | hk
    · exact Or.inl (by simpa using hk)
    · exact Or.inr (by simpa using hk)

theorem map_filterMap_sublist {α β : Type} (f : α → Option β) (k : β → Str) (k' : α → Str)
    (hcomp : ∀ a b, f a = some b → k b = k' a) :
    ∀ l : List α, ((l.filterMap f).map k).Sublist (l.map k') := by
  intro l
  induction l with
  | nil => simp
  | cons a rest ih =>
    rcases hf : f a with _ | b
    · rw [List.filterMap_cons_none hf, List.map_cons]
      exact ih.cons _
    · rw [List.filterMap_cons_some hf, List.map_cons, List.map_cons,
        hcomp a b hf]
      exact ih.cons₂ _

theorem syncStore2_fileHash_of_not_changed (env : SyncEnv) (m : MetaStore) (s : StoreState)
    (dr : Bool) (p : Str) (hp : p ∉ syncChangedFiles env m s dr) :
    (syncStore2 env m s dr).fileHash p = (syncStore1 env m s dr).fileHash p := by
  rw [syncStore2]
  split
  · exact fileHash_deleteFiles_not_mem _ _ p hp
  · rfl

theorem initialSync_lookup (env : SyncEnv) (m : MetaStore) (s : StoreState)
    (hnodup : (env.files.map (fun f => f.1)).Nodup)
    (hok : ∀ p' c', isOkE (env.chunkRes p' c') = true)
    (st1 : SyncState) (r1 : SyncResult)
    (h1 : initialSync env m s false = .ok (st1, r1))
    (p c : Str) (hf : (p, some c) ∈ env.files) :
    lookupHash st1.meta st1.store p = some (env.hashOf c) := by
  rw [initialSync_unfold] at h1
  obtain ⟨st', hrun, _⟩ :=
    syncLoop_ok_exists env false hok (syncItems env m s false) (syncSt0 env m s false)
  rw [hrun] at h1
  have h1' : syncPost false (stalePaths env m).length st' = .ok (st1, r1) := h1
  obtain ⟨stf, hpost, _, _, _, hmeta, hstore, _⟩ :=
    syncPost_false (stalePaths env m).length st'
  rw [hpost] at h1'
  have hpair : (stf,
      (⟨stf.processed, stf.indexed, stf.skipped, (stalePaths env m).length⟩ : SyncResult)) =
      (st1, r1) := by
    injection h1'
  have hstf : stf = st1 := congrArg Prod.fst hpair
  have hh : ∀ it ∈ syncItems env m s false, it.1 = p → it.2.1 = env.hashOf c := by
    intro it hit hitp
    obtain ⟨c', hfc', hform⟩ := syncItems_mem env m s false it hit
    rw [hitp] at hfc'
    have hcc : c = c' := files_readable_unique env hnodup p c c' hf hfc'
    rw [hform]
    show env.hashOf c' = env.hashOf c
    rw [hcc]
  have hqh0 : ∀ q ∈ (syncSt0 env m s false).queue, q.1 = p → q.2.1 = env.hashOf c := by
    intro q hq
    simp [syncSt0] at hq
  have hqne0 : ∀ q ∈ (syncSt0 env m s false).queue, q.2.2 ≠ [] := by
    intro q hq
    simp [syncSt0] at hq
  have htr0 : lookupHash (syncSt0 env m s false).meta (syncSt0 env m s false).store p =
      some (env.hashOf c) ∨
      p ∈ (syncSt0 env m s false).queue.map (fun q => q.1) ∨
      ∃ it ∈ syncItems env m s false, it.1 = p ∧ it.2.2.2 = true := by
    by_cases hni : lookupHash (syncMeta1 env m false) (syncStore1 env m s false) p =
      some (env.hashOf c)
    · refine Or.inl ?_
      show lookupHash (syncMeta1 env m false) (syncStore2 env m s false) p =
        some (env.hashOf c)
      rcases hm : (syncMeta1 env m false).getHash p with _ | h'
      · rw [lookupHash_meta_none _ _ _ hm] at hni
        have hnc : p ∉ syncChangedFiles env m s false := by
          intro hpc
          obtain ⟨c'', hf'', hni''⟩ := syncChangedFiles_mem env m s false p hpc
          have hcc : c = c'' := files_readable_unique env hnodup p c c'' hf hf''
          rw [← hcc] at hni''
          simp only [decide_eq_true_eq] at hni''
          exact hni'' (lookupHash_meta_none _ _ _ hm ▸ hni)
        rw [lookupHash_meta_none _ _ _ hm,
          syncStore2_fileHash_of_not_changed env m s false p hnc]
        exact hni
      · rw [lookupHash_meta_some _ _ _ _ hm] at hni
        exact lookupHash_meta_some _ _ _ _ (hm.trans (by injection hni with h2; rw [h2]))
    · refine Or.inr (Or.inr ?_)
      refine ⟨_, syncItems_mem_of_file env m s false p c hf, rfl, ?_⟩
      simp [hni]
  obtain ⟨htl, hqh', hqne'⟩ := syncLoop_tracked env p (env.hashOf c) hok
    (syncItems env m s false) (syncSt0 env m s false) hh hqh0 hqne0 htr0 st' hrun
  have hlf : lookupHash stf.meta stf.store p = some (env.hashOf c) := by
    rw [hmeta, hstore]
    apply processEmbedBatch_lookup _ _ p (env.hashOf c) hqh' hqne'
    rcases htl with htl | htl
    · exact Or.inl htl
    · exact Or.inr htl
  rw [← hstf]
  exact hlf

/-- **Claim C4 (confirmed).**  Running `initial_sync` twice in a row over an
unchanged file tree yields `indexed = 0` on the second run: after a
successful non-dry run, every readable file's stored hash (meta store,
falling back to the store's hash map) equals the recomputed hash, so every
file's `needs_indexing` bit is false on the second run and all files are
skipped.  `hnodup` states that file discovery yields each path once, and
`hok` that the chunker succeeds on every file (a chunker failure would
already abort the first run). -/
theorem claimC4_idempotent_sync (env : SyncEnv) (m : MetaStore) (s : StoreState)
    (hnodup : (env.files.map (fun f => f.1)).Nodup)
    (hok : ∀ p c, isOkE (env.chunkRes p c) = true)
    (st1 : SyncState) (r1 : SyncResult)
    (h1 : initialSync env m s false = .ok (st1, r1)) :
    ∃ st2 r2, initialSync env st1.meta st1.store false = .ok (st2, r2) ∧
      r2.indexed = 0 := by
  have hall : ∀ it ∈ syncItems env st1.meta st1.store false, it.2.2.2 = false := by
    intro it hit
    obtain ⟨c, hfc, hform⟩ := syncItems_mem env st1.meta st1.store false it hit
    rw [hform]
    show decide (lookupHash (syncMeta1 env st1.meta false)
      (syncStore1 env st1.meta st1.store false) it.1 ≠ some (env.hashOf c)) = false
    rw [lookupHash_sync1_on_disk env st1.meta st1.store it.1
      (List.mem_map.mpr ⟨(it.1, some c), hfc, rfl⟩)]
    rw [initialSync_lookup env m s hnodup hok st1 r1 h1 it.1 c hfc]
    simp
  rw [initialSync_unfold]
  rw [syncLoop_all_skip env false (syncItems env st1.meta st1.store false)
    (syncSt0 env st1.meta st1.store false) hall]
  show ∃ st2 r2, syncPost false (stalePaths env st1.meta).length
    { syncSt0 env st1.meta st1.store false with
      processed := (syncSt0 env st1.meta st1.store false).processed +
        (syncItems env st1.meta st1.store false).length
      skipped := (syncSt0 env st1.meta st1.store false).skipped +
        (syncItems env st1.meta st1.store false).length } = .ok (st2, r2) ∧
    r2.indexed = 0
  rcases syncPost_false (stalePaths env st1.meta).length
    { syncSt0 env st1.meta st1.store false with
      processed := (syncSt0 env st1.meta st1.store false).processed +
        (syncItems env st1.meta st1.store false).length
      skipped := (syncSt0 env st1.meta st1.store false).skipped +
        (syncItems env st1.meta st1.store false).length } with
    ⟨stf, hpost, _, _, _, _, _, hidx⟩
  exact ⟨stf, _, hpost, hidx rfl⟩

/-- Witness for C4: a file tree with one unchanged file whose hash is
already recorded; the second run indexes nothing. -/
theorem claimC4_witness :
    ∃ st2 r2,
      initialSync envIdemW
        (⟨metaIdemW, emptyStore, [SyncEff.metaSave], 1, 0, 1, [], 0⟩ : SyncState).meta
        (⟨metaIdemW, emptyStore, [SyncEff.metaSave], 1, 0, 1, [], 0⟩ : SyncState).store
        false = .ok (st2, r2) ∧ r2.indexed = 0 :=
  claimC4_idempotent_sync envIdemW metaIdemW emptyStore (by decide) (fun _ _ => rfl)
    ⟨metaIdemW, emptyStore, [SyncEff.metaSave], 1, 0, 1, [], 0⟩ ⟨1, 0, 1, 0⟩ rfl

theorem filter_flatMap {α β : Type} (f : α → List β) (q : β → Bool) :
    ∀ l : List α, (l.flatMap f).filter q = l.flatMap (fun x => (f x).filter q) := by
  intro l
  induction l with
  | nil => rfl
  | cons a rest ih =>
    rw [List.flatMap_cons, List.flatMap_cons, List.filter_append, ih]

theorem flatMap_eq_single {α β : Type} (f : α → List β) (key : α → Str) :
    ∀ (l : List α) (x : α), x ∈ l → (l.map key).Nodup →
      (∀ y ∈ l, key y ≠ key x → f y = []) → l.flatMap f = f x := by
  intro l
  induction l with
  | nil =>
    intro x hx
    simp at hx
  | cons a rest ih =>
    intro x hx hnd h0
    have hnd2 := hnd
    rw [List.map_cons, List.nodup_cons] at hnd2
    rw [List.flatMap_cons]
    rcases List.mem_cons.mp hx with rfl | hx2
    · have hnil : ∀ rr : List α, (∀ y ∈ rr, f y = []) → rr.flatMap f = [] := by
        intro rr hrr
        induction rr with
        | nil => rfl
        | cons b brest ihb =>
          rw [List.flatMap_cons, hrr b (List.mem_cons_self _ _), List.nil_append]
          exact ihb (fun y hy => hrr y (List.mem_cons_of_mem _ hy))
      have hrest : rest.flatMap f = [] := by
        apply hnil
        intro y hy
        apply h0 y (List.mem_cons_of_mem _ hy)
        intro he
        exact hnd2.1 (he ▸ List.mem_map.mpr ⟨y, hy, rfl⟩)
      rw [hrest, List.append_nil]
    · have hka : key a ≠ key x := by
        intro he
        exact hnd2.1 (he ▸ List.mem_map.mpr ⟨x, hx2, rfl⟩)
      rw [h0 a (List.mem_cons_self _ _) hka, List.nil_append]
      exact ih x hx2 hnd2.2 (fun y hy => h0 y (List.mem_cons_of_mem _ hy))

theorem prepareFile_paths (env : SyncEnv) (p h c : Str) (chunks : List Chunk) :
    ∀ r ∈ prepareFile env p h c chunks, r.path = p := by
  intro r hr
  simp only [prepareFile] at hr
  rcases List.mem_cons.mp hr with rfl | hr2
  · rfl
  · rw [prepareOrdinary] at hr2
    obtain ⟨e, _, he⟩ := List.mem_map.mp hr2
    rw [← he]

theorem syncStore2_filter_nil (env : SyncEnv) (m : MetaStore) (s : StoreState)
    (p c : Str) (hf : (p, some c) ∈ env.files)
    (hni : decide (lookupHash (syncMeta1 env m false) (syncStore1 env m s false) p ≠
      some (env.hashOf c)) = true) :
    (syncStore2 env m s false).records.filter (fun r => decide (r.path = p)) = [] := by
  by_cases hk : ((syncMeta1 env m false).getHash p).isSome = true ∨
      ((syncStore1 env m s false).fileHash p).isSome = true
  · have hpc : p ∈ syncChangedFiles env m s false :=
      syncChangedFiles_mem_of env m s false p c hf hni hk
    rw [syncStore2, if_pos ⟨rfl, fun hnil => by
      rw [hnil] at hpc
      exact absurd hpc (List.not_mem_nil p)⟩]
    exact deleteFiles_filter_mem _ _ p hpc
  · push_neg at hk
    have hs1 : (syncStore1 env m s false).fileHash p = none := by
      rcases hx : (syncStore1 env m s false).fileHash p with _ | v
      · rfl
      · exact absurd (by rw [hx]; rfl) hk.2
    have hs1nil : (syncStore1 env m s false).records.filter
        (fun r => decide (r.path = p)) = [] :=
      fileHash_none_no_records _ p hs1
    rw [syncStore2]
    split
    · have hsub : ((((syncStore1 env m s false).deleteFiles
          (syncChangedFiles env m s false)).records.filter
          (fun r => decide (r.path = p)))).Sublist
          ((syncStore1 env m s false).records.filter (fun r => decide (r.path = p))) := by
        rw [StoreState.deleteFiles]
        show ((List.filter _ _).filter _).Sublist _
        exact (List.filter_sublist _).filter _
      rw [hs1nil] at hsub
      exact List.sublist_nil.mp hsub
    · exact hs1nil

theorem syncItems_paths_nodup (env : SyncEnv) (m : MetaStore) (s : StoreState) (dr : Bool)
    (hnodup : (env.files.map (fun f => f.1)).Nodup) :
    ((syncItems env m s dr).map (fun it => it.1)).Nodup := by
  have hs : ((syncItems env m s dr).map (fun it => it.1)).Sublist
      (env.files.map (fun fl => fl.1)) := by
    rw [syncItems, syncHashResults, List.filterMap_map]
    simp only [Function.id_comp]
    apply map_filterMap_sublist
    intro a b hab
    rcases ha2 : a.2 with _ | cc
    · rw [ha2] at hab
      simp at hab
    · rw [ha2] at hab
      simp only [Option.map_some'] at hab
      injection hab with hab
      rw [← hab]
  exact hs.nodup hnodup

/-- **Claim C8 (confirmed).**  For every file a non-dry `initial_sync`
indexes (fresh or changed, readable, with at least one ordinary chunk), the
records persisted for that path are exactly the prepared chunks of the file:
one anchor record first, with `chunk_index = 0` and `is_anchor = true`
(and no other anchor record), and the ordinary chunks after it, the `k`-th
carrying `chunk_index = k + 1` and `is_anchor = false`. -/
theorem claimC8_anchor_records (env : SyncEnv) (m : MetaStore) (s : StoreState)
    (hnodup : (env.files.map (fun f => f.1)).Nodup)
    (hok : ∀ p' c', isOkE (env.chunkRes p' c') = true)
    (p c : Str) (chunks : List Chunk)
    (hf : (p, some c) ∈ env.files)
    (hch : env.chunkRes p c = .ok chunks)
    (hne : chunks ≠ [])
    (hni : needsIdx env m s p c = true)
    (st1 : SyncState) (r1 : SyncResult)
    (h1 : initialSync env m s false = .ok (st1, r1)) :
    st1.store.records.filter (fun r => decide (r.path = p)) =
      prepareFile env p (env.hashOf c) c chunks ∧
    (prepareFile env p (env.hashOf c) c chunks).countP
      (fun r => decide (r.is_anchor = some true)) = 1 ∧
    (∃ a, (prepareFile env p (env.hashOf c) c chunks).head? = some a ∧
      a.chunk_index = some 0 ∧ a.is_anchor = some true) ∧
    (∀ k r, (prepareFile env p (env.hashOf c) c chunks).get? (k + 1) = some r →
      r.chunk_index = some (k + 1) ∧ r.is_anchor = some false) := by
  have hni' : decide (lookupHash (syncMeta1 env m false) (syncStore1 env m s false) p ≠
      some (env.hashOf c)) = true := by
    rw [syncMeta1_false_eq, syncStore1_false_eq]
    exact hni
  refine ⟨?_, ?_, ?_, ?_⟩
  · rw [initialSync_unfold] at h1
    obtain ⟨st', hrun, _⟩ :=
      syncLoop_ok_exists env false hok (syncItems env m s false) (syncSt0 env m s false)
    rw [hrun] at h1
    have h1' : syncPost false (stalePaths env m).length st' = .ok (st1, r1) := h1
    obtain ⟨stf, hpost, _, _, hrecs, _, _, _⟩ :=
      syncPost_false (stalePaths env m).length st'
    rw [hpost] at h1'
    have hpair : (stf,
        (⟨stf.processed, stf.indexed, stf.skipped, (stalePaths env m).length⟩ :
          SyncResult)) = (st1, r1) := by
      injection h1'
    have hstf : stf = st1 := congrArg Prod.fst hpair
    have hrec2 := syncLoop_records env (syncItems env m s false) (syncSt0 env m s false)
      st' hrun
    have hrec3 : st1.store.records =
        (syncStore2 env m s false).records ++
          (syncItems env m s false).flatMap (fun it =>
            if it.2.2.2 then
              match env.chunkRes it.1 it.2.2.1 with
              | .ok chunks2 => prepareFile env it.1 it.2.1 it.2.2.1 chunks2
              | .error _ => []
            else []) := by
      rw [← hstf, hrecs, hrec2]
      show (syncSt0 env m s false).store.records ++ _ ++ _ = _
      rw [show (syncSt0 env m s false).store = syncStore2 env m s false from rfl,
        show (syncSt0 env m s false).queue = ([] : List (Str × Str × List SRecord))
          from rfl]
      simp
    have hFpaths : ∀ it : Str × Str × Str × Bool, ∀ r ∈
        (if it.2.2.2 then
          match env.chunkRes it.1 it.2.2.1 with
          | .ok chunks2 => prepareFile env it.1 it.2.1 it.2.2.1 chunks2
          | .error _ => []
        else []), r.path = it.1 := by
      intro it r hr
      by_cases hni2 : it.2.2.2 = true
      · rw [if_pos hni2] at hr
        rcases hcr : env.chunkRes it.1 it.2.2.1 with e | ch
        · rw [hcr] at hr
          simp at hr
        · rw [hcr] at hr
          exact prepareFile_paths env it.1 it.2.1 it.2.2.1 ch r hr
      · rw [if_neg hni2] at hr
        simp at hr
    rw [hrec3, List.filter_append, syncStore2_filter_nil env m s p c hf hni',
      List.nil_append, filter_flatMap]
    have hmem := syncItems_mem_of_file env m s false p c hf
    have hpaths := syncItems_paths_nodup env m s false hnodup
    have heq := flatMap_eq_single
      (fun it =>
        (if it.2.2.2 then
          match env.chunkRes it.1 it.2.2.1 with
          | .ok chunks2 => prepareFile env it.1 it.2.1 it.2.2.1 chunks2
          | .error _ => []
        else []).filter (fun r => decide (r.path = p)))
      (fun it => it.1) (syncItems env m s false) _ hmem hpaths ?_
    · rw [heq]
      show ((if (decide (lookupHash (syncMeta1 env m false) (syncStore1 env m s false) p ≠
          some (env.hashOf c))) = true then
          match env.chunkRes p c with
          | .ok chunks2 => prepareFile env p (env.hashOf c) c chunks2
          | .error _ => []
        else []).filter (fun r => decide (r.path = p))) =
        prepareFile env p (env.hashOf c) c chunks
      rw [if_pos hni', hch, List.filter_eq_self]
      intro r hr
      simp [prepareFile_paths env p (env.hashOf c) c chunks r hr]
    · intro y hy hyk
      rw [List.filter_eq_nil]
      intro r hr
      have hrp : r.path = y.1 := hFpaths y r hr
      simp only [decide_eq_true_eq]
      rw [hrp]
      exact hyk
  · simp only [prepareFile]
    rw [List.countP_cons]
    have hz : (prepareOrdinary p (env.hashOf c) chunks).countP
        (fun r => decide (r.is_anchor = some true)) = 0 := by
      rw [List.countP_eq_zero]
      intro r hr
      rw [prepareOrdinary] at hr
      obtain ⟨e, _, he⟩ := List.mem_map.mp hr
      rw [← he]
      simp
    rw [hz]
    simp
  · exact ⟨_, rfl, rfl, rfl⟩
  · intro k r hkr
    simp only [prepareFile] at hkr
    rw [List.get?_cons_succ, prepareOrdinary, List.get?_map] at hkr
    rcases he : chunks.enum.get? k with _ | e
    · rw [he] at hkr
      simp at hkr
    · rw [he] at hkr
      simp only [Option.map_some'] at hkr
      injection hkr with hkr
      have hek : e.1 = k := by
        have henum := List.get?_enum chunks k
        rw [he] at henum
        rcases hc2 : chunks.get? k with _ | x
        · rw [hc2] at henum
          simp at henum
        · rw [hc2] at henum
          simp only [Option.map_some'] at henum
          injection henum with henum
          rw [henum]
      rw [← hkr]
      refine ⟨?_, rfl⟩
      show some (e.1 + 1) = some (k + 1)
      rw [hek]

/-- Witness for C8: one fresh file with one ordinary chunk; the persisted
records are the anchor (index 0) followed by the ordinary chunk (index 1). -/
theorem claimC8_witness :
    (⟨⟨[("g1".data, ⟨"Hz".data, 0⟩)], [], true⟩,
        ⟨[⟨"g1:anchor".data, "g1".data, "Hz".data,
            "File: g1\n\nPreamble:\nz\n\n---\n\n(anchor)".data, 0, 1, some 0, some true,
            some ChunkType.Block, none, none⟩,
          ⟨"g1:0".data, "g1".data, "Hz".data, "z".data, 0, 1, some 1, some false,
            some ChunkType.Block, none, none⟩]⟩,
        [SyncEff.insertBatch
            [⟨"g1:anchor".data, "g1".data, "Hz".data,
              "File: g1\n\nPreamble:\nz\n\n---\n\n(anchor)".data, 0, 1, some 0, some true,
              some ChunkType.Block, none, none⟩,
            ⟨"g1:0".data, "g1".data, "Hz".data, "z".data, 0, 1, some 1, some false,
              some ChunkType.Block, none, none⟩],
          SyncEff.metaSave, SyncEff.createFtsIndex, SyncEff.createVectorIndex],
        1, 1, 0, [], 0⟩ : SyncState).store.records.filter
      (fun r => decide (r.path = "g1".data)) =
      prepareFile envAnchorW "g1".data (envAnchorW.hashOf "z".data) "z".data
        [Chunk.new "z".data 0 1 ChunkType.Block []] ∧
    (prepareFile envAnchorW "g1".data (envAnchorW.hashOf "z".data) "z".data
        [Chunk.new "z".data 0 1 ChunkType.Block []]).countP
      (fun r => decide (r.is_anchor = some true)) = 1 ∧
    (∃ a, (prepareFile envAnchorW "g1".data (envAnchorW.hashOf "z".data) "z".data
        [Chunk.new "z".data 0 1 ChunkType.Block []]).head? = some a ∧
      a.chunk_index = some 0 ∧ a.is_anchor = some true) ∧
    (∀ k r, (prepareFile envAnchorW "g1".data (envAnchorW.hashOf "z".data) "z".data
        [Chunk.new "z".data 0 1 ChunkType.Block []]).get? (k + 1) = some r →
      r.chunk_index = some (k + 1) ∧ r.is_anchor = some false) :=
  claimC8_anchor_records envAnchorW emptyMeta emptyStore (by decide) (fun _ _ => rfl)
    "g1".data "z".data [Chunk.new "z".data 0 1 ChunkType.Block []]
    (by decide) rfl (by decide) rfl
    ⟨⟨[("g1".data, ⟨"Hz".data, 0⟩)], [], true⟩,
      ⟨[⟨"g1:anchor".data, "g1".data, "Hz".data,
          "File: g1\n\nPreamble:\nz\n\n---\n\n(anchor)".data, 0, 1, some 0, some true,
          some ChunkType.Block, none, none⟩,
        ⟨"g1:0".data, "g1".data, "Hz".data, "z".data, 0, 1, some 1, some false,
          some ChunkType.Block, none, none⟩]⟩,
      [SyncEff.insertBatch
          [⟨"g1:anchor".data, "g1".data, "Hz".data,
            "File: g1\n\nPreamble:\nz\n\n---\n\n(anchor)".data, 0, 1, some 0, some true,
            some ChunkType.Block, none, none⟩,
          ⟨"g1:0".data, "g1".data, "Hz".data, "z".data, 0, 1, some 1, some false,
            some ChunkType.Block, none, none⟩],
        SyncEff.metaSave, SyncEff.createFtsIndex, SyncEff.createVectorIndex],
      1, 1, 0, [], 0⟩ ⟨1, 1, 0, 0⟩ rfl
